import Mathlib

/-!
Sokoban maze core (`maze.cc`): shallow embedding.

The board of `maze.cc` is embedded as a list of rows of tiles, positions as pairs
`(first, second) = (column, row)` of 64-bit `size_t` values, queues as lists (push at the
back, pop at the front), `std::set` as a list queried only for membership and `std::map`
as a finite map whose `operator[]` read yields the value-initialised default on a missing
key.  Loops take a fuel argument; assertion failures and out-of-range container reads are
the `abort` outcome.
-/

namespace Maze

/-- Largest `size_t` value (64-bit), `std::numeric_limits<size_t>::max()`: the
"unreached" sentinel of both distance annotations. -/
def SIZE_MAX : Nat := 18446744073709551615

/-- Number of `size_t` values, `2^64`: unsigned arithmetic is taken modulo this. -/
def SIZE_MOD : Nat := 18446744073709551616

/-- The type `Maze::position`: a pair `(first, second)` = `(column x, row y)`. -/
abbrev position : Type := Nat × Nat

/-- Modelled from the spec: `Maze::Tile::Type` is declared in `maze.h`, which is not among
the sources.  The spec names the categories Floor and Obstacle and calls the set
extensible; `Other` stands for any further enumerator. -/
inductive TileType where
  | Floor
  | Obstacle
  | Other (tag : Nat)
deriving DecidableEq

/-- The class `Maze::Tile`: category, the two distance annotations and the cached walkable flag. -/
structure Tile where
  type : TileType
  source_displacement : Nat
  target_displacement : Nat
  walkable : Bool
deriving DecidableEq

/-- The constructor `Maze::Tile::Tile()`: Floor, both distances at the sentinel, walkable. -/
def Tile.init : Tile :=
  { type := TileType.Floor, source_displacement := SIZE_MAX,
    target_displacement := SIZE_MAX, walkable := true }

/-- The method `Maze::Tile::isWalkable`: the cached flag. -/
def Tile.isWalkable (t : Tile) : Bool := t.walkable

/-- The method `Maze::Tile::setType`. -/
def Tile.setType (t : Tile) (value : TileType) : Tile :=
  { t with walkable := if value = TileType.Obstacle then false else true, type := value }

/-- Modelled from the spec: `up` is declared in `maze.h`, which is not among the sources.
The spec gives up = (col, row − 1); the coordinates are `size_t`, so the subtraction is
taken modulo `2^64`. -/
def up (p : position) : position := (p.1, (p.2 + SIZE_MAX) % SIZE_MOD)

/-- Modelled from the spec: `down` is declared in `maze.h`; down = (col, row + 1) in
`size_t` arithmetic. -/
def down (p : position) : position := (p.1, (p.2 + 1) % SIZE_MOD)

/-- Modelled from the spec: `left` is declared in `maze.h`; left = (col − 1, row) in
`size_t` arithmetic. -/
def left (p : position) : position := ((p.1 + SIZE_MAX) % SIZE_MOD, p.2)

/-- Modelled from the spec: `right` is declared in `maze.h`; right = (col + 1, row) in
`size_t` arithmetic. -/
def right (p : position) : position := ((p.1 + 1) % SIZE_MOD, p.2)

/-- Result of running a routine of `maze.cc` in the model. -/
inductive Outcome (α : Type) where
  /-- The call returned. -/
  | done (a : α)
  /-- An `assert` failed, or a container was indexed out of range. -/
  | abort
  /-- The fuel given to the model ran out before the call returned. -/
  | timeout
deriving DecidableEq

end Maze

/-- The class `Maze`: the jagged grid and the named positions. -/
structure Maze where
  tiles : List (List Maze.Tile)
  player_starting_pos : Maze.position
  crates_starting_pos : List Maze.position
  crates_ending_pos : List Maze.position

namespace Maze

/-- The constructor `Maze::Maze()`: no rows.  The position members are value-initialised here. -/
def init : Maze :=
  { tiles := [], player_starting_pos := (0, 0), crates_starting_pos := [],
    crates_ending_pos := [] }

/-- The method `Maze::height`. -/
def height (m : Maze) : Nat := m.tiles.length

/-- The method `Maze::width`: `tiles[row].size()`; `none` when `row` is not a row of the grid. -/
def width (m : Maze) (row : Nat) : Option Nat := (m.tiles[row]?).map List.length

/-- The method `Maze::add_row`. -/
def add_row (m : Maze) (length : Nat) : Maze :=
  { m with tiles := m.tiles ++ [List.replicate length Tile.init] }

/-- The method `Maze::valid`: `pos.second < height() && pos.first < width(pos.second)`; the second
conjunct is evaluated only when the first holds. -/
def valid (m : Maze) (pos : position) : Bool :=
  decide (pos.2 < m.height) &&
    (match m.width pos.2 with
     | some w => decide (pos.1 < w)
     | none => false)

/-- The accessor `Maze::operator()(size_t x, size_t y)`, read form: the assertion
`y < height() && x < tiles[y].size()`, then `tiles[y][x]`.  `none` is the failed assertion. -/
def call_xy (m : Maze) (x y : Nat) : Option Tile :=
  if decide (y < m.height) &&
      (match m.tiles[y]? with
       | some row => decide (x < row.length)
       | none => false) then
    match m.tiles[y]? with
    | some row => row[x]?
    | none => none
  else none

/-- The accessor `Maze::operator()(position)`, read form. -/
def call (m : Maze) (pos : position) : Option Tile := m.call_xy pos.1 pos.2

/-- The accessor `Maze::operator()(position)`, write form: the tile at `pos` is replaced by `f` of
itself.  `none` is the failed assertion. -/
def assign (m : Maze) (pos : position) (f : Tile → Tile) : Option Maze :=
  match m.call pos with
  | none => none
  | some t =>
    some { m with tiles := m.tiles.set pos.2 ((m.tiles.getD pos.2 []).set pos.1 (f t)) }

/-- The method `Maze::isTileWalkable`: `tiles[pos.second][pos.first].isWalkable()` without a bounds
check; `none` is an out-of-range index. -/
def isTileWalkable (m : Maze) (pos : position) : Option Bool :=
  match m.tiles[pos.2]? with
  | some row => (row[pos.1]?).map Tile.isWalkable
  | none => none

/-- The method `Maze::isWalkable`: statically walkable and absent from `obstacles`. -/
def isWalkable (m : Maze) (pos : position) (obstacles : List position) : Option Bool :=
  match m.isTileWalkable pos with
  | none => none
  | some false => some false
  | some true => some (if pos ∈ obstacles then false else true)

/-- One statement of `Maze::get_neighbors`:
`if (valid(p) && isWalkable(p, obstacles)) neighbors.emplace(p);`. -/
def get_neighbors_probe (m : Maze) (neighbors : List position) (p : position)
    (obstacles : List position) : Option (List position) :=
  if m.valid p then
    match m.isWalkable p obstacles with
    | none => none
    | some true => some (neighbors ++ [p])
    | some false => some neighbors
  else some neighbors

/-- The method `Maze::get_neighbors`: probes up, right, down, left of `current` in that order and
appends the admitted ones to the queue `neighbors`. -/
def get_neighbors (m : Maze) (neighbors : List position) (current : position)
    (obstacles : List position) : Option (List position) :=
  (m.get_neighbors_probe neighbors (up current) obstacles).bind fun n1 =>
  (m.get_neighbors_probe n1 (right current) obstacles).bind fun n2 =>
  (m.get_neighbors_probe n2 (down current) obstacles).bind fun n3 =>
  m.get_neighbors_probe n3 (left current) obstacles

/-! ## `Maze::reachable` -/

/-- Inner loop of `Maze::reachable` over the queue `neighbors`; `none` is `return true`,
otherwise the updated frontier and interior. -/
def reachable_neighbors (target : position) :
    List position → List position → List position → Option (List position × List position)
  | [], frontier, interior => some (frontier, interior)
  | neighbor :: neighbors, frontier, interior =>
    if neighbor ∈ interior then reachable_neighbors target neighbors frontier interior
    else if neighbor = target then none
    else reachable_neighbors target neighbors (frontier ++ [neighbor]) (neighbor :: interior)

/-- Outer loop of `Maze::reachable`. -/
def reachable_loop (m : Maze) (target : position) (obstacles : List position) :
    Nat → List position → List position → Outcome Bool
  | 0, _, _ => Outcome.timeout
  | _ + 1, [], _ => Outcome.done false
  | fuel + 1, current :: frontier, interior =>
    match m.get_neighbors [] current obstacles with
    | none => Outcome.abort
    | some neighbors =>
      match reachable_neighbors target neighbors frontier (List.insert current interior) with
      | none => Outcome.done true
      | some (frontier, interior) => reachable_loop m target obstacles fuel frontier interior

/-- The method `Maze::reachable`. -/
def reachable (m : Maze) (source target : position) (obstacles : List position)
    (fuel : Nat) : Outcome Bool :=
  reachable_loop m target obstacles fuel [source] []

/-! ## `Maze::find_path` -/

/-- The write `map[k] = v` on a `std::map` keyed by positions. -/
def map_set {β : Type} (f : position → Option β) (k : position) (v : β) :
    position → Option β :=
  fun p => if p = k then some v else f p

/-- Inner loop of `Maze::find_path` over the queue `neighbors`: the flag `found`, the
frontier and the predecessor map. -/
def find_path_neighbors (target current : position) (interior : List position) :
    List position → List position → (position → Option position) →
      Bool × List position × (position → Option position)
  | [], frontier, previous => (false, frontier, previous)
  | neighbor :: neighbors, frontier, previous =>
    if neighbor ∈ interior then
      find_path_neighbors target current interior neighbors frontier previous
    else if neighbor = target then (true, frontier, map_set previous neighbor current)
    else find_path_neighbors target current interior neighbors (frontier ++ [neighbor])
      (map_set previous neighbor current)

/-- Search loop of `Maze::find_path`: the flag `found` and the predecessor map at exit. -/
def find_path_search (m : Maze) (target : position) (obstacles : List position) :
    Nat → List position → List position → (position → Option position) →
      Outcome (Bool × (position → Option position))
  | 0, _, _, _ => Outcome.timeout
  | _ + 1, [], _, previous => Outcome.done (false, previous)
  | fuel + 1, current :: frontier, interior, previous =>
    if current ∈ interior then find_path_search m target obstacles fuel frontier interior previous
    else
      match m.get_neighbors [] current obstacles with
      | none => Outcome.abort
      | some neighbors =>
        match find_path_neighbors target current (current :: interior) neighbors frontier
            previous with
        | (true, _, previous) => Outcome.done (true, previous)
        | (false, frontier, previous) =>
          find_path_search m target obstacles fuel frontier (current :: interior) previous

/-- Back-trace of `Maze::find_path`:
`while (current != source) { output.push_back(current); current = previous[current]; }`
then `output.push_back(current)`.  Reading a missing key of the `std::map` yields the
value-initialised position `(0, 0)`. -/
def find_path_trace (source : position) (previous : position → Option position) :
    Nat → position → List position → Outcome (List position)
  | 0, _, _ => Outcome.timeout
  | fuel + 1, current, output =>
    if current = source then Outcome.done (output ++ [current])
    else find_path_trace source previous fuel ((previous current).getD (0, 0))
      (output ++ [current])

/-- The method `Maze::find_path`: the content of `output` at return. -/
def find_path (m : Maze) (source target : position) (obstacles : List position)
    (output : List position) (fuel : Nat) : Outcome (List position) :=
  if source = target then Outcome.done output
  else
    match find_path_search m target obstacles fuel [source] [] (fun _ => none) with
    | Outcome.done (_, previous) => find_path_trace source previous fuel target output
    | Outcome.abort => Outcome.abort
    | Outcome.timeout => Outcome.timeout

/-! ## `Maze::calculate_displacement_mapping` -/

/-- Search state of one pass: the board, the frontier, the interior and the cost map. -/
structure Pass where
  maze : Maze
  frontier : List position
  interior : List position
  cost : position → Option Nat

/-- Seeding loop of a pass: every seed is pushed, inserted, given cost 0 and its tile's
annotation is set to 0 through the asserting accessor. -/
def seed (setd : Nat → Tile → Tile) : List position → Pass → Option Pass
  | [], st => some st
  | source :: rest, st =>
    match st.maze.assign source (setd 0) with
    | none => none
    | some m =>
      seed setd rest
        { maze := m, frontier := st.frontier ++ [source],
          interior := List.insert source st.interior, cost := map_set st.cost source 0 }

/-- Inner loop of a pass over the queue `neighbors`: an undiscovered neighbour gets
`cost[current] + 1`, is pushed and inserted, and its tile's annotation is written through
the asserting accessor. -/
def relax (setd : Nat → Tile → Tile) (current : position) : List position → Pass → Option Pass
  | [], st => some st
  | neighbor :: neighbors, st =>
    if neighbor ∈ st.interior then relax setd current neighbors st
    else
      let c := ((st.cost current).getD 0 + 1) % SIZE_MOD
      match st.maze.assign neighbor (setd c) with
      | none => none
      | some m =>
        relax setd current neighbors
          { maze := m, frontier := st.frontier ++ [neighbor],
            interior := neighbor :: st.interior, cost := map_set st.cost neighbor c }

/-- Test `(*this)(p).type != Tile::Obstacle`; `none` is the failed assertion. -/
def notObstacle (m : Maze) (p : position) : Option Bool :=
  (m.call p).map fun t => decide (t.type ≠ TileType.Obstacle)

/-- One axis of the source pass: `if (A(a) && A(b)) { push a; push b; }` with `A` the
non-Obstacle test, `b` probed only when `a` passed. -/
def source_axis (m : Maze) (a b : position) (neighbors : List position) :
    Option (List position) :=
  match m.notObstacle a with
  | none => none
  | some false => some neighbors
  | some true =>
    match m.notObstacle b with
    | none => none
    | some false => some neighbors
    | some true => some (neighbors ++ [a, b])

/-- Neighbour probes of the source pass: the vertical pair, then the horizontal pair. -/
def source_neighbors (m : Maze) (current : position) : Option (List position) :=
  (m.source_axis (up current) (down current) []).bind fun n1 =>
  m.source_axis (left current) (right current) n1

/-- One direction of the target pass: `if (A(a) && A(b)) push a;` with `a` one step and
`b` two steps away, `b` probed only when `a` passed. -/
def target_dir (m : Maze) (a b : position) (neighbors : List position) :
    Option (List position) :=
  match m.notObstacle a with
  | none => none
  | some false => some neighbors
  | some true =>
    match m.notObstacle b with
    | none => none
    | some false => some neighbors
    | some true => some (neighbors ++ [a])

/-- Neighbour probes of the target pass: up, right, down, left, each with its two-ahead
lookahead. -/
def target_neighbors (m : Maze) (current : position) : Option (List position) :=
  (m.target_dir (up current) (up (up current)) []).bind fun n1 =>
  (m.target_dir (right current) (right (right current)) n1).bind fun n2 =>
  (m.target_dir (down current) (down (down current)) n2).bind fun n3 =>
  m.target_dir (left current) (left (left current)) n3

/-- Main loop of a pass: pop, probe the neighbours on the current board, relax them. -/
def pass_loop (probe : Maze → position → Option (List position))
    (setd : Nat → Tile → Tile) : Nat → Pass → Outcome Maze
  | 0, _ => Outcome.timeout
  | fuel + 1, st =>
    match st.frontier with
    | [] => Outcome.done st.maze
    | current :: frontier =>
      match probe st.maze current with
      | none => Outcome.abort
      | some neighbors =>
        match relax setd current neighbors { st with frontier := frontier } with
        | none => Outcome.abort
        | some st1 => pass_loop probe setd fuel st1

/-- A whole pass: seeding, then the main loop. -/
def pass (probe : Maze → position → Option (List position)) (setd : Nat → Tile → Tile)
    (seeds : List position) (m : Maze) (fuel : Nat) : Outcome Maze :=
  match seed setd seeds
      { maze := m, frontier := [], interior := [], cost := fun _ => none } with
  | none => Outcome.abort
  | some st => pass_loop probe setd fuel st

/-- Write of the `source_displacement` member. -/
def set_source (v : Nat) (t : Tile) : Tile := { t with source_displacement := v }

/-- Write of the `target_displacement` member. -/
def set_target (v : Nat) (t : Tile) : Tile := { t with target_displacement := v }

/-- First block of `Maze::calculate_displacement_mapping`: the source pass. -/
def source_pass (m : Maze) (fuel : Nat) : Outcome Maze :=
  pass source_neighbors set_source m.crates_starting_pos m fuel

/-- Second block of `Maze::calculate_displacement_mapping`: the target pass. -/
def target_pass (m : Maze) (fuel : Nat) : Outcome Maze :=
  pass target_neighbors set_target m.crates_ending_pos m fuel

/-- The method `Maze::calculate_displacement_mapping`: the source pass, then the target pass. -/
def calculate_displacement_mapping (m : Maze) (fuel : Nat) : Outcome Maze :=
  match m.source_pass fuel with
  | Outcome.done m1 => m1.target_pass fuel
  | Outcome.abort => Outcome.abort
  | Outcome.timeout => Outcome.timeout

/-- The method `Maze::add_crates_starting_pos`. -/
def add_crates_starting_pos (m : Maze) (pos : position) : Maze :=
  { m with crates_starting_pos := m.crates_starting_pos ++ [pos] }

/-- The method `Maze::add_crates_ending_pos`. -/
def add_crates_ending_pos (m : Maze) (pos : position) : Maze :=
  { m with crates_ending_pos := m.crates_ending_pos ++ [pos] }

/-- The method `Maze::set_player_starting_pos`. -/
def set_player_starting_pos (m : Maze) (pos : position) : Maze :=
  { m with player_starting_pos := pos }

/-! ## Specification vocabulary, loop invariants and sample boards -/

open Relation

/-- A position is free: grid-valid, statically walkable and absent from the obstacle
list. -/
def Free (m : Maze) (obs : List position) (p : position) : Prop :=
  m.valid p = true ∧ m.isTileWalkable p = some true ∧ p ∉ obs

instance (m : Maze) (obs : List position) (p : position) : Decidable (Free m obs p) := by
  unfold Free; infer_instance

/-- The position `v` is one of up, right, down, left of `u`. -/
def Cardinal (u v : position) : Prop :=
  v = up u ∨ v = right u ∨ v = down u ∨ v = left u

instance (u v : position) : Decidable (Cardinal u v) := by
  unfold Cardinal; infer_instance

/-- One move of the search graph: `v` is a cardinal neighbour of `u` and is free. -/
def Step (m : Maze) (obs : List position) (u v : position) : Prop :=
  Cardinal u v ∧ Free m obs v

instance (m : Maze) (obs : List position) (u v : position) : Decidable (Step m obs u v) := by
  unfold Step; infer_instance

/-- The admitted neighbours of `u`, in the order of `get_neighbors`. -/
def neighbors_of (m : Maze) (obs : List position) (u : position) : List position :=
  [up u, right u, down u, left u].filter fun p => decide (Free m obs p)

/-- The positions of the rows `rows`, the first of which has row index `y`. -/
def positionsFrom : Nat → List (List Tile) → List position
  | _, [] => []
  | y, row :: rest => (List.range row.length).map (fun x => (x, y)) ++ positionsFrom (y + 1) rest

/-- All positions of the grid, row by row. -/
def positions (m : Maze) : List position := positionsFrom 0 m.tiles

/-- The number of tiles of the grid. -/
def area (m : Maze) : Nat := (m.tiles.map List.length).sum

/-- Number of entries of `U` not yet in the set `seen`. -/
def unseenIn (U seen : List position) : Nat := U.countP fun p => decide (p ∉ seen)

/-- Number of grid positions not yet in the set `seen`. -/
def unseen (m : Maze) (seen : List position) : Nat := unseenIn (positions m) seen

/-- Loop invariant of `reachable` for a target other than the source. -/
structure ReachInv (m : Maze) (obs : List position) (s t : position)
    (f i : List position) : Prop where
  sound : ∀ v, v ∈ f ∨ v ∈ i → ReflTransGen (Step m obs) s v
  fresh : t ∉ f ∧ t ∉ i
  closed : ∀ u, u ∈ i → u ∉ f → ∀ v, Step m obs u v → v ∈ i
  src : s ∈ f ∨ s ∈ i

/-- The sequence `path = p1, ..., pk` leads from `s = p0` to `t = pk` along the relation
`R`: each `p(i+1)` is related to `p(i)`. -/
def Chained (R : position → position → Prop) (s : position) (path : List position)
    (t : position) : Prop :=
  List.Chain R s path ∧ List.getLast (s :: path) (List.cons_ne_nil _ _) = t

/-- The sequence `path = p1, ..., pk` leads from `s = p0` to `t = pk` in `k` moves of the
search graph: each `p(i+1)` is one of up, right, down, left of `p(i)` and is grid-valid,
statically walkable and absent from `obs`. -/
abbrev IsWalk (m : Maze) (obs : List position) (s : position) (path : List position)
    (t : position) : Prop :=
  Chained (Step m obs) s path t

/-- The sizes of the grid are `size_t` values. -/
def representable (m : Maze) : Prop :=
  m.height ≤ SIZE_MAX ∧ ∀ row ∈ m.tiles, row.length ≤ SIZE_MAX

instance (m : Maze) : Decidable (representable m) := by
  unfold representable; infer_instance

/-- Every tile's cached flag is the one `setType` computes from its type. -/
def coherent (m : Maze) : Prop :=
  ∀ row ∈ m.tiles, ∀ t ∈ row, t.walkable = decide (t.type ≠ TileType.Obstacle)

instance (m : Maze) : Decidable (coherent m) := by
  unfold coherent; infer_instance

/-- The tile at `p` exists and is not an Obstacle. -/
def NonObstacle (m : Maze) (p : position) : Prop :=
  ∃ t, m.call p = some t ∧ t.type ≠ TileType.Obstacle

/-- Cardinal adjacency on the grid: the positions differ by exactly one in exactly one
coordinate. -/
def Adjacent (u v : position) : Prop :=
  (u.1 = v.1 ∧ (u.2 + 1 = v.2 ∨ v.2 + 1 = u.2)) ∨ (u.2 = v.2 ∧ (u.1 + 1 = v.1 ∨ v.1 + 1 = u.1))

instance (u v : position) : Decidable (Adjacent u v) := by
  unfold Adjacent; infer_instance

/-- The sequence `s = p0, path = p1, ..., pk = t` is a simple cardinal path of non-Obstacle
tiles: consecutive positions are adjacent, every position is a non-Obstacle tile of the
grid and no position repeats. -/
def IsFloorPath (m : Maze) (s : position) (path : List position) (t : position) : Prop :=
  List.Chain Adjacent s path ∧ List.getLast (s :: path) (List.cons_ne_nil _ _) = t ∧
    (∀ p ∈ s :: path, NonObstacle m p) ∧ (s :: path).Nodup

/-- A row of two floor tiles. -/
def demo_row2 : Maze := Maze.init.add_row 2

/-- There is a chain of exactly `k` links of the relation `R` from `s` to the position. -/
inductive WalkN (R : position → position → Prop) (s : position) : position → Nat → Prop
  | zero : WalkN R s s 0
  | succ {u v : position} {k : Nat} : WalkN R s u k → R u v → WalkN R s v (k + 1)

/-- Loop invariant of the search loop of `find_path`, for a target other than the source.
`lev` is a ghost level assignment: the length of a walk leading to each discovered
position. -/
structure PathInv (m : Maze) (obs : List position) (s t : position) (U Q I : List position)
    (P : position → Option position) (lev : position → Nat) : Prop where
  src : s ∈ I ∨ (I = [] ∧ Q = [s])
  lev_src : lev s = 0
  walk : ∀ v, v ∈ I ∨ v ∈ Q → WalkN (Step m obs) s v (lev v)
  sorted : Q.Pairwise fun a b => lev a ≤ lev b
  spread : ∀ a ∈ Q, ∀ b ∈ Q, lev b ≤ lev a + 1
  below : ∀ u ∈ I, ∀ q ∈ Q, lev u ≤ lev q
  closed : ∀ u ∈ I, ∀ v, Step m obs u v → (v ∈ I ∨ v ∈ Q) ∧ lev v ≤ lev u + 1
  tree : ∀ v, v ∈ I ∨ v ∈ Q → v ≠ s →
    ∃ c, P v = some c ∧ c ∈ I ∧ Step m obs c v ∧ lev v = lev c + 1
  fresh : t ∉ I ∧ t ∉ Q
  depth : ∀ v ∈ I, lev v + 1 + unseenIn U I ≤ U.length

/-- What the search loop of `find_path` hands to the back-trace once the target is found:
the back-trace emits `t :: chain`, a walk read backwards whose length is least. -/
structure Traced (m : Maze) (obs : List position) (s t : position) (bound : Nat)
    (P : position → Option position) (chain : List position) : Prop where
  run : ∀ (fuel : Nat) (out : List position), chain.length < fuel →
    find_path_trace s P fuel t out = Outcome.done (out ++ t :: chain)
  linked : List.Chain (fun a b => Step m obs b a) t chain
  last : List.getLast (t :: chain) (List.cons_ne_nil _ _) = s
  walk : WalkN (Step m obs) s t chain.length
  least : ∀ k, WalkN (Step m obs) s t k → chain.length ≤ k
  short : chain.length ≤ bound

/-- A 3×3 board of floor tiles. -/
def demo_3x3 : Maze := ((Maze.init.add_row 3).add_row 3).add_row 3

/-- A row Floor, Obstacle, Floor: its two floor tiles are not connected. -/
def demo_split : Maze :=
  { tiles := [[Tile.init, Tile.init.setType TileType.Obstacle, Tile.init]],
    player_starting_pos := (0, 0), crates_starting_pos := [], crates_ending_pos := [] }

/-- The boards `m` and `m1` agree on the observation `g` of every tile and on the named
positions. -/
def Frame {α : Type} (g : Tile → α) (m m1 : Maze) : Prop :=
  (∀ q, (m1.call q).map g = (m.call q).map g) ∧
    m1.crates_starting_pos = m.crates_starting_pos ∧
    m1.crates_ending_pos = m.crates_ending_pos ∧
    m1.player_starting_pos = m.player_starting_pos

/-- The cost the map holds for `p`, as `cost[p]` reads it. -/
def costOf (st : Pass) (p : position) : Nat := (st.cost p).getD 0

/-- Every seed is in the interior and its tile's annotation reads 0; the frontier is part
of the interior. -/
def SeedsZero (getd : Tile → Nat) (S : List position) (st : Pass) : Prop :=
  (∀ q ∈ st.frontier, q ∈ st.interior) ∧
    ∀ p ∈ S, p ∈ st.interior ∧ ∃ t, st.maze.call p = some t ∧ getd t = 0

/-- An Obstacle tile as `setType` leaves it. -/
def wall : Tile := Tile.init.setType TileType.Obstacle

/-- A 3×3 board with one floor tile walled in, which is both crate start and target. -/
def demo_cell : Maze :=
  { tiles := [[wall, wall, wall], [wall, Tile.init, wall], [wall, wall, wall]],
    player_starting_pos := (1, 1), crates_starting_pos := [(1, 1)],
    crates_ending_pos := [(1, 1)] }

/-- The board `demo_cell` with both annotations of its floor tile set to 0. -/
def demo_cell_done : Maze :=
  { tiles := [[wall, wall, wall],
      [wall, { Tile.init with source_displacement := 0, target_displacement := 0 }, wall],
      [wall, wall, wall]],
    player_starting_pos := (1, 1), crates_starting_pos := [(1, 1)],
    crates_ending_pos := [(1, 1)] }

/-- The 3×3 board of floor tiles with a crate start at (0,0) and a crate target at
(2,2). -/
def demo_open : Maze :=
  (demo_3x3.add_crates_starting_pos (0, 0)).add_crates_ending_pos (2, 2)

/-- What a pass is run with: the write `setd` and the read `getd` of its annotation, the
reference board `m0` fixing the tile types, the seeds `S` and the edge relation `E` that
the neighbour probes `probe` compute on non-Obstacle tiles. -/
structure PassCtx (probe : Maze → position → Option (List position))
    (setd : Nat → Tile → Tile) (getd : Tile → Nat) (m0 : Maze) (S : List position)
    (E : position → position → Prop) : Prop where
  hget : ∀ v t, getd (setd v t) = v
  htype : ∀ v t, Tile.type (setd v t) = Tile.type t
  hprobe : ∀ m1, Frame Tile.type m0 m1 → ∀ u, NonObstacle m0 u →
    ∃ ns, probe m1 u = some ns ∧ ∀ v, v ∈ ns ↔ E u v
  hE : ∀ u v, E u v → NonObstacle m0 v
  hS : ∀ p ∈ S, NonObstacle m0 p
  harea : area m0 ≤ SIZE_MAX

/-- Loop invariant of a pass started on the board `ms`. -/
structure PassInv (getd : Tile → Nat) (m0 ms : Maze) (S : List position)
    (E : position → position → Prop) (st : Pass) : Prop where
  same : Frame Tile.type m0 st.maze
  inner : ∀ p ∈ st.interior, NonObstacle m0 p
  front : ∀ p ∈ st.frontier, p ∈ st.interior
  seeds : ∀ p ∈ S, p ∈ st.interior ∧ costOf st p = 0
  field_in : ∀ p ∈ st.interior, (st.maze.call p).map getd = some (costOf st p)
  field_out : ∀ p, p ∉ st.interior → (st.maze.call p).map getd = (ms.call p).map getd
  walk : ∀ p ∈ st.interior, ∃ seed ∈ S, WalkN E seed p (costOf st p)
  sorted : st.frontier.Pairwise fun a b => costOf st a ≤ costOf st b
  spread : ∀ a ∈ st.frontier, ∀ b ∈ st.frontier, costOf st b ≤ costOf st a + 1
  closed : ∀ u ∈ st.interior, u ∉ st.frontier → ∀ v, E u v →
    v ∈ st.interior ∧ costOf st v ≤ costOf st u + 1
  below : ∀ u ∈ st.interior, u ∉ st.frontier → ∀ q ∈ st.frontier, costOf st u ≤ costOf st q
  depth : ∀ p ∈ st.interior, costOf st p + 1 + unseenIn (positions m0) st.interior ≤ area m0

/-- The number `d` is the length of a shortest chain of `R` from some seed to `p`. -/
def IsSeedDistance (R : position → position → Prop) (S : List position) (p : position)
    (d : Nat) : Prop :=
  (∃ seed ∈ S, ∃ path, Chained R seed path p ∧ path.length = d) ∧
    ∀ seed ∈ S, ∀ path, Chained R seed path p → d ≤ path.length

/-- Some chain of `R` leads from a seed to `p`. -/
def SeedReaches (R : position → position → Prop) (S : List position) (p : position) : Prop :=
  ∃ seed ∈ S, ∃ path, Chained R seed path p

instance (m : Maze) (p : position) : Decidable (NonObstacle m p) :=
  decidable_of_iff (m.notObstacle p = some true) (by
    unfold NonObstacle notObstacle
    cases m.call p with
    | none => simp
    | some t => simp)

/-- Edge of the source pass (axis-pair rule): `v` is the up or the down neighbour of `u`
and both of these are non-Obstacle, or `v` is the left or the right neighbour of `u` and
both of these are non-Obstacle. -/
def SourceEdge (m : Maze) (u v : position) : Prop :=
  (NonObstacle m (up u) ∧ NonObstacle m (down u) ∧ (v = up u ∨ v = down u)) ∨
    (NonObstacle m (left u) ∧ NonObstacle m (right u) ∧ (v = left u ∨ v = right u))

/-- Edge of the target pass (two-ahead rule): `v` is the neighbour of `u` in a direction
in which both the tile one step away and the tile two steps away are non-Obstacle. -/
def TargetEdge (m : Maze) (u v : position) : Prop :=
  (v = up u ∧ NonObstacle m (up u) ∧ NonObstacle m (up (up u))) ∨
    (v = right u ∧ NonObstacle m (right u) ∧ NonObstacle m (right (right u))) ∨
    (v = down u ∧ NonObstacle m (down u) ∧ NonObstacle m (down (down u))) ∨
    (v = left u ∧ NonObstacle m (left u) ∧ NonObstacle m (left (left u)))

instance (m : Maze) (u v : position) : Decidable (SourceEdge m u v) := by
  unfold SourceEdge; infer_instance

instance (m : Maze) (u v : position) : Decidable (TargetEdge m u v) := by
  unfold TargetEdge; infer_instance

/-- Every non-Obstacle tile of the grid has its four cardinal neighbours on the grid. -/
def Enclosed (m : Maze) : Prop :=
  ∀ p ∈ positions m, NonObstacle m p →
    m.valid (up p) = true ∧ m.valid (right p) = true ∧ m.valid (down p) = true ∧
      m.valid (left p) = true

instance (m : Maze) : Decidable (Enclosed m) := by
  unfold Enclosed; infer_instance

/-- A freshly built board: both annotations of every tile hold the unreached sentinel. -/
def Fresh (m : Maze) : Prop :=
  ∀ row ∈ m.tiles, ∀ t ∈ row,
    t.source_displacement = SIZE_MAX ∧ t.target_displacement = SIZE_MAX

instance (m : Maze) : Decidable (Fresh m) := by
  unfold Fresh; infer_instance

/-- A 5×5 board: a 3×3 room of floor tiles inside a ring of Obstacle tiles, with a crate
start at (2,2) and a crate target at (3,3). -/
def demo_room : Maze :=
  { tiles := [[wall, wall, wall, wall, wall],
      [wall, Tile.init, Tile.init, Tile.init, wall],
      [wall, Tile.init, Tile.init, Tile.init, wall],
      [wall, Tile.init, Tile.init, Tile.init, wall],
      [wall, wall, wall, wall, wall]],
    player_starting_pos := (1, 1), crates_starting_pos := [(2, 2)],
    crates_ending_pos := [(3, 3)] }

/-- The boards have the same number of rows and the same row widths. -/
def SameShape (m m1 : Maze) : Prop :=
  m1.height = m.height ∧ ∀ r, m1.width r = m.width r

/-! ## Lemmas and theorems -/

theorem valid_iff (m : Maze) (p : position) :
    m.valid p = true ↔ ∃ row, m.tiles[p.2]? = some row ∧ p.1 < row.length := by
  unfold valid width height
  cases h : m.tiles[p.2]? with
  | none => simp
  | some row =>
    have := (List.getElem?_eq_some.mp h).1
    simp [this]

theorem call_eq_some_iff (m : Maze) (p : position) (t : Tile) :
    m.call p = some t ↔ ∃ row, m.tiles[p.2]? = some row ∧ row[p.1]? = some t := by
  unfold call call_xy height
  cases h : m.tiles[p.2]? with
  | none => simp
  | some row =>
    have := (List.getElem?_eq_some.mp h).1
    simp only [this, decide_True, Bool.true_and, decide_eq_true_eq, Option.some.injEq,
      exists_eq_left']
    constructor
    · intro h1
      split at h1
      · exact h1
      · exact absurd h1 (by simp)
    · intro h1
      have h2 := (List.getElem?_eq_some.mp h1).1
      simp [h2, h1]

theorem valid_iff_call (m : Maze) (p : position) :
    m.valid p = true ↔ ∃ t, m.call p = some t := by
  rw [valid_iff]
  constructor
  · rintro ⟨row, h1, h2⟩
    exact ⟨row[p.1], (call_eq_some_iff m p _).2 ⟨row, h1, List.getElem?_eq_getElem h2⟩⟩
  · rintro ⟨t, ht⟩
    obtain ⟨row, h1, h2⟩ := (call_eq_some_iff m p t).1 ht
    exact ⟨row, h1, (List.getElem?_eq_some.mp h2).1⟩

theorem call_eq_none_iff (m : Maze) (p : position) :
    m.call p = none ↔ m.valid p = false := by
  have h := valid_iff_call m p
  cases hv : m.valid p <;> cases hc : m.call p <;> simp_all

theorem isTileWalkable_eq (m : Maze) (p : position) (t : Tile) (h : m.call p = some t) :
    m.isTileWalkable p = some t.walkable := by
  obtain ⟨row, h1, h2⟩ := (call_eq_some_iff m p t).1 h
  simp [isTileWalkable, h1, h2, Tile.isWalkable]

theorem get_neighbors_probe_eq (m : Maze) (ns : List position) (p : position)
    (obs : List position) :
    m.get_neighbors_probe ns p obs = some (if Free m obs p then ns ++ [p] else ns) := by
  unfold get_neighbors_probe Free
  by_cases hv : m.valid p = true
  · obtain ⟨t, ht⟩ := (valid_iff_call m p).1 hv
    simp only [hv, if_true, isWalkable, isTileWalkable_eq m p t ht, true_and]
    cases hw : t.walkable <;> by_cases ho : p ∈ obs <;> simp [ho]
  · simp [hv]

theorem get_neighbors_eq (m : Maze) (u : position) (obs : List position) :
    m.get_neighbors [] u obs = some (neighbors_of m obs u) := by
  unfold get_neighbors neighbors_of
  simp only [get_neighbors_probe_eq, Option.some_bind, List.filter_cons, List.filter_nil]
  by_cases h1 : Free m obs (up u) <;> by_cases h2 : Free m obs (right u) <;>
    by_cases h3 : Free m obs (down u) <;> by_cases h4 : Free m obs (left u) <;>
    simp [h1, h2, h3, h4]

theorem mem_neighbors_of (m : Maze) (obs : List position) (u v : position) :
    v ∈ neighbors_of m obs u ↔ Step m obs u v := by
  unfold neighbors_of Step Cardinal
  simp only [List.mem_filter, List.mem_cons, List.mem_singleton, List.not_mem_nil, or_false,
    decide_eq_true_eq]

theorem length_neighbors_of (m : Maze) (obs : List position) (u : position) :
    (neighbors_of m obs u).length ≤ 4 := by
  unfold neighbors_of
  exact (List.length_filter_le _ _).trans (by simp)

theorem length_positionsFrom (y : Nat) (rows : List (List Tile)) :
    (positionsFrom y rows).length = (rows.map List.length).sum := by
  induction rows generalizing y with
  | nil => rfl
  | cons row rest ih => simp [positionsFrom, ih]

theorem length_positions (m : Maze) : (positions m).length = area m :=
  length_positionsFrom 0 m.tiles

theorem mem_positionsFrom (y : Nat) (rows : List (List Tile)) (p : position) :
    p ∈ positionsFrom y rows ↔
      y ≤ p.2 ∧ ∃ row, rows[p.2 - y]? = some row ∧ p.1 < row.length := by
  induction rows generalizing y with
  | nil => simp [positionsFrom]
  | cons row rest ih =>
    obtain ⟨x, r⟩ := p
    simp only [positionsFrom, List.mem_append, List.mem_map, List.mem_range, Prod.mk.injEq, ih]
    constructor
    · rintro (⟨a, ha, rfl, rfl⟩ | ⟨h1, row1, h2, h3⟩)
      · exact ⟨le_refl _, row, by simp, ha⟩
      · refine ⟨by omega, row1, ?_, h3⟩
        have : r - y = (r - (y + 1)) + 1 := by omega
        rw [this]; simpa using h2
    · rintro ⟨h1, row1, h2, h3⟩
      by_cases hr : r = y
      · subst hr
        simp only [Nat.sub_self, List.getElem?_cons_zero, Option.some.injEq] at h2
        subst h2
        exact Or.inl ⟨x, h3, rfl, rfl⟩
      · refine Or.inr ⟨by omega, row1, ?_, h3⟩
        have : r - y = (r - (y + 1)) + 1 := by omega
        rw [this] at h2; simpa using h2

theorem mem_positions (m : Maze) (p : position) : p ∈ positions m ↔ m.valid p = true := by
  rw [valid_iff, positions, mem_positionsFrom]
  simp

theorem unseen_le_area (m : Maze) (seen : List position) : unseen m seen ≤ area m := by
  rw [← length_positions]; exact List.countP_le_length _

theorem unseen_mono (m : Maze) (s1 s2 : List position) (h : ∀ p, p ∈ s1 → p ∈ s2) :
    unseen m s2 ≤ unseen m s1 := by
  apply List.countP_mono_left
  intro x _ hx
  simp only [decide_eq_true_eq] at hx ⊢
  exact fun h1 => hx (h x h1)

theorem countP_not_mem_cons (U seen : List position) (p : position) (hp : p ∉ seen)
    (hmem : p ∈ U) :
    U.countP (fun q => decide (q ∉ p :: seen)) + 1 ≤ U.countP (fun q => decide (q ∉ seen)) := by
  induction U with
  | nil => simp at hmem
  | cons a U ih =>
    have hmono : U.countP (fun q => decide (q ∉ p :: seen)) ≤
        U.countP (fun q => decide (q ∉ seen)) := by
      apply List.countP_mono_left
      intro x _ hx
      simp only [decide_eq_true_eq] at hx ⊢
      exact fun h1 => hx (List.mem_cons_of_mem _ h1)
    by_cases ha : a = p
    · subst ha
      rw [List.countP_cons_of_neg, List.countP_cons_of_pos]
      · omega
      · simpa using hp
      · simp
    · have hm : p ∈ U := by
        rcases List.mem_cons.1 hmem with h | h
        · exact absurd h.symm ha
        · exact h
      have h3 := ih hm
      by_cases has : a ∈ seen
      · rw [List.countP_cons_of_neg, List.countP_cons_of_neg]
        · exact h3
        · simpa using has
        · simp [has]
      · rw [List.countP_cons_of_pos, List.countP_cons_of_pos]
        · omega
        · simpa using has
        · simp [has, ha]

theorem unseen_cons_lt (m : Maze) (seen : List position) (p : position)
    (hv : m.valid p = true) (hp : p ∉ seen) : unseen m (p :: seen) + 1 ≤ unseen m seen :=
  countP_not_mem_cons _ seen p hp ((mem_positions m p).2 hv)

theorem reachable_neighbors_none (t : position) (ns f i : List position)
    (h : reachable_neighbors t ns f i = none) : t ∈ ns := by
  induction ns generalizing f i with
  | nil => simp [reachable_neighbors] at h
  | cons n ns ih =>
    unfold reachable_neighbors at h
    split at h
    · exact List.mem_cons_of_mem _ (ih _ _ h)
    · split at h
      · subst_vars; exact List.mem_cons_self _ _
      · exact List.mem_cons_of_mem _ (ih _ _ h)

theorem reachable_neighbors_some (m : Maze) (t : position) (ns f i f1 i1 : List position)
    (ht : t ∉ i) (hv : ∀ v ∈ ns, m.valid v = true)
    (h : reachable_neighbors t ns f i = some (f1, i1)) :
    t ∉ ns ∧ (∃ new, f1 = f ++ new ∧ (∀ v, v ∈ new → v ∈ ns ∧ v ∉ i) ∧
      (∀ v, v ∈ i1 ↔ v ∈ i ∨ v ∈ new)) ∧ (∀ v ∈ ns, v ∈ i1) ∧
      unseen m i1 + f1.length ≤ unseen m i + f.length := by
  induction ns generalizing f i with
  | nil =>
    simp only [reachable_neighbors, Option.some.injEq, Prod.mk.injEq] at h
    obtain ⟨rfl, rfl⟩ := h
    exact ⟨List.not_mem_nil _, ⟨[], by simp, by simp, by simp⟩, by simp, le_refl _⟩
  | cons n ns ih =>
    have hv1 : ∀ v ∈ ns, m.valid v = true := fun v hv1 => hv v (List.mem_cons_of_mem _ hv1)
    unfold reachable_neighbors at h
    split at h
    · rename_i hn
      obtain ⟨h1, ⟨new, h2, h3, h4⟩, h5, h6⟩ := ih f i ht hv1 h
      refine ⟨?_, ⟨new, h2, ?_, h4⟩, ?_, h6⟩
      · intro hc
        rcases List.mem_cons.1 hc with hc | hc
        · exact ht (hc ▸ hn)
        · exact h1 hc
      · exact fun v hv2 => ⟨List.mem_cons_of_mem _ (h3 v hv2).1, (h3 v hv2).2⟩
      · intro v hv2
        rcases List.mem_cons.1 hv2 with hc | hc
        · exact (h4 v).2 (Or.inl (hc ▸ hn))
        · exact h5 v hc
    · rename_i hn
      split at h
      · exact absurd h (by simp)
      · rename_i hnt
        have ht1 : t ∉ n :: i := by
          intro hc
          rcases List.mem_cons.1 hc with hc | hc
          · exact hnt hc.symm
          · exact ht hc
        obtain ⟨h1, ⟨new, h2, h3, h4⟩, h5, h6⟩ := ih (f ++ [n]) (n :: i) ht1 hv1 h
        refine ⟨?_, ⟨n :: new, by simp [h2], ?_, ?_⟩, ?_, ?_⟩
        · intro hc
          rcases List.mem_cons.1 hc with hc | hc
          · exact hnt hc.symm
          · exact h1 hc
        · intro v hv2
          rcases List.mem_cons.1 hv2 with hc | hc
          · subst hc; exact ⟨List.mem_cons_self _ _, hn⟩
          · exact ⟨List.mem_cons_of_mem _ (h3 v hc).1,
              fun hi => (h3 v hc).2 (List.mem_cons_of_mem _ hi)⟩
        · intro v
          rw [h4 v]
          simp only [List.mem_cons]
          tauto
        · intro v hv2
          rcases List.mem_cons.1 hv2 with hc | hc
          · exact (h4 v).2 (Or.inl (hc ▸ List.mem_cons_self _ _))
          · exact h5 v hc
        · have h7 := unseen_cons_lt m i n (hv n (List.mem_cons_self _ _)) hn
          simp only [List.length_append, List.length_singleton] at h6
          omega

theorem ReachInv.init_reach (m : Maze) (obs : List position) (s t : position) (hst : s ≠ t) :
    ReachInv m obs s t [s] [] where
  sound := by
    intro v hv
    simp only [List.mem_singleton, List.not_mem_nil, or_false] at hv
    subst hv; exact ReflTransGen.refl
  fresh := ⟨by simpa using hst.symm, List.not_mem_nil _⟩
  closed := fun u hu => absurd hu (List.not_mem_nil _)
  src := Or.inl (List.mem_singleton_self _)

theorem ReachInv.covers_reach {m : Maze} {obs : List position} {s t : position} {i : List position}
    (inv : ReachInv m obs s t [] i) (v : position) (h : ReflTransGen (Step m obs) s v) :
    v ∈ i := by
  induction h with
  | refl =>
    rcases inv.src with h | h
    · exact absurd h (List.not_mem_nil _)
    · exact h
  | tail _ hstep ih => exact inv.closed _ ih (List.not_mem_nil _) _ hstep

theorem reachable_loop_spec (m : Maze) (obs : List position) (s t : position) :
    ∀ (fuel : Nat) (f i : List position), ReachInv m obs s t f i →
      unseen m i + f.length < fuel →
      ∃ b, reachable_loop m t obs fuel f i = Outcome.done b ∧
        (b = true ↔ ReflTransGen (Step m obs) s t) := by
  intro fuel
  induction fuel with
  | zero => intro f i _ h; omega
  | succ fuel ih =>
    intro f i inv hfuel
    cases f with
    | nil =>
      refine ⟨false, by simp [reachable_loop], ?_⟩
      simp only [Bool.false_eq_true, false_iff]
      exact fun h => inv.fresh.2 (inv.covers_reach t h)
    | cons cur rest =>
      have hcur : ReflTransGen (Step m obs) s cur := inv.sound cur (Or.inl (List.mem_cons_self _ _))
      simp only [reachable_loop, get_neighbors_eq]
      have hti : t ∉ List.insert cur i := by
        rw [List.mem_insert_iff]
        rintro (h | h)
        · exact inv.fresh.1 (h ▸ List.mem_cons_self _ _)
        · exact inv.fresh.2 h
      cases hr : reachable_neighbors t (neighbors_of m obs cur) rest (List.insert cur i) with
      | none =>
        refine ⟨true, rfl, ?_⟩
        simp only [true_iff]
        exact hcur.tail ((mem_neighbors_of m obs cur t).1 (reachable_neighbors_none _ _ _ _ hr))
      | some res =>
        obtain ⟨f1, i1⟩ := res
        have hval : ∀ v ∈ neighbors_of m obs cur, m.valid v = true :=
          fun v hv => ((mem_neighbors_of m obs cur v).1 hv).2.1
        obtain ⟨h1, ⟨new, h2, h3, h4⟩, h5, h6⟩ :=
          reachable_neighbors_some m t _ rest _ f1 i1 hti hval hr
        have hmono : unseen m (List.insert cur i) ≤ unseen m i :=
          unseen_mono m _ _ (fun p hp => List.mem_insert_iff.2 (Or.inr hp))
        apply ih f1 i1
        · subst h2
          constructor
          · intro v hv
            have hv1 : v ∈ rest ∨ v ∈ new ∨ v = cur ∨ v ∈ i := by
              rcases hv with hv | hv
              · rcases List.mem_append.1 hv with hv | hv
                · exact Or.inl hv
                · exact Or.inr (Or.inl hv)
              · rcases (h4 v).1 hv with hv | hv
                · rcases List.mem_insert_iff.1 hv with hv | hv
                  · exact Or.inr (Or.inr (Or.inl hv))
                  · exact Or.inr (Or.inr (Or.inr hv))
                · exact Or.inr (Or.inl hv)
            rcases hv1 with hv | hv | hv | hv
            · exact inv.sound v (Or.inl (List.mem_cons_of_mem _ hv))
            · exact hcur.tail ((mem_neighbors_of m obs cur v).1 (h3 v hv).1)
            · exact hv ▸ hcur
            · exact inv.sound v (Or.inr hv)
          · refine ⟨?_, ?_⟩
            · intro hc
              rcases List.mem_append.1 hc with hc | hc
              · exact inv.fresh.1 (List.mem_cons_of_mem _ hc)
              · exact h1 (h3 t hc).1
            · intro hc
              rcases (h4 t).1 hc with hc | hc
              · exact hti hc
              · exact h1 (h3 t hc).1
          · intro u hu huf v hstep
            have huf1 : u ∉ rest ∧ u ∉ new := by
              constructor
              · exact fun hc => huf (List.mem_append_left _ hc)
              · exact fun hc => huf (List.mem_append_right _ hc)
            rcases (h4 u).1 hu with hu1 | hu1
            · by_cases huc : u = cur
              · subst huc
                exact h5 v ((mem_neighbors_of m obs u v).2 hstep)
              · have hui : u ∈ i := by
                  rcases List.mem_insert_iff.1 hu1 with hc | hc
                  · exact absurd hc huc
                  · exact hc
                have huf2 : u ∉ cur :: rest := by
                  intro hc
                  rcases List.mem_cons.1 hc with hc | hc
                  · exact huc hc
                  · exact huf1.1 hc
                exact (h4 v).2 (Or.inl (List.mem_insert_iff.2
                  (Or.inr (inv.closed u hui huf2 v hstep))))
            · exact absurd hu1 huf1.2
          · rcases inv.src with h | h
            · rcases List.mem_cons.1 h with h | h
              · exact Or.inr ((h4 s).2 (Or.inl (List.mem_insert_iff.2 (Or.inl h))))
              · exact Or.inl (List.mem_append_left _ h)
            · exact Or.inr ((h4 s).2 (Or.inl (List.mem_insert_iff.2 (Or.inr h))))
        · simp only [List.length_cons] at hfuel
          omega

theorem reflTransGen_iff_walk (m : Maze) (obs : List position) (s t : position) :
    ReflTransGen (Step m obs) s t ↔ ∃ path, IsWalk m obs s path t := by
  constructor
  · intro h
    exact List.exists_chain_of_relationReflTransGen h
  · rintro ⟨path, h1, h2⟩
    exact List.relationReflTransGen_of_exists_chain path h1 h2

theorem IsWalk.ne_nil {m : Maze} {obs : List position} {s t : position} {path : List position}
    (h : IsWalk m obs s path t) (hst : t ≠ s) : path ≠ [] := by
  rintro rfl
  exact hst h.2.symm

theorem reachable_spec (m : Maze) (source target : position) (obs : List position)
    (fuel : Nat) (hst : target ≠ source) (hfuel : area m + 2 ≤ fuel) :
    ∃ b, m.reachable source target obs fuel = Outcome.done b ∧
      (b = true ↔ ReflTransGen (Step m obs) source target) := by
  apply reachable_loop_spec m obs source target fuel _ _ (ReachInv.init_reach m obs _ _ hst.symm)
  have := unseen_le_area m []
  simp only [List.length_singleton]
  omega

theorem Adjacent.symm {u v : position} (h : Adjacent u v) : Adjacent v u := by
  unfold Adjacent at *
  omega

theorem valid_lt (m : Maze) (hm : representable m) (p : position) (hp : m.valid p = true) :
    p.1 < SIZE_MAX ∧ p.2 < SIZE_MAX := by
  obtain ⟨row, h1, h2⟩ := (valid_iff m p).1 hp
  obtain ⟨h3, h4⟩ := List.getElem?_eq_some.mp h1
  have h5 := hm.2 row (h4 ▸ List.getElem_mem _)
  have h6 := hm.1
  unfold height at h6
  omega

theorem Adjacent.cardinal {u v : position} (h : Adjacent u v)
    (hv : v.1 < SIZE_MAX ∧ v.2 < SIZE_MAX) : Cardinal u v := by
  obtain ⟨u1, u2⟩ := u
  obtain ⟨v1, v2⟩ := v
  unfold Adjacent at h
  unfold Cardinal up down left right SIZE_MAX SIZE_MOD
  unfold SIZE_MAX at hv
  simp only [Prod.mk.injEq] at h hv ⊢
  omega

theorem Cardinal.adjacent {u v : position} (h : Cardinal u v)
    (hu : u.1 < SIZE_MAX ∧ u.2 < SIZE_MAX) (hv : v.1 < SIZE_MAX ∧ v.2 < SIZE_MAX) :
    Adjacent u v := by
  obtain ⟨u1, u2⟩ := u
  obtain ⟨v1, v2⟩ := v
  unfold Cardinal up down left right SIZE_MAX SIZE_MOD at h
  unfold SIZE_MAX at hu hv
  unfold Adjacent
  simp only [Prod.mk.injEq] at h hu hv ⊢
  omega

theorem NonObstacle.free {m : Maze} (hc : coherent m) {p : position} (h : NonObstacle m p) :
    Free m [] p := by
  obtain ⟨t, h1, h2⟩ := h
  refine ⟨(valid_iff_call m p).2 ⟨t, h1⟩, ?_, List.not_mem_nil _⟩
  rw [isTileWalkable_eq m p t h1]
  obtain ⟨row, h3, h4⟩ := (call_eq_some_iff m p t).1 h1
  have h5 := hc row (List.getElem?_mem h3) t (List.getElem?_mem h4)
  simp [h5, h2]

theorem floorPath_reach (m : Maze) (hm : representable m) (hc : coherent m) :
    ∀ (path : List position) (s t : position),
      List.Chain Adjacent s path → List.getLast (s :: path) (List.cons_ne_nil _ _) = t →
      (∀ p ∈ s :: path, NonObstacle m p) →
      ReflTransGen (Step m []) s t ∧ ReflTransGen (Step m []) t s := by
  intro path
  induction path with
  | nil =>
    intro s t _ h2 _
    simp only [List.getLast_singleton] at h2
    subst h2
    exact ⟨ReflTransGen.refl, ReflTransGen.refl⟩
  | cons a path ih =>
    intro s t h1 h2 h3
    rw [List.chain_cons] at h1
    rw [List.getLast_cons (List.cons_ne_nil _ _)] at h2
    have h4 := ih a t h1.2 h2 (fun p hp => h3 p (List.mem_cons_of_mem _ hp))
    have ha : NonObstacle m a := h3 a (by simp)
    have hs : NonObstacle m s := h3 s (by simp)
    have hva := valid_lt m hm a (ha.free hc).1
    have hvs := valid_lt m hm s (hs.free hc).1
    have s1 : Step m [] s a := ⟨h1.1.cardinal hva, ha.free hc⟩
    have s2 : Step m [] a s := ⟨h1.1.symm.cardinal hvs, hs.free hc⟩
    exact ⟨ReflTransGen.head s1 h4.1, h4.2.tail s2⟩

/-- C5, as stated, fails when the target is the source: on a row of two floor tiles the
sequence (0,0), (1,0), (0,0) has `k = 2` admitted moves, yet `reachable` answers false. -/
theorem reachable_self_counterexample :
    demo_row2.valid (0, 0) = true ∧
      demo_row2.reachable (0, 0) (0, 0) [] 4 = Outcome.done false ∧
      ∃ path, path ≠ [] ∧ IsWalk demo_row2 [] (0, 0) path (0, 0) := by
  refine ⟨by decide, by decide, [(1, 0), (0, 0)], by simp, ?_, by simp⟩
  refine List.Chain.cons ?_ (List.Chain.cons ?_ List.Chain.nil) <;> decide

/-- C5 (amended to a target other than the source): with enough fuel `reachable` returns,
and it returns true exactly when some sequence `s = p0, p1, ..., pk = t` with `k ≥ 1`
exists in which each `p(i+1)` is one of up, right, down, left of `p(i)` and is grid-valid,
statically walkable and absent from `obs`. -/
theorem reachable_iff_walk (m : Maze) (source target : position) (obs : List position)
    (fuel : Nat) (hst : target ≠ source) (hfuel : area m + 2 ≤ fuel) :
    ∃ b, m.reachable source target obs fuel = Outcome.done b ∧
      (b = true ↔ ∃ path, path ≠ [] ∧ IsWalk m obs source path target) := by
  obtain ⟨b, h1, h2⟩ := reachable_spec m source target obs fuel hst hfuel
  refine ⟨b, h1, h2.trans ((reflTransGen_iff_walk m obs source target).trans ?_)⟩
  constructor
  · rintro ⟨path, h⟩
    exact ⟨path, h.ne_nil hst, h⟩
  · rintro ⟨path, _, h⟩
    exact ⟨path, h⟩

theorem reachable_iff_walk_witness :
    ∃ b, demo_row2.reachable (0, 0) (1, 0) [] 4 = Outcome.done b ∧
      (b = true ↔ ∃ path, path ≠ [] ∧ IsWalk demo_row2 [] (0, 0) path (1, 0)) :=
  reachable_iff_walk demo_row2 (0, 0) (1, 0) [] 4 (by decide) (by decide)

/-- C6, as stated, fails when the two positions coincide: on the board of one floor tile
the one-tile path from (0,0) to itself is a simple cardinal path of non-Obstacle tiles,
yet `reachable` answers false. -/
theorem reachable_symmetric_counterexample :
    (Maze.init.add_row 1).valid (0, 0) = true ∧
      IsFloorPath (Maze.init.add_row 1) (0, 0) [] (0, 0) ∧
      (Maze.init.add_row 1).reachable (0, 0) (0, 0) [] 3 = Outcome.done false := by
  refine ⟨by decide, ⟨List.Chain.nil, rfl, ?_, by simp⟩, by decide⟩
  intro p hp
  simp only [List.mem_singleton] at hp
  subst hp
  exact ⟨Tile.init, by decide, by decide⟩

/-- C6 (amended to distinct positions): on a board whose sizes are `size_t` values and
whose tiles carry the walkable flag `setType` computes, if a simple cardinal path of
non-Obstacle tiles joins `s` and `t ≠ s`, then `reachable(s, t, [])` and
`reachable(t, s, [])` both return true. -/
theorem reachable_symmetric (m : Maze) (s t : position) (path : List position) (fuel : Nat)
    (hm : representable m) (hc : coherent m) (hst : s ≠ t) (hpath : IsFloorPath m s path t) (hfuel : area m + 2 ≤ fuel) :
    m.reachable s t [] fuel = Outcome.done true ∧
      m.reachable t s [] fuel = Outcome.done true := by
  obtain ⟨h1, h2⟩ := floorPath_reach m hm hc path s t hpath.1 hpath.2.1 hpath.2.2.1
  obtain ⟨b1, h3, h4⟩ := reachable_spec m s t [] fuel hst.symm hfuel
  obtain ⟨b2, h5, h6⟩ := reachable_spec m t s [] fuel hst hfuel
  rw [h4.2 h1] at h3
  rw [h6.2 h2] at h5
  exact ⟨h3, h5⟩

theorem reachable_symmetric_witness :
    demo_row2.reachable (0, 0) (1, 0) [] 4 = Outcome.done true ∧
      demo_row2.reachable (1, 0) (0, 0) [] 4 = Outcome.done true :=
  reachable_symmetric demo_row2 (0, 0) (1, 0) [(1, 0)] 4 (by decide) (by decide)
    (by decide)
    ⟨List.Chain.cons (by decide) List.Chain.nil, rfl,
      fun p hp => by
        simp only [List.mem_cons, List.mem_singleton, List.not_mem_nil, or_false] at hp
        rcases hp with rfl | rfl <;> exact ⟨Tile.init, by decide, by decide⟩,
      by decide⟩
    (by decide)

theorem WalkN.head {R : position → position → Prop} {s a v : position} {k : Nat}
    (h1 : R s a) (h2 : WalkN R a v k) : WalkN R s v (k + 1) := by
  induction h2 with
  | zero => exact WalkN.succ WalkN.zero h1
  | succ _ hstep ih => exact WalkN.succ ih hstep

theorem Chained.snoc {R : position → position → Prop} {u v : position} :
    ∀ {path : List position} {s : position}, Chained R s path u → R u v →
      Chained R s (path ++ [v]) v := by
  intro path
  induction path with
  | nil =>
    intro s h hstep
    have : s = u := h.2
    subst this
    exact ⟨List.Chain.cons hstep List.Chain.nil, rfl⟩
  | cons a path ih =>
    intro s h hstep
    obtain ⟨h1, h2⟩ := h
    rw [List.chain_cons] at h1
    rw [List.getLast_cons (List.cons_ne_nil _ _)] at h2
    obtain ⟨h3, h4⟩ := ih ⟨h1.2, h2⟩ hstep
    refine ⟨List.Chain.cons h1.1 h3, ?_⟩
    simp only [List.cons_append]
    rw [List.getLast_cons (List.cons_ne_nil _ _)]
    exact h4

theorem walkN_of_chained {R : position → position → Prop} {v : position} :
    ∀ {path : List position} {s : position}, Chained R s path v → WalkN R s v path.length := by
  intro path
  induction path with
  | nil =>
    intro s h
    have : s = v := h.2
    subst this
    exact WalkN.zero
  | cons a path ih =>
    intro s h
    obtain ⟨h1, h2⟩ := h
    rw [List.chain_cons] at h1
    rw [List.getLast_cons (List.cons_ne_nil _ _)] at h2
    exact WalkN.head h1.1 (ih ⟨h1.2, h2⟩)

theorem chained_of_walkN {R : position → position → Prop} {s v : position} {k : Nat}
    (h : WalkN R s v k) : ∃ path, Chained R s path v ∧ path.length = k := by
  induction h with
  | zero => exact ⟨[], ⟨List.Chain.nil, rfl⟩, rfl⟩
  | succ _ hstep ih =>
    obtain ⟨path, h1, h2⟩ := ih
    exact ⟨path ++ [_], h1.snoc hstep, by simp [h2]⟩

theorem Cardinal.parity_flip {u v : position} (h : Cardinal u v) :
    (v.1 + v.2) % 2 ≠ (u.1 + u.2) % 2 := by
  obtain ⟨u1, u2⟩ := u
  obtain ⟨v1, v2⟩ := v
  unfold Cardinal up down left right SIZE_MAX SIZE_MOD at h
  simp only [Prod.mk.injEq] at h ⊢
  omega

theorem WalkN.parity_len {m : Maze} {obs : List position} {s v : position} {k : Nat}
    (h : WalkN (Step m obs) s v k) : (k + s.1 + s.2) % 2 = (v.1 + v.2) % 2 := by
  induction h with
  | zero => simp
  | succ _ hstep ih =>
    have := hstep.1.parity_flip
    omega

/-- Two positions joined by a move cannot be reached by walks of the same length: the
grid graph is bipartite. -/
theorem WalkN.ne_of_step {m : Maze} {obs : List position} {s u v : position} {j k : Nat}
    (hu : WalkN (Step m obs) s u j) (hv : WalkN (Step m obs) s v k) (hstep : Step m obs u v) : j ≠ k := by
  have h1 := hu.parity_len
  have h2 := hv.parity_len
  have h3 := hstep.1.parity_flip
  omega

theorem find_path_neighbors_spec (t cur : position) (I1 : List position) :
    ∀ (ns Q : List position) (P : position → Option position),
      ∃ fd Q1 P1, find_path_neighbors t cur I1 ns Q P = (fd, Q1, P1) ∧
        (∀ v, P1 v = P v ∨ (P1 v = some cur ∧ v ∈ ns ∧ v ∉ I1)) ∧
        (∀ v, P v = some cur → P1 v = some cur) ∧
        (fd = true → t ∈ ns ∧ t ∉ I1 ∧ P1 t = some cur) ∧
        (fd = false → Q1 = Q ++ ns.filter (fun p => decide (p ∉ I1)) ∧
          ∀ v ∈ ns, v ∉ I1 → v ≠ t ∧ P1 v = some cur) := by
  intro ns
  induction ns with
  | nil =>
    intro Q P
    exact ⟨false, Q, P, rfl, fun v => Or.inl rfl, fun v h => h, by simp, by simp⟩
  | cons n ns ih =>
    intro Q P
    unfold find_path_neighbors
    by_cases hn : n ∈ I1
    · obtain ⟨fd, Q1, P1, h1, h2, h3, h4, h5⟩ := ih Q P
      refine ⟨fd, Q1, P1, by simp [hn, h1], ?_, h3, ?_, ?_⟩
      · intro v
        rcases h2 v with h | ⟨h, hb, hc⟩
        · exact Or.inl h
        · exact Or.inr ⟨h, List.mem_cons_of_mem _ hb, hc⟩
      · intro hfd
        obtain ⟨h6, h7, h8⟩ := h4 hfd
        exact ⟨List.mem_cons_of_mem _ h6, h7, h8⟩
      · intro hfd
        obtain ⟨h6, h7⟩ := h5 hfd
        refine ⟨by simp [List.filter_cons, hn, h6], ?_⟩
        intro v hv hvI
        rcases List.mem_cons.1 hv with hv | hv
        · exact absurd (hv ▸ hn) hvI
        · exact h7 v hv hvI
    · by_cases hnt : n = t
      · subst hnt
        refine ⟨true, Q, map_set P n cur, by simp [hn], ?_, ?_, ?_, by simp⟩
        · intro v
          by_cases hv : v = n
          · subst hv
            exact Or.inr ⟨by simp [map_set], List.mem_cons_self _ _, hn⟩
          · exact Or.inl (by simp [map_set, hv])
        · intro v hv
          by_cases hvn : v = n
          · simp [map_set, hvn]
          · simpa [map_set, hvn] using hv
        · intro _
          exact ⟨List.mem_cons_self _ _, hn, by simp [map_set]⟩
      · obtain ⟨fd, Q1, P1, h1, h2, h3, h4, h5⟩ := ih (Q ++ [n]) (map_set P n cur)
        have hPn : P1 n = some cur := h3 n (by simp [map_set])
        refine ⟨fd, Q1, P1, by simp [hn, hnt, h1], ?_, ?_, ?_, ?_⟩
        · intro v
          rcases h2 v with h | ⟨h, hb, hc⟩
          · by_cases hv : v = n
            · subst hv
              exact Or.inr ⟨hPn, List.mem_cons_self _ _, hn⟩
            · exact Or.inl (by rw [h]; simp [map_set, hv])
          · exact Or.inr ⟨h, List.mem_cons_of_mem _ hb, hc⟩
        · intro v hv
          apply h3
          by_cases hvn : v = n
          · simp [map_set, hvn]
          · simpa [map_set, hvn] using hv
        · intro hfd
          obtain ⟨h6, h7, h8⟩ := h4 hfd
          exact ⟨List.mem_cons_of_mem _ h6, h7, h8⟩
        · intro hfd
          obtain ⟨h6, h7⟩ := h5 hfd
          refine ⟨by simp [List.filter_cons, hn, h6], ?_⟩
          intro v hv hvI
          rcases List.mem_cons.1 hv with hv | hv
          · subst hv
            exact ⟨hnt, hPn⟩
          · exact h7 v hv hvI

theorem unseenIn_le (U seen : List position) : unseenIn U seen ≤ U.length :=
  List.countP_le_length _

theorem unseenIn_cons_le (U seen : List position) (p : position) :
    unseenIn U (p :: seen) ≤ unseenIn U seen := by
  apply List.countP_mono_left
  intro x _ hx
  simp only [decide_eq_true_eq] at hx ⊢
  exact fun h1 => hx (List.mem_cons_of_mem _ h1)

theorem unseenIn_cons_lt (U seen : List position) (p : position) (hp : p ∉ seen)
    (hmem : p ∈ U) : unseenIn U (p :: seen) + 1 ≤ unseenIn U seen :=
  countP_not_mem_cons U seen p hp hmem

theorem PathInv.init_path (m : Maze) (obs : List position) (s t : position) (U : List position)
    (hst : s ≠ t) : PathInv m obs s t U [s] [] (fun _ => none) (fun _ => 0) where
  src := Or.inr ⟨rfl, rfl⟩
  lev_src := rfl
  walk := by
    intro v hv
    simp only [List.not_mem_nil, List.mem_singleton, false_or] at hv
    subst hv; exact WalkN.zero
  sorted := List.pairwise_singleton _ _
  spread := fun _ _ _ _ => Nat.zero_le _
  below := fun u hu => absurd hu (List.not_mem_nil _)
  closed := fun u hu => absurd hu (List.not_mem_nil _)
  tree := by
    intro v hv hne
    simp only [List.not_mem_nil, List.mem_singleton, false_or] at hv
    exact absurd hv hne
  fresh := ⟨List.not_mem_nil _, by simpa using hst.symm⟩
  depth := fun v hv => absurd hv (List.not_mem_nil _)

/-- Every walk from the source ends inside the interior at a level no larger than its
length, or has passed a frontier entry of such a level. -/
theorem PathInv.walk_bound {m : Maze} {obs : List position} {s t : position}
    {U Q I : List position} {P : position → Option position} {lev : position → Nat}
    (inv : PathInv m obs s t U Q I P lev) {v : position} {k : Nat} (h : WalkN (Step m obs) s v k) :
    (v ∈ I ∧ lev v ≤ k) ∨ ∃ q ∈ Q, lev q ≤ k := by
  induction h with
  | zero =>
    rcases inv.src with h | ⟨_, h⟩
    · exact Or.inl ⟨h, by rw [inv.lev_src]⟩
    · exact Or.inr ⟨s, by simp [h], by rw [inv.lev_src]⟩
  | succ _ hstep ih =>
    rename_i u v k _
    rcases ih with ⟨h1, h2⟩ | ⟨q, h1, h2⟩
    · obtain ⟨h3, h4⟩ := inv.closed u h1 v hstep
      rcases h3 with h3 | h3
      · exact Or.inl ⟨h3, by omega⟩
      · exact Or.inr ⟨v, h3, by omega⟩
    · exact Or.inr ⟨q, h1, by omega⟩

theorem PathInv.skip {m : Maze} {obs : List position} {s t cur : position}
    {U rest I : List position} {P : position → Option position} {lev : position → Nat}
    (inv : PathInv m obs s t U (cur :: rest) I P lev) (hcur : cur ∈ I) :
    PathInv m obs s t U rest I P lev where
  src := by
    rcases inv.src with h | ⟨h, _⟩
    · exact Or.inl h
    · subst h; exact absurd hcur (List.not_mem_nil _)
  lev_src := inv.lev_src
  walk := fun v hv => inv.walk v (hv.imp id (List.mem_cons_of_mem _))
  sorted := (List.pairwise_cons.1 inv.sorted).2
  spread := fun a ha b hb =>
    inv.spread a (List.mem_cons_of_mem _ ha) b (List.mem_cons_of_mem _ hb)
  below := fun u hu q hq => inv.below u hu q (List.mem_cons_of_mem _ hq)
  closed := by
    intro u hu v hstep
    obtain ⟨h1, h2⟩ := inv.closed u hu v hstep
    refine ⟨?_, h2⟩
    rcases h1 with h1 | h1
    · exact Or.inl h1
    · rcases List.mem_cons.1 h1 with h1 | h1
      · exact Or.inl (h1 ▸ hcur)
      · exact Or.inr h1
  tree := fun v hv hne => inv.tree v (hv.imp id (List.mem_cons_of_mem _)) hne
  fresh := ⟨inv.fresh.1, fun h => inv.fresh.2 (List.mem_cons_of_mem _ h)⟩
  depth := inv.depth

/-- The popped position, if not the source, has a recorded predecessor in the interior. -/
theorem PathInv.cur_depth {m : Maze} {obs : List position} {s t cur : position}
    {U rest I : List position} {P : position → Option position} {lev : position → Nat}
    (inv : PathInv m obs s t U (cur :: rest) I P lev) (hcur : cur ∉ I) (hU : cur ∈ U) :
    lev cur + 1 + unseenIn U (cur :: I) ≤ U.length := by
  have h1 := unseenIn_cons_lt U I cur hcur hU
  by_cases hs : cur = s
  · have h2 := unseenIn_le U I
    rw [hs, inv.lev_src]
    rw [hs] at h1
    omega
  · obtain ⟨c, _, h3, _, h5⟩ := inv.tree cur (Or.inr (List.mem_cons_self _ _)) hs
    have h6 := inv.depth c h3
    omega

theorem PathInv.mem_U {m : Maze} {obs : List position} {s t : position}
    {U Q I : List position} {P : position → Option position} {lev : position → Nat}
    (inv : PathInv m obs s t U Q I P lev) (hU : ∀ p, m.valid p = true → p ∈ U) (hs : s ∈ U)
    (q : position) (hq : q ∈ Q) : q ∈ U := by
  by_cases h : q = s
  · exact h ▸ hs
  · obtain ⟨c, _, _, h3, _⟩ := inv.tree q (Or.inr hq) h
    exact hU q h3.2.1

theorem PathInv.step_path {m : Maze} {obs : List position} {s t cur : position}
    {U rest I : List position} {P : position → Option position} {lev : position → Nat}
    (inv : PathInv m obs s t U (cur :: rest) I P lev) (hcur : cur ∉ I) (hU : cur ∈ U)
    {Q1 : List position} {P1 : position → Option position}
    (hres : find_path_neighbors t cur (cur :: I) (neighbors_of m obs cur) rest P =
      (false, Q1, P1)) :
    ∃ lev1, PathInv m obs s t U Q1 (cur :: I) P1 lev1 := by
  obtain ⟨fd, Q2, P2, heq, h2, _, _, h5⟩ :=
    find_path_neighbors_spec t cur (cur :: I) (neighbors_of m obs cur) rest P
  rw [hres] at heq
  simp only [Prod.mk.injEq] at heq
  obtain ⟨rfl, rfl, rfl⟩ := heq
  obtain ⟨hQ, h6⟩ := h5 rfl
  have hnew : ∀ v, v ∈ (neighbors_of m obs cur).filter (fun p => decide (p ∉ cur :: I)) ↔
      Step m obs cur v ∧ v ∉ cur :: I := by
    intro v
    simp only [List.mem_filter, mem_neighbors_of, decide_eq_true_eq]
  generalize (neighbors_of m obs cur).filter (fun p => decide (p ∉ cur :: I)) = new at hQ hnew
  subst hQ
  have hcw : WalkN (Step m obs) s cur (lev cur) := inv.walk cur (Or.inr (List.mem_cons_self _ _))
  have hsorted := List.pairwise_cons.1 inv.sorted
  -- a rediscovered frontier entry lies exactly one level above the popped position
  have hredisc : ∀ v, v ∈ new → v ∈ rest → lev v = lev cur + 1 := by
    intro v hv hvr
    have h7 := hsorted.1 v hvr
    have h8 := inv.spread cur (List.mem_cons_self _ _) v (List.mem_cons_of_mem _ hvr)
    have h9 := WalkN.ne_of_step hcw (inv.walk v (Or.inr (List.mem_cons_of_mem _ hvr)))
      ((hnew v).1 hv).1
    omega
  let lev1 : position → Nat := fun v => if v ∈ new then lev cur + 1 else lev v
  have hold : ∀ v, v ∈ I ∨ v ∈ cur :: rest → lev1 v = lev v := by
    intro v hv
    show (if v ∈ new then lev cur + 1 else lev v) = lev v
    by_cases hn : v ∈ new
    · rw [if_pos hn]
      have h7 := ((hnew v).1 hn).2
      have hvr : v ∈ rest := by
        rcases hv with hv | hv
        · exact absurd (List.mem_cons_of_mem _ hv) h7
        · rcases List.mem_cons.1 hv with hv | hv
          · exact absurd (hv ▸ List.mem_cons_self _ _) h7
          · exact hv
      exact (hredisc v hn hvr).symm
    · rw [if_neg hn]
  have hnewlev : ∀ v, v ∈ new → lev1 v = lev cur + 1 := by
    intro v hv
    show (if v ∈ new then lev cur + 1 else lev v) = lev cur + 1
    rw [if_pos hv]
  have hI1 : ∀ v, v ∈ cur :: I → lev1 v = lev v := by
    intro v hv
    apply hold
    rcases List.mem_cons.1 hv with hv | hv
    · exact Or.inr (hv ▸ List.mem_cons_self _ _)
    · exact Or.inl hv
  have hrest : ∀ v, v ∈ rest → lev1 v = lev v :=
    fun v hv => hold v (Or.inr (List.mem_cons_of_mem _ hv))
  have hsI1 : s ∈ cur :: I := by
    rcases inv.src with h | ⟨_, h⟩
    · exact List.mem_cons_of_mem _ h
    · simp only [List.cons.injEq] at h
      rw [h.1]; exact List.mem_cons_self _ _
  have hbelow_cur : ∀ u, u ∈ cur :: I → lev u ≤ lev cur := by
    intro u hu
    rcases List.mem_cons.1 hu with hu | hu
    · rw [hu]
    · exact inv.below u hu cur (List.mem_cons_self _ _)
  refine ⟨lev1, ?_⟩
  constructor
  · exact Or.inl hsI1
  · rw [hI1 s hsI1]; exact inv.lev_src
  · intro v hv
    by_cases hn : v ∈ new
    · rw [hnewlev v hn]
      exact WalkN.succ hcw ((hnew v).1 hn).1
    · have hv1 : v ∈ I ∨ v ∈ cur :: rest := by
        rcases hv with hv | hv
        · rcases List.mem_cons.1 hv with hv | hv
          · exact Or.inr (hv ▸ List.mem_cons_self _ _)
          · exact Or.inl hv
        · rcases List.mem_append.1 hv with hv | hv
          · exact Or.inr (List.mem_cons_of_mem _ hv)
          · exact absurd hv hn
      rw [hold v hv1]
      exact inv.walk v hv1
  · rw [List.pairwise_append]
    refine ⟨?_, ?_, ?_⟩
    · exact hsorted.2.imp_of_mem (fun ha hb hab => by rw [hrest _ ha, hrest _ hb]; exact hab)
    · exact (List.pairwise_of_forall (l := new) (R := fun _ _ => True)
        (fun _ _ => trivial)).imp_of_mem
        (fun ha hb _ => by rw [hnewlev _ ha, hnewlev _ hb])
    · intro a ha b hb
      rw [hrest a ha, hnewlev b hb]
      exact inv.spread cur (List.mem_cons_self _ _) a (List.mem_cons_of_mem _ ha)
  · intro a ha b hb
    rcases List.mem_append.1 ha with ha | ha <;> rcases List.mem_append.1 hb with hb | hb
    · rw [hrest a ha, hrest b hb]
      exact inv.spread a (List.mem_cons_of_mem _ ha) b (List.mem_cons_of_mem _ hb)
    · rw [hrest a ha, hnewlev b hb]
      have := hsorted.1 a ha
      omega
    · rw [hnewlev a ha, hrest b hb]
      have := inv.spread cur (List.mem_cons_self _ _) b (List.mem_cons_of_mem _ hb)
      omega
    · rw [hnewlev a ha, hnewlev b hb]
      omega
  · intro u hu q hq
    rw [hI1 u hu]
    have h7 := hbelow_cur u hu
    rcases List.mem_append.1 hq with hq | hq
    · rw [hrest q hq]
      have := hsorted.1 q hq
      omega
    · rw [hnewlev q hq]
      omega
  · intro u hu v hstep
    rw [hI1 u hu]
    rcases List.mem_cons.1 hu with hu1 | hu1
    · subst hu1
      by_cases hvI : v ∈ u :: I
      · refine ⟨Or.inl hvI, ?_⟩
        rw [hI1 v hvI]
        have := hbelow_cur v hvI
        omega
      · have hvn : v ∈ new := (hnew v).2 ⟨hstep, hvI⟩
        refine ⟨Or.inr (List.mem_append_right _ hvn), ?_⟩
        rw [hnewlev v hvn]
    · obtain ⟨h7, h8⟩ := inv.closed u hu1 v hstep
      rw [hold v h7]
      refine ⟨?_, h8⟩
      rcases h7 with h7 | h7
      · exact Or.inl (List.mem_cons_of_mem _ h7)
      · rcases List.mem_cons.1 h7 with h7 | h7
        · exact Or.inl (h7 ▸ List.mem_cons_self _ _)
        · exact Or.inr (List.mem_append_left _ h7)
  · intro v hv hne
    by_cases hn : v ∈ new
    · obtain ⟨h7, h8⟩ := (hnew v).1 hn
      refine ⟨cur, (h6 v ((mem_neighbors_of m obs cur v).2 h7) h8).2, List.mem_cons_self _ _,
        h7, ?_⟩
      rw [hnewlev v hn, hI1 cur (List.mem_cons_self _ _)]
    · have hv1 : v ∈ I ∨ v ∈ cur :: rest := by
        rcases hv with hv | hv
        · rcases List.mem_cons.1 hv with hv | hv
          · exact Or.inr (hv ▸ List.mem_cons_self _ _)
          · exact Or.inl hv
        · rcases List.mem_append.1 hv with hv | hv
          · exact Or.inr (List.mem_cons_of_mem _ hv)
          · exact absurd hv hn
      obtain ⟨c, h7, h8, h9, h10⟩ := inv.tree v hv1 hne
      have hP : P1 v = P v := by
        rcases h2 v with h | ⟨_, h, hb⟩
        · exact h
        · exact absurd ((hnew v).2 ⟨(mem_neighbors_of m obs cur v).1 h, hb⟩) hn
      refine ⟨c, hP ▸ h7, List.mem_cons_of_mem _ h8, h9, ?_⟩
      rw [hold v hv1, hold c (Or.inl h8)]
      exact h10
  · refine ⟨?_, ?_⟩
    · intro h
      rcases List.mem_cons.1 h with h | h
      · exact inv.fresh.2 (h ▸ List.mem_cons_self _ _)
      · exact inv.fresh.1 h
    · intro h
      rcases List.mem_append.1 h with h | h
      · exact inv.fresh.2 (List.mem_cons_of_mem _ h)
      · obtain ⟨h7, h8⟩ := (hnew t).1 h
        exact (h6 t ((mem_neighbors_of m obs cur t).2 h7) h8).1 rfl
  · intro v hv
    rw [hI1 v hv]
    have h7 := inv.cur_depth hcur hU
    have h8 := hbelow_cur v hv
    omega

theorem find_path_trace_spec (m : Maze) (obs : List position) (s : position)
    (P : position → Option position) (I1 : List position) (lev : position → Nat)
    (hlev : lev s = 0)
    (htree : ∀ v, v ∈ I1 → v ≠ s →
      ∃ c, P v = some c ∧ c ∈ I1 ∧ Step m obs c v ∧ lev v = lev c + 1) :
    ∀ (n : Nat) (v : position), v ∈ I1 → lev v = n →
      ∃ chain : List position, chain.length = n ∧
        List.Chain (fun a b => Step m obs b a) v chain ∧
        List.getLast (v :: chain) (List.cons_ne_nil _ _) = s ∧
        ∀ (fuel : Nat) (out : List position), n < fuel →
          find_path_trace s P fuel v out = Outcome.done (out ++ v :: chain) := by
  intro n
  induction n with
  | zero =>
    intro v hv hn
    have hvs : v = s := by
      by_contra hne
      obtain ⟨c, _, _, _, h⟩ := htree v hv hne
      omega
    subst hvs
    refine ⟨[], rfl, List.Chain.nil, rfl, ?_⟩
    intro fuel out hfuel
    cases fuel with
    | zero => omega
    | succ fuel => simp [find_path_trace]
  | succ n ih =>
    intro v hv hn
    have hvs : v ≠ s := by
      intro h
      rw [h, hlev] at hn
      omega
    obtain ⟨c, h1, h2, h3, h4⟩ := htree v hv hvs
    obtain ⟨chain, h5, h6, h7, h8⟩ := ih c h2 (by omega)
    refine ⟨c :: chain, by simp [h5], List.Chain.cons h3 h6, ?_, ?_⟩
    · rw [List.getLast_cons (List.cons_ne_nil _ _)]
      exact h7
    · intro fuel out hfuel
      cases fuel with
      | zero => omega
      | succ fuel =>
        simp only [find_path_trace, hvs, if_false, h1, Option.getD_some]
        rw [h8 fuel (out ++ [v]) (by omega)]
        simp

theorem PathInv.found {m : Maze} {obs : List position} {s t cur : position}
    {U rest I : List position} {P : position → Option position} {lev : position → Nat}
    (inv : PathInv m obs s t U (cur :: rest) I P lev) (hcur : cur ∉ I) (hU : cur ∈ U)
    (hst : t ≠ s) {Q1 : List position} {P1 : position → Option position}
    (hres : find_path_neighbors t cur (cur :: I) (neighbors_of m obs cur) rest P =
      (true, Q1, P1)) :
    ∃ chain, Traced m obs s t U.length P1 chain := by
  obtain ⟨fd, Q2, P2, heq, h2, _, h4, _⟩ :=
    find_path_neighbors_spec t cur (cur :: I) (neighbors_of m obs cur) rest P
  rw [hres] at heq
  simp only [Prod.mk.injEq] at heq
  obtain ⟨rfl, rfl, rfl⟩ := heq
  obtain ⟨h5, h6, h7⟩ := h4 rfl
  have hstep : Step m obs cur t := (mem_neighbors_of m obs cur t).1 h5
  have hcw : WalkN (Step m obs) s cur (lev cur) := inv.walk cur (Or.inr (List.mem_cons_self _ _))
  have hP : ∀ v, v ∈ cur :: I → P1 v = P v := by
    intro v hv
    rcases h2 v with h | ⟨_, _, h⟩
    · exact h
    · exact absurd hv h
  have htree : ∀ v, v ∈ cur :: I → v ≠ s →
      ∃ c, P1 v = some c ∧ c ∈ cur :: I ∧ Step m obs c v ∧ lev v = lev c + 1 := by
    intro v hv hne
    have hv1 : v ∈ I ∨ v ∈ cur :: rest := by
      rcases List.mem_cons.1 hv with hv | hv
      · exact Or.inr (hv ▸ List.mem_cons_self _ _)
      · exact Or.inl hv
    obtain ⟨c, h8, h9, h10, h11⟩ := inv.tree v hv1 hne
    exact ⟨c, (hP v hv) ▸ h8, List.mem_cons_of_mem _ h9, h10, h11⟩
  obtain ⟨chain, h8, h9, h10, h11⟩ :=
    find_path_trace_spec m obs s P1 (cur :: I) lev inv.lev_src htree (lev cur) cur
      (List.mem_cons_self _ _) rfl
  refine ⟨cur :: chain, ?_, List.Chain.cons hstep h9, ?_, ?_, ?_, ?_⟩
  · intro fuel out hfuel
    simp only [List.length_cons] at hfuel
    cases fuel with
    | zero => omega
    | succ fuel =>
      simp only [find_path_trace, hst, if_false, h7, Option.getD_some]
      rw [h11 fuel (out ++ [t]) (by omega)]
      simp
  · rw [List.getLast_cons (List.cons_ne_nil _ _)]
    exact h10
  · simp only [List.length_cons, h8]
    exact WalkN.succ hcw hstep
  · intro k hk
    simp only [List.length_cons, h8]
    have h12 : lev cur ≤ k := by
      rcases inv.walk_bound hk with ⟨h, _⟩ | ⟨q, hq, hqk⟩
      · exact absurd h inv.fresh.1
      · rcases List.mem_cons.1 hq with hq | hq
        · rw [← hq]; exact hqk
        · have := (List.pairwise_cons.1 inv.sorted).1 q hq
          omega
    have h13 := WalkN.ne_of_step hcw hk hstep
    omega
  · simp only [List.length_cons, h8]
    have := inv.cur_depth hcur hU
    omega

theorem find_path_search_spec (m : Maze) (obs : List position) (s t : position)
    (U : List position) (hU : ∀ p, m.valid p = true → p ∈ U) (hsU : s ∈ U) (hst : t ≠ s)
    (hreach : ∃ k, WalkN (Step m obs) s t k) :
    ∀ (fuel : Nat) (Q I : List position) (P : position → Option position)
      (lev : position → Nat), PathInv m obs s t U Q I P lev →
      5 * unseenIn U I + Q.length < fuel →
      ∃ P1 chain, find_path_search m t obs fuel Q I P = Outcome.done (true, P1) ∧
        Traced m obs s t U.length P1 chain := by
  intro fuel
  induction fuel with
  | zero => intro Q I P lev _ h; omega
  | succ fuel ih =>
    intro Q I P lev inv hfuel
    cases Q with
    | nil =>
      exfalso
      obtain ⟨k, hk⟩ := hreach
      rcases inv.walk_bound hk with ⟨h, _⟩ | ⟨q, hq, _⟩
      · exact inv.fresh.1 h
      · exact List.not_mem_nil _ hq
    | cons cur rest =>
      simp only [List.length_cons] at hfuel
      by_cases hcur : cur ∈ I
      · simp only [find_path_search, hcur, if_true]
        exact ih rest I P lev (inv.skip hcur) (by omega)
      · have hcU : cur ∈ U := inv.mem_U hU hsU cur (List.mem_cons_self _ _)
        simp only [find_path_search, hcur, if_false, get_neighbors_eq]
        obtain ⟨fd, Q1, P1, heq, _, _, _, h5⟩ :=
          find_path_neighbors_spec t cur (cur :: I) (neighbors_of m obs cur) rest P
        rw [heq]
        cases fd with
        | true =>
          obtain ⟨chain, hch⟩ := inv.found hcur hcU hst heq
          exact ⟨P1, chain, rfl, hch⟩
        | false =>
          obtain ⟨lev1, inv1⟩ := inv.step_path hcur hcU heq
          apply ih Q1 (cur :: I) P1 lev1 inv1
          have h6 := (h5 rfl).1
          have h7 := unseenIn_cons_lt U I cur hcur hcU
          have h8 : Q1.length ≤ rest.length + 4 := by
            rw [h6, List.length_append]
            have := (List.length_filter_le (fun p => decide (p ∉ cur :: I))
              (neighbors_of m obs cur)).trans (length_neighbors_of m obs cur)
            omega
          omega

/-- With enough fuel `find_path` towards a reachable target other than the source
returns `t :: chain`, a walk read backwards of least length. -/
theorem find_path_spec (m : Maze) (source target : position) (obs : List position)
    (fuel : Nat) (hst : target ≠ source) (hreach : ∃ k, WalkN (Step m obs) source target k)
    (hfuel : 5 * area m + 7 ≤ fuel) :
    ∃ chain, m.find_path source target obs [] fuel = Outcome.done (target :: chain) ∧
      List.Chain (fun a b => Step m obs b a) target chain ∧
      List.getLast (target :: chain) (List.cons_ne_nil _ _) = source ∧
      WalkN (Step m obs) source target chain.length ∧
      ∀ k, WalkN (Step m obs) source target k → chain.length ≤ k := by
  have hlen : (source :: positions m).length = area m + 1 := by
    simp [length_positions]
  have h0 := unseenIn_le (source :: positions m) []
  obtain ⟨P1, chain, h1, h2⟩ :=
    find_path_search_spec m obs source target (source :: positions m)
      (fun p hp => List.mem_cons_of_mem _ ((mem_positions m p).2 hp))
      (List.mem_cons_self _ _) hst hreach fuel [source] [] (fun _ => none) (fun _ => 0)
      (PathInv.init_path m obs source target _ hst.symm)
      (by simp only [List.length_singleton]; omega)
  refine ⟨chain, ?_, h2.linked, h2.last, h2.walk, h2.least⟩
  have h3 := h2.short
  simp only [find_path, hst.symm, if_false, h1]
  rw [h2.run fuel [] (by omega)]
  simp

theorem backwards_chain_adjacent (m : Maze) (obs : List position) (s : position)
    (hm : representable m) (hs : m.valid s = true) :
    ∀ (chain : List position) (v : position),
      List.Chain (fun a b => Step m obs b a) v chain →
      List.getLast (v :: chain) (List.cons_ne_nil _ _) = s →
      m.valid v = true ∧ List.Chain Adjacent v chain ∧
        ∀ p ∈ v :: chain, p ≠ s → Free m obs p := by
  intro chain
  induction chain with
  | nil =>
    intro v _ h2
    simp only [List.getLast_singleton] at h2
    subst h2
    refine ⟨hs, List.Chain.nil, ?_⟩
    intro p hp hne
    simp only [List.mem_singleton] at hp
    exact absurd hp hne
  | cons c chain ih =>
    intro v h1 h2
    rw [List.chain_cons] at h1
    rw [List.getLast_cons (List.cons_ne_nil _ _)] at h2
    obtain ⟨h3, h4, h5⟩ := ih c h1.2 h2
    have hv : m.valid v = true := h1.1.2.1
    refine ⟨hv, List.Chain.cons ?_ h4, ?_⟩
    · exact (h1.1.1.adjacent (valid_lt m hm c h3) (valid_lt m hm v hv)).symm
    · intro p hp hne
      rcases List.mem_cons.1 hp with hp | hp
      · rw [hp]; exact h1.1.2
      · exact h5 p hp hne

/-- C1: for a board whose sizes are `size_t` values, a valid source `s`, a target
`t ≠ s` reachable from `s` over the neighbours relation and any obstacle list,
`find_path` called with an empty output returns (given enough fuel) a sequence whose first
element is `t`, whose last element is `s`, whose consecutive positions differ by exactly
one in exactly one coordinate, and whose positions other than `s` are grid-valid,
statically walkable and absent from `obs`. -/
theorem find_path_is_path (m : Maze) (s t : position) (obs : List position) (fuel : Nat)
    (hm : representable m) (hs : m.valid s = true) (hst : t ≠ s)
    (hreach : ∃ path, IsWalk m obs s path t) (hfuel : 5 * area m + 7 ≤ fuel) :
    ∃ out, m.find_path s t obs [] fuel = Outcome.done out ∧
      out.head? = some t ∧ out.getLast? = some s ∧ List.Chain' Adjacent out ∧
      ∀ p ∈ out, p ≠ s → Free m obs p := by
  obtain ⟨path, hpath⟩ := hreach
  obtain ⟨chain, h1, h2, h3, _, _⟩ :=
    find_path_spec m s t obs fuel hst ⟨path.length, walkN_of_chained hpath⟩ hfuel
  obtain ⟨_, h5, h6⟩ := backwards_chain_adjacent m obs s hm hs chain t h2 h3
  refine ⟨t :: chain, h1, rfl, ?_, h5, h6⟩
  rw [List.getLast?_eq_getLast _ (List.cons_ne_nil _ _), h3]

theorem find_path_is_path_witness :
    ∃ out, demo_3x3.find_path (0, 0) (1, 0) [] [] 52 = Outcome.done out ∧
      out.head? = some (1, 0) ∧ out.getLast? = some (0, 0) ∧ List.Chain' Adjacent out ∧
      ∀ p ∈ out, p ≠ (0, 0) → Free demo_3x3 [] p :=
  find_path_is_path demo_3x3 (0, 0) (1, 0) [] 52 (by decide) (by decide) (by decide)
    ⟨[(1, 0)], List.Chain.cons (by decide) List.Chain.nil, rfl⟩ (by decide)

/-- C2: for a target `t ≠ s` reachable from `s`, the length of the sequence `find_path`
returns, minus one, is the shortest-path distance from `s` to `t` in the graph of
`get_neighbors`: some walk from `s` to `t` has that many moves and none has fewer. -/
theorem find_path_shortest (m : Maze) (s t : position) (obs : List position) (fuel : Nat)
    (hst : t ≠ s) (hreach : ∃ path, IsWalk m obs s path t) (hfuel : 5 * area m + 7 ≤ fuel) :
    ∃ out, m.find_path s t obs [] fuel = Outcome.done out ∧
      (∃ path, IsWalk m obs s path t ∧ path.length = out.length - 1) ∧
      ∀ path, IsWalk m obs s path t → out.length - 1 ≤ path.length := by
  obtain ⟨path, hpath⟩ := hreach
  obtain ⟨chain, h1, _, _, h4, h5⟩ :=
    find_path_spec m s t obs fuel hst ⟨path.length, walkN_of_chained hpath⟩ hfuel
  refine ⟨t :: chain, h1, ?_, ?_⟩
  · simpa using chained_of_walkN h4
  · intro p hp
    simpa using h5 p.length (walkN_of_chained hp)

theorem find_path_shortest_witness :
    ∃ out, demo_3x3.find_path (0, 0) (1, 0) [] [] 52 = Outcome.done out ∧
      (∃ path, IsWalk demo_3x3 [] (0, 0) path (1, 0) ∧ path.length = out.length - 1) ∧
      ∀ path, IsWalk demo_3x3 [] (0, 0) path (1, 0) → out.length - 1 ≤ path.length :=
  find_path_shortest demo_3x3 (0, 0) (1, 0) [] 52 (by decide)
    ⟨[(1, 0)], List.Chain.cons (by decide) List.Chain.nil, rfl⟩ (by decide)

/-- C4: `find_path` with the target equal to the source returns the output sequence
unchanged, whatever the board, the obstacle list and the fuel; in particular an empty
output stays empty. -/
theorem find_path_same (m : Maze) (s : position) (obs output : List position) (fuel : Nat) :
    m.find_path s s obs output fuel = Outcome.done output ∧
      m.find_path s s obs [] fuel = Outcome.done [] := by
  simp [find_path]

theorem find_path_trace_loops (fuel : Nat) (output : List position) :
    find_path_trace (2, 0) (fun _ => none) fuel (0, 0) output = Outcome.timeout := by
  induction fuel generalizing output with
  | zero => rfl
  | succ fuel ih =>
    have h : ((0, 0) : position) ≠ (2, 0) := by decide
    simp only [find_path_trace, h, if_false, Option.getD_none]
    exact ih _

/-- C3 fails on the code: on the row Floor, Obstacle, Floor the tile (2,0) cannot be
reached from (0,0) (no walk leads there and `reachable` answers false), yet `find_path`
returns the two positions (2,0), (0,0), which are not adjacent: the back-trace read the
predecessor of (2,0), which the search never recorded, as the default (0,0).  In the other
direction the back-trace never leaves (0,0): no amount of fuel lets `find_path` return. -/
theorem find_path_unreachable_defect :
    (¬ ∃ path, IsWalk demo_split [] (0, 0) path (2, 0)) ∧
      demo_split.reachable (0, 0) (2, 0) [] 5 = Outcome.done false ∧
      demo_split.find_path (0, 0) (2, 0) [] [] 22 = Outcome.done [(2, 0), (0, 0)] ∧
      ¬ Adjacent (2, 0) (0, 0) ∧
      ∀ fuel, demo_split.find_path (2, 0) (0, 0) [] [] fuel = Outcome.timeout := by
  refine ⟨?_, by decide, by decide, by decide, ?_⟩
  · intro h
    obtain ⟨b, h1, h2⟩ := reachable_spec demo_split (0, 0) (2, 0) [] 5 (by decide)
      (by decide)
    have h3 : demo_split.reachable (0, 0) (2, 0) [] 5 = Outcome.done false := by decide
    rw [h3] at h1
    have h4 : b = false := (Outcome.done.inj h1).symm
    rw [h4] at h2
    exact absurd (h2.2 ((reflTransGen_iff_walk _ _ _ _).2 h)) (by decide)
  · intro fuel
    cases fuel with
    | zero => rfl
    | succ fuel =>
      cases fuel with
      | zero => rfl
      | succ fuel =>
        have h : ((2, 0) : position) ≠ (0, 0) := by decide
        have hs : find_path_search demo_split (0, 0) [] (fuel + 1 + 1) [(2, 0)] []
            (fun _ => none) = Outcome.done (false, fun _ => none) := rfl
        simp only [find_path, h, if_false, hs]
        exact find_path_trace_loops _ _

theorem call_eq (m : Maze) (p : position) :
    m.call p = (m.tiles[p.2]?).bind fun row => row[p.1]? := by
  cases h : m.call p with
  | none =>
    cases h1 : m.tiles[p.2]? with
    | none => rfl
    | some row =>
      cases h2 : row[p.1]? with
      | none => simp [h2]
      | some t =>
        have := (call_eq_some_iff m p t).2 ⟨row, h1, h2⟩
        rw [h] at this
        exact absurd this (by simp)
  | some t =>
    obtain ⟨row, h1, h2⟩ := (call_eq_some_iff m p t).1 h
    simp [h1, h2]

theorem assign_eq_some {m m1 : Maze} {p : position} {f : Tile → Tile}
    (h : m.assign p f = some m1) :
    ∃ t, m.call p = some t ∧
      m1 = { m with tiles := m.tiles.set p.2 ((m.tiles.getD p.2 []).set p.1 (f t)) } := by
  unfold assign at h
  cases hc : m.call p with
  | none => simp [hc] at h
  | some t =>
    simp only [hc, Option.some.injEq] at h
    exact ⟨t, rfl, h.symm⟩

theorem assign_isSome {m : Maze} {p : position} {t : Tile} (f : Tile → Tile)
    (h : m.call p = some t) : ∃ m1, m.assign p f = some m1 := by
  unfold assign
  simp [h]

theorem call_assign_self {m m1 : Maze} {p : position} {f : Tile → Tile}
    (h : m.assign p f = some m1) : m1.call p = (m.call p).map f := by
  obtain ⟨t, h1, rfl⟩ := assign_eq_some h
  obtain ⟨row, h2, h3⟩ := (call_eq_some_iff m p t).1 h1
  have h4 := (List.getElem?_eq_some.mp h2).1
  have h5 := (List.getElem?_eq_some.mp h3).1
  rw [h1, call_eq]
  simp [h2, h4, h5]

theorem call_assign_ne {m m1 : Maze} {p q : position} {f : Tile → Tile}
    (h : m.assign p f = some m1) (hq : q ≠ p) : m1.call q = m.call q := by
  obtain ⟨t, h1, rfl⟩ := assign_eq_some h
  obtain ⟨row, h2, h3⟩ := (call_eq_some_iff m p t).1 h1
  have h4 := (List.getElem?_eq_some.mp h2).1
  rw [call_eq, call_eq]
  by_cases hrow : p.2 = q.2
  · have hcol : p.1 ≠ q.1 := fun hc => hq (Prod.ext hc.symm hrow.symm)
    simp [← hrow, h2, h4, List.getElem?_set_ne hcol]
  · simp [List.getElem?_set_ne hrow]

theorem assign_crates {m m1 : Maze} {p : position} {f : Tile → Tile}
    (h : m.assign p f = some m1) :
    m1.crates_starting_pos = m.crates_starting_pos ∧
      m1.crates_ending_pos = m.crates_ending_pos ∧
      m1.player_starting_pos = m.player_starting_pos := by
  obtain ⟨t, _, rfl⟩ := assign_eq_some h
  exact ⟨rfl, rfl, rfl⟩

theorem Frame.refl {α : Type} (g : Tile → α) (m : Maze) : Frame g m m :=
  ⟨fun _ => rfl, rfl, rfl, rfl⟩

theorem Frame.trans {α : Type} {g : Tile → α} {m m1 m2 : Maze} (h1 : Frame g m m1)
    (h2 : Frame g m1 m2) : Frame g m m2 :=
  ⟨fun q => (h2.1 q).trans (h1.1 q), h2.2.1.trans h1.2.1, h2.2.2.1.trans h1.2.2.1,
    h2.2.2.2.trans h1.2.2.2⟩

theorem assign_frame {α : Type} {g : Tile → α} {m m1 : Maze} {p : position} {f : Tile → Tile}
    (hg : ∀ t, g (f t) = g t) (h : m.assign p f = some m1) : Frame g m m1 := by
  refine ⟨?_, assign_crates h⟩
  intro q
  by_cases hq : q = p
  · subst hq
    rw [call_assign_self h]
    cases m.call q <;> simp [hg]
  · rw [call_assign_ne h hq]

theorem Frame.valid {α : Type} {g : Tile → α} {m m1 : Maze} (h : Frame g m m1) (q : position) :
    m1.valid q = m.valid q := by
  have h1 := h.1 q
  have h2 := valid_iff_call m q
  have h3 := valid_iff_call m1 q
  cases hv : m.valid q <;> cases hv1 : m1.valid q <;> cases hc : m.call q <;>
    cases hc1 : m1.call q <;> simp_all

theorem relax_spec (setd : Nat → Tile → Tile) (cur : position) (U : List position) :
    ∀ (ns : List position) (st st1 : Pass), cur ∈ st.interior →
      (∀ v ∈ ns, v ∉ st.interior → v ∈ U) →
      relax setd cur ns st = some st1 →
      ∃ new, st1.frontier = st.frontier ++ new ∧
        (∀ v, v ∈ new → v ∈ ns ∧ v ∉ st.interior) ∧
        (∀ v, v ∈ ns → v ∈ st.interior ∨ v ∈ new) ∧
        (∀ v, v ∈ st1.interior ↔ v ∈ st.interior ∨ v ∈ new) ∧
        (∀ v, v ∈ new → costOf st1 v = (costOf st cur + 1) % SIZE_MOD) ∧
        (∀ v, v ∉ new → costOf st1 v = costOf st v) ∧
        (∀ v, v ∈ new →
          st1.maze.call v = (st.maze.call v).map (setd ((costOf st cur + 1) % SIZE_MOD))) ∧
        (∀ v, v ∉ new → st1.maze.call v = st.maze.call v) ∧
        (∀ v, v ∈ new → ∃ t, st.maze.call v = some t) ∧
        unseenIn U st1.interior + new.length ≤ unseenIn U st.interior := by
  intro ns
  induction ns with
  | nil =>
    intro st st1 _ _ h
    simp only [relax, Option.some.injEq] at h
    subst h
    exact ⟨[], by simp, by simp, by simp, by simp, by simp, by simp, by simp, by simp, by simp⟩
  | cons n ns ih =>
    intro st st1 hcur hU h
    unfold relax at h
    by_cases hn : n ∈ st.interior
    · simp only [hn, if_true] at h
      obtain ⟨new, h1, h2, h3, h4, h5, h6, h7, h8, h9, h10⟩ :=
        ih st st1 hcur (fun v hv => hU v (List.mem_cons_of_mem _ hv)) h
      refine ⟨new, h1, ?_, ?_, h4, h5, h6, h7, h8, h9, h10⟩
      · exact fun v hv => ⟨List.mem_cons_of_mem _ (h2 v hv).1, (h2 v hv).2⟩
      · intro v hv
        rcases List.mem_cons.1 hv with hv | hv
        · exact Or.inl (hv ▸ hn)
        · exact h3 v hv
    · simp only [hn, if_false] at h
      cases ha : st.maze.assign n (setd (((st.cost cur).getD 0 + 1) % SIZE_MOD)) with
      | none => simp [ha] at h
      | some m1 =>
        simp only [ha] at h
        have hcn : cur ≠ n := fun hc => hn (hc ▸ hcur)
        obtain ⟨new, h1, h2, h3, h4, h5, h6, h7, h8, h9, h10⟩ :=
          ih _ st1 (List.mem_cons_of_mem _ hcur) (fun v hv hvi =>
            hU v (List.mem_cons_of_mem _ hv) (fun hc => hvi (List.mem_cons_of_mem _ hc))) h
        have hcost : costOf ⟨m1, st.frontier ++ [n], n :: st.interior,
            map_set st.cost n (((st.cost cur).getD 0 + 1) % SIZE_MOD)⟩ cur =
            costOf st cur := by
          simp [costOf, map_set, hcn]
        rw [hcost] at h5 h7
        have hnn : n ∉ new := fun hc => (h2 n hc).2 (List.mem_cons_self _ _)
        obtain ⟨tn, htn, _⟩ := assign_eq_some ha
        refine ⟨n :: new, by simp [h1], ?_, ?_, ?_, ?_, ?_, ?_, ?_, ?_, ?_⟩
        · intro v hv
          rcases List.mem_cons.1 hv with hv | hv
          · subst hv; exact ⟨List.mem_cons_self _ _, hn⟩
          · exact ⟨List.mem_cons_of_mem _ (h2 v hv).1,
              fun hc => (h2 v hv).2 (List.mem_cons_of_mem _ hc)⟩
        · intro v hv
          rcases List.mem_cons.1 hv with hv | hv
          · exact Or.inr (hv ▸ List.mem_cons_self _ _)
          · rcases h3 v hv with h | h
            · rcases List.mem_cons.1 h with h | h
              · exact Or.inr (h ▸ List.mem_cons_self _ _)
              · exact Or.inl h
            · exact Or.inr (List.mem_cons_of_mem _ h)
        · intro v
          rw [h4 v]
          simp only [List.mem_cons]
          tauto
        · intro v hv
          rcases List.mem_cons.1 hv with hv | hv
          · subst hv
            rw [h6 v hnn]
            simp [costOf, map_set]
          · exact h5 v hv
        · intro v hv
          have hv1 : v ≠ n ∧ v ∉ new := by
            constructor
            · exact fun hc => hv (hc ▸ List.mem_cons_self _ _)
            · exact fun hc => hv (List.mem_cons_of_mem _ hc)
          rw [h6 v hv1.2]
          simp [costOf, map_set, hv1.1]
        · intro v hv
          rcases List.mem_cons.1 hv with hv | hv
          · subst hv
            rw [h8 v hnn]
            exact call_assign_self ha
          · rw [h7 v hv]
            have hvn : v ≠ n := fun hc => hnn (hc ▸ hv)
            show Option.map _ (m1.call v) = _
            rw [call_assign_ne ha hvn]
        · intro v hv
          have hv1 : v ≠ n ∧ v ∉ new := by
            constructor
            · exact fun hc => hv (hc ▸ List.mem_cons_self _ _)
            · exact fun hc => hv (List.mem_cons_of_mem _ hc)
          rw [h8 v hv1.2]
          exact call_assign_ne ha hv1.1
        · intro v hv
          rcases List.mem_cons.1 hv with hv | hv
          · subst hv; exact ⟨tn, htn⟩
          · obtain ⟨t, ht⟩ := h9 v hv
            have hvn : v ≠ n := fun hc => hnn (hc ▸ hv)
            have ht1 : m1.call v = some t := ht
            rw [call_assign_ne ha hvn] at ht1
            exact ⟨t, ht1⟩
        · have h11 := unseenIn_cons_lt U st.interior n hn (hU n (List.mem_cons_self _ _) hn)
          simp only [List.length_cons]
          have h12 : unseenIn U st1.interior + new.length ≤ unseenIn U (n :: st.interior) := h10
          omega

theorem relax_isSome (setd : Nat → Tile → Tile) (cur : position) :
    ∀ (ns : List position) (st : Pass), (∀ v ∈ ns, ∃ t, st.maze.call v = some t) →
      ∃ st1, relax setd cur ns st = some st1 := by
  intro ns
  induction ns with
  | nil => intro st _; exact ⟨st, rfl⟩
  | cons n ns ih =>
    intro st hv
    unfold relax
    by_cases hn : n ∈ st.interior
    · simp only [hn, if_true]
      exact ih st (fun v hv1 => hv v (List.mem_cons_of_mem _ hv1))
    · simp only [hn, if_false]
      obtain ⟨tn, htn⟩ := hv n (List.mem_cons_self _ _)
      obtain ⟨m1, hm1⟩ := assign_isSome (setd (((st.cost cur).getD 0 + 1) % SIZE_MOD)) htn
      simp only [hm1]
      apply ih
      intro v hv1
      obtain ⟨t, ht⟩ := hv v (List.mem_cons_of_mem _ hv1)
      by_cases hvn : v = n
      · subst hvn
        exact ⟨_, by show m1.call v = _; rw [call_assign_self hm1, htn]; rfl⟩
      · exact ⟨t, by show m1.call v = _; rw [call_assign_ne hm1 hvn]; exact ht⟩

theorem seed_spec (setd : Nat → Tile → Tile) (getd : Tile → Nat)
    (hget : ∀ v t, getd (setd v t) = v) :
    ∀ (S : List position) (st st1 : Pass), seed setd S st = some st1 →
      st1.frontier = st.frontier ++ S ∧
        (∀ v, v ∈ st1.interior ↔ v ∈ st.interior ∨ v ∈ S) ∧
        (∀ v, v ∈ S → costOf st1 v = 0) ∧
        (∀ v, v ∉ S → costOf st1 v = costOf st v) ∧
        (∀ v, v ∈ S → ∃ t, st1.maze.call v = some t ∧ getd t = 0) ∧
        (∀ v, v ∉ S → st1.maze.call v = st.maze.call v) := by
  intro S
  induction S with
  | nil =>
    intro st st1 h
    simp only [seed, Option.some.injEq] at h
    subst h
    simp
  | cons a S ih =>
    intro st st1 h
    unfold seed at h
    cases ha : st.maze.assign a (setd 0) with
    | none => simp [ha] at h
    | some m1 =>
      simp only [ha] at h
      obtain ⟨h1, h2, h3, h4, h5, h6⟩ := ih _ st1 h
      obtain ⟨ta, hta, _⟩ := assign_eq_some ha
      refine ⟨by simp [h1], ?_, ?_, ?_, ?_, ?_⟩
      · intro v
        rw [h2 v]
        simp only [List.mem_insert_iff, List.mem_cons]
        tauto
      · intro v hv
        by_cases hvS : v ∈ S
        · exact h3 v hvS
        · have hva : v = a := by
            rcases List.mem_cons.1 hv with hv | hv
            · exact hv
            · exact absurd hv hvS
          rw [h4 v hvS]
          simp [costOf, map_set, hva]
      · intro v hv
        have hv1 : v ≠ a ∧ v ∉ S :=
          ⟨fun hc => hv (hc ▸ List.mem_cons_self _ _), fun hc => hv (List.mem_cons_of_mem _ hc)⟩
        rw [h4 v hv1.2]
        simp [costOf, map_set, hv1.1]
      · intro v hv
        by_cases hvS : v ∈ S
        · exact h5 v hvS
        · have hva : v = a := by
            rcases List.mem_cons.1 hv with hv | hv
            · exact hv
            · exact absurd hv hvS
          subst hva
          rw [h6 v hvS]
          show ∃ t, m1.call v = some t ∧ getd t = 0
          rw [call_assign_self ha, hta]
          exact ⟨_, rfl, hget 0 ta⟩
      · intro v hv
        have hv1 : v ≠ a ∧ v ∉ S :=
          ⟨fun hc => hv (hc ▸ List.mem_cons_self _ _), fun hc => hv (List.mem_cons_of_mem _ hc)⟩
        rw [h6 v hv1.2]
        exact call_assign_ne ha hv1.1

theorem seed_frame {α : Type} (g : Tile → α) (setd : Nat → Tile → Tile)
    (hg : ∀ v t, g (setd v t) = g t) :
    ∀ (S : List position) (st st1 : Pass), seed setd S st = some st1 →
      Frame g st.maze st1.maze := by
  intro S
  induction S with
  | nil =>
    intro st st1 h
    simp only [seed, Option.some.injEq] at h
    subst h
    exact Frame.refl _ _
  | cons a S ih =>
    intro st st1 h
    unfold seed at h
    cases ha : st.maze.assign a (setd 0) with
    | none => simp [ha] at h
    | some m1 =>
      simp only [ha] at h
      exact (assign_frame (hg 0) ha).trans (ih _ st1 h)

theorem relax_frame {α : Type} (g : Tile → α) (setd : Nat → Tile → Tile)
    (hg : ∀ v t, g (setd v t) = g t) (cur : position) :
    ∀ (ns : List position) (st st1 : Pass), relax setd cur ns st = some st1 →
      Frame g st.maze st1.maze := by
  intro ns
  induction ns with
  | nil =>
    intro st st1 h
    simp only [relax, Option.some.injEq] at h
    subst h
    exact Frame.refl _ _
  | cons n ns ih =>
    intro st st1 h
    unfold relax at h
    by_cases hn : n ∈ st.interior
    · simp only [hn, if_true] at h
      exact ih st st1 h
    · simp only [hn, if_false] at h
      cases ha : st.maze.assign n (setd (((st.cost cur).getD 0 + 1) % SIZE_MOD)) with
      | none => simp [ha] at h
      | some m1 =>
        simp only [ha] at h
        exact (assign_frame (hg _) ha).trans (ih _ st1 h)

theorem pass_loop_frame {α : Type} (g : Tile → α)
    (probe : Maze → position → Option (List position)) (setd : Nat → Tile → Tile)
    (hg : ∀ v t, g (setd v t) = g t) :
    ∀ (fuel : Nat) (st : Pass) (m1 : Maze), pass_loop probe setd fuel st = Outcome.done m1 →
      Frame g st.maze m1 := by
  intro fuel
  induction fuel with
  | zero => intro st m1 h; simp [pass_loop] at h
  | succ fuel ih =>
    intro st m1 h
    unfold pass_loop at h
    cases hf : st.frontier with
    | nil =>
      simp only [hf, Outcome.done.injEq] at h
      subst h
      exact Frame.refl _ _
    | cons cur rest =>
      simp only [hf] at h
      cases hp : probe st.maze cur with
      | none => simp [hp] at h
      | some ns =>
        simp only [hp] at h
        cases hr : relax setd cur ns { st with frontier := rest } with
        | none => simp [hr] at h
        | some st1 =>
          simp only [hr] at h
          exact (relax_frame g setd hg cur ns _ st1 hr).trans (ih st1 m1 h)

theorem pass_frame {α : Type} (g : Tile → α)
    (probe : Maze → position → Option (List position)) (setd : Nat → Tile → Tile)
    (hg : ∀ v t, g (setd v t) = g t) (S : List position) (m m1 : Maze) (fuel : Nat)
    (h : pass probe setd S m fuel = Outcome.done m1) : Frame g m m1 := by
  unfold pass at h
  cases hs : seed setd S { maze := m, frontier := [], interior := [], cost := fun _ => none } with
  | none => simp [hs] at h
  | some st =>
    simp only [hs] at h
    exact (seed_frame g setd hg S _ st hs).trans (pass_loop_frame g probe setd hg fuel st m1 h)

theorem pass_loop_seeds_zero (probe : Maze → position → Option (List position))
    (setd : Nat → Tile → Tile) (getd : Tile → Nat) (S : List position) :
    ∀ (fuel : Nat) (st : Pass) (m1 : Maze), SeedsZero getd S st →
      pass_loop probe setd fuel st = Outcome.done m1 →
      ∀ p ∈ S, ∃ t, m1.call p = some t ∧ getd t = 0 := by
  intro fuel
  induction fuel with
  | zero => intro st m1 _ h; simp [pass_loop] at h
  | succ fuel ih =>
    intro st m1 hz h
    unfold pass_loop at h
    cases hf : st.frontier with
    | nil =>
      simp only [hf, Outcome.done.injEq] at h
      subst h
      exact fun p hp => (hz.2 p hp).2
    | cons cur rest =>
      simp only [hf] at h
      cases hp : probe st.maze cur with
      | none => simp [hp] at h
      | some ns =>
        simp only [hp] at h
        cases hr : relax setd cur ns { st with frontier := rest } with
        | none => simp [hr] at h
        | some st1 =>
          simp only [hr] at h
          have hcur : cur ∈ st.interior := hz.1 cur (hf ▸ List.mem_cons_self _ _)
          obtain ⟨new, h1, h2, _, h4, _, _, _, h8, _, _⟩ :=
            relax_spec setd cur ns ns ⟨st.maze, rest, st.interior, st.cost⟩ st1 hcur
              (fun v hv _ => hv) hr
          apply ih st1 m1 _ h
          constructor
          · intro q hq
            rw [h1] at hq
            rcases List.mem_append.1 hq with hq | hq
            · have hq1 : q ∈ rest := hq
              exact (h4 q).2 (Or.inl (hz.1 q (hf ▸ List.mem_cons_of_mem _ hq1)))
            · exact (h4 q).2 (Or.inr hq)
          · intro p hp1
            obtain ⟨h9, t, h10, h11⟩ := hz.2 p hp1
            refine ⟨(h4 p).2 (Or.inl h9), t, ?_, h11⟩
            rw [h8 p (fun hc => (h2 p hc).2 h9)]
            exact h10

theorem pass_seeds_zero (probe : Maze → position → Option (List position))
    (setd : Nat → Tile → Tile) (getd : Tile → Nat) (hget : ∀ v t, getd (setd v t) = v)
    (S : List position) (m m1 : Maze) (fuel : Nat)
    (h : pass probe setd S m fuel = Outcome.done m1) :
    ∀ p ∈ S, ∃ t, m1.call p = some t ∧ getd t = 0 := by
  unfold pass at h
  cases hs : seed setd S { maze := m, frontier := [], interior := [], cost := fun _ => none } with
  | none => simp [hs] at h
  | some st =>
    simp only [hs] at h
    obtain ⟨h1, h2, _, _, h5, _⟩ := seed_spec setd getd hget S _ st hs
    apply pass_loop_seeds_zero probe setd getd S fuel st m1 _ h
    constructor
    · intro q hq
      rw [h1] at hq
      exact (h2 q).2 (Or.inr (by simpa using hq))
    · exact fun p hp => ⟨(h2 p).2 (Or.inr hp), h5 p hp⟩

theorem calculate_displacement_mapping_done {m m2 : Maze} {fuel : Nat}
    (h : m.calculate_displacement_mapping fuel = Outcome.done m2) :
    ∃ m1, m.source_pass fuel = Outcome.done m1 ∧ m1.target_pass fuel = Outcome.done m2 := by
  unfold calculate_displacement_mapping at h
  cases hs : m.source_pass fuel with
  | done m1 => exact ⟨m1, rfl, by simpa [hs] using h⟩
  | abort => simp [hs] at h
  | timeout => simp [hs] at h

theorem seeds_zero_of_done (m m2 : Maze) (fuel : Nat)
    (h : m.calculate_displacement_mapping fuel = Outcome.done m2) :
    (∀ p ∈ m.crates_starting_pos, (m2.call p).map Tile.source_displacement = some 0) ∧
      (∀ p ∈ m.crates_ending_pos, (m2.call p).map Tile.target_displacement = some 0) := by
  obtain ⟨m1, h1, h2⟩ := calculate_displacement_mapping_done h
  have hf1 : Frame Tile.target_displacement m m1 :=
    pass_frame Tile.target_displacement _ set_source (fun _ _ => rfl) _ m m1 fuel h1
  have hf2 : Frame Tile.source_displacement m1 m2 :=
    pass_frame Tile.source_displacement _ set_target (fun _ _ => rfl) _ m1 m2 fuel h2
  constructor
  · intro p hp
    obtain ⟨t, h3, h4⟩ := pass_seeds_zero _ set_source Tile.source_displacement
      (fun _ _ => rfl) _ m m1 fuel h1 p hp
    rw [hf2.1 p, h3, Option.map_some', h4]
  · intro p hp
    rw [← hf1.2.2.1] at hp
    obtain ⟨t, h3, h4⟩ := pass_seeds_zero _ set_target Tile.target_displacement
      (fun _ _ => rfl) _ m1 m2 fuel h2 p hp
    rw [h3, Option.map_some', h4]

/-- C10 fails on the code: on the 3×3 all-floor board with the crate start at (0,0) the
source pass probes `up((0,0))`, which is not a position of the grid, so the accessor's
assertion fails and `calculate_displacement_mapping` never completes, whatever the
fuel. -/
theorem displacement_open_board_aborts :
    demo_open.valid (0, 0) = true ∧ demo_open.valid (2, 2) = true ∧
      demo_open.call (up (0, 0)) = none ∧
      ∀ fuel, demo_open.calculate_displacement_mapping (fuel + 1) = Outcome.abort :=
  ⟨by decide, by decide, by decide, fun _ => rfl⟩

theorem unseenIn_mono (U s1 s2 : List position) (h : ∀ p, p ∈ s1 → p ∈ s2) :
    unseenIn U s2 ≤ unseenIn U s1 := by
  apply List.countP_mono_left
  intro x _ hx
  simp only [decide_eq_true_eq] at hx ⊢
  exact fun h1 => hx (h x h1)

theorem unseenIn_lt_of_mem (U I : List position) (p : position) (hU : p ∈ U) (hI : p ∈ I) :
    unseenIn U I + 1 ≤ U.length := by
  have h1 : unseenIn U I ≤ unseenIn U [p] :=
    unseenIn_mono U [p] I (fun q hq => by
      simp only [List.mem_singleton] at hq
      exact hq ▸ hI)
  have h2 := unseenIn_cons_lt U [] p (List.not_mem_nil _) hU
  have h3 := unseenIn_le U []
  omega

theorem nonObstacle_valid {m : Maze} {p : position} (h : NonObstacle m p) :
    m.valid p = true := by
  obtain ⟨t, ht, _⟩ := h
  exact (valid_iff_call m p).2 ⟨t, ht⟩

theorem frame_type_call {m0 m1 : Maze} (h : Frame Tile.type m0 m1) {p : position}
    (hp : NonObstacle m0 p) : ∃ t, m1.call p = some t := by
  obtain ⟨t0, h0, _⟩ := hp
  have h1 := h.1 p
  rw [h0] at h1
  cases hc : m1.call p with
  | none => simp [hc] at h1
  | some t => exact ⟨t, rfl⟩

theorem PassInv.covers_pass {getd : Tile → Nat} {m0 ms : Maze} {S : List position}
    {E : position → position → Prop} {st : Pass} (inv : PassInv getd m0 ms S E st)
    (hf : st.frontier = []) {seed v : position} {k : Nat} (hs : seed ∈ S)
    (h : WalkN E seed v k) : v ∈ st.interior ∧ costOf st v ≤ k := by
  induction h with
  | zero => exact ⟨(inv.seeds seed hs).1, by rw [(inv.seeds seed hs).2]⟩
  | succ _ hstep ih =>
    obtain ⟨h1, h2⟩ := ih
    obtain ⟨h3, h4⟩ := inv.closed _ h1 (by rw [hf]; exact List.not_mem_nil _) _ hstep
    exact ⟨h3, by omega⟩

theorem PassInv.step_pass {probe : Maze → position → Option (List position)}
    {setd : Nat → Tile → Tile} {getd : Tile → Nat} {m0 ms : Maze} {S : List position}
    {E : position → position → Prop} (ctx : PassCtx probe setd getd m0 S E)
    {st st1 : Pass} {cur : position} {rest ns : List position}
    (inv : PassInv getd m0 ms S E st) (hf : st.frontier = cur :: rest)
    (hns : ∀ v, v ∈ ns ↔ E cur v)
    (hr : relax setd cur ns ⟨st.maze, rest, st.interior, st.cost⟩ = some st1) :
    PassInv getd m0 ms S E st1 ∧
      unseenIn (positions m0) st1.interior + st1.frontier.length + 1 ≤
        unseenIn (positions m0) st.interior + st.frontier.length := by
  have hcur : cur ∈ st.interior := inv.front cur (hf ▸ List.mem_cons_self _ _)
  have hrestf : ∀ q, q ∈ rest → q ∈ st.frontier := fun q hq => hf ▸ List.mem_cons_of_mem _ hq
  have hcurf : cur ∈ st.frontier := hf ▸ List.mem_cons_self _ _
  have hU : ∀ v ∈ ns, v ∉ st.interior → v ∈ positions m0 :=
    fun v hv _ => (mem_positions m0 v).2 (nonObstacle_valid (ctx.hE cur v ((hns v).1 hv)))
  obtain ⟨new, h1, h2, h3, h4, h5, h6, h7, h8, h9, h10⟩ :=
    relax_spec setd cur (positions m0) ns ⟨st.maze, rest, st.interior, st.cost⟩ st1 hcur hU hr
  have hc0 : costOf ⟨st.maze, rest, st.interior, st.cost⟩ = costOf st := rfl
  rw [hc0] at h5 h6 h7
  have h1 : st1.frontier = rest ++ new := h1
  have h2 : ∀ v, v ∈ new → v ∈ ns ∧ v ∉ st.interior := h2
  have h3 : ∀ v, v ∈ ns → v ∈ st.interior ∨ v ∈ new := h3
  have h4 : ∀ v, v ∈ st1.interior ↔ v ∈ st.interior ∨ v ∈ new := h4
  have h7 : ∀ v, v ∈ new →
      st1.maze.call v = (st.maze.call v).map (setd ((costOf st cur + 1) % SIZE_MOD)) := h7
  have h8 : ∀ v, v ∉ new → st1.maze.call v = st.maze.call v := h8
  have h9 : ∀ v, v ∈ new → ∃ t, st.maze.call v = some t := h9
  have h10 : unseenIn (positions m0) st1.interior + new.length ≤
      unseenIn (positions m0) st.interior := h10
  have hdepth := inv.depth cur hcur
  have harea := ctx.harea
  have hmod : (costOf st cur + 1) % SIZE_MOD = costOf st cur + 1 := by
    apply Nat.mod_eq_of_lt
    unfold SIZE_MAX at harea
    unfold SIZE_MOD
    omega
  rw [hmod] at h5 h7
  have hold : ∀ v, v ∈ st.interior → costOf st1 v = costOf st v :=
    fun v hv => h6 v (fun hc => (h2 v hc).2 hv)
  have hsorted : ∀ q, q ∈ rest → costOf st cur ≤ costOf st q := by
    have := inv.sorted
    rw [hf] at this
    exact (List.pairwise_cons.1 this).1
  have hsorted2 : rest.Pairwise fun a b => costOf st a ≤ costOf st b := by
    have := inv.sorted
    rw [hf] at this
    exact (List.pairwise_cons.1 this).2
  have hle_cur : ∀ u, u ∈ st.interior → u ∉ rest → costOf st u ≤ costOf st cur := by
    intro u hu hur
    by_cases huc : u = cur
    · rw [huc]
    · exact inv.below u hu (by
        rw [hf]
        intro hc
        rcases List.mem_cons.1 hc with hc | hc
        · exact huc hc
        · exact hur hc) cur hcurf
  have hnewpos : ∀ v, v ∈ new → 1 ≤ new.length := by
    intro v hv
    cases new with
    | nil => exact absurd hv (List.not_mem_nil _)
    | cons a l => simp
  constructor
  · constructor
    · exact inv.same.trans (relax_frame Tile.type setd ctx.htype cur ns
        ⟨st.maze, rest, st.interior, st.cost⟩ st1 hr)
    · intro p hp
      rcases (h4 p).1 hp with hp | hp
      · exact inv.inner p hp
      · exact ctx.hE cur p ((hns p).1 (h2 p hp).1)
    · intro p hp
      rw [h1] at hp
      rcases List.mem_append.1 hp with hp | hp
      · exact (h4 p).2 (Or.inl (inv.front p (hrestf p hp)))
      · exact (h4 p).2 (Or.inr hp)
    · intro p hp
      obtain ⟨h11, h12⟩ := inv.seeds p hp
      exact ⟨(h4 p).2 (Or.inl h11), by rw [hold p h11]; exact h12⟩
    · intro p hp
      by_cases hn : p ∈ new
      · obtain ⟨t, ht⟩ := h9 p hn
        rw [h7 p hn, h5 p hn, ht]
        simp [ctx.hget]
      · have hpi : p ∈ st.interior := by
          rcases (h4 p).1 hp with h | h
          · exact h
          · exact absurd h hn
        rw [h8 p hn, hold p hpi]
        exact inv.field_in p hpi
    · intro p hp
      have hpi : p ∉ st.interior := fun hc => hp ((h4 p).2 (Or.inl hc))
      have hn : p ∉ new := fun hc => hp ((h4 p).2 (Or.inr hc))
      rw [h8 p hn]
      exact inv.field_out p hpi
    · intro p hp
      by_cases hn : p ∈ new
      · obtain ⟨seed, hs, hw⟩ := inv.walk cur hcur
        exact ⟨seed, hs, by rw [h5 p hn]; exact WalkN.succ hw ((hns p).1 (h2 p hn).1)⟩
      · have hpi : p ∈ st.interior := by
          rcases (h4 p).1 hp with h | h
          · exact h
          · exact absurd h hn
        rw [hold p hpi]
        exact inv.walk p hpi
    · rw [h1, List.pairwise_append]
      refine ⟨?_, ?_, ?_⟩
      · exact hsorted2.imp_of_mem (fun ha hb hab => by
          rw [hold _ (inv.front _ (hrestf _ ha)), hold _ (inv.front _ (hrestf _ hb))]
          exact hab)
      · exact (List.pairwise_of_forall (l := new) (R := fun _ _ => True)
          (fun _ _ => trivial)).imp_of_mem (fun ha hb _ => by rw [h5 _ ha, h5 _ hb])
      · intro a ha b hb
        rw [hold a (inv.front a (hrestf a ha)), h5 b hb]
        exact inv.spread cur hcurf a (hrestf a ha)
    · intro a ha b hb
      rw [h1] at ha hb
      rcases List.mem_append.1 ha with ha | ha <;> rcases List.mem_append.1 hb with hb | hb
      · rw [hold a (inv.front a (hrestf a ha)), hold b (inv.front b (hrestf b hb))]
        exact inv.spread a (hrestf a ha) b (hrestf b hb)
      · rw [hold a (inv.front a (hrestf a ha)), h5 b hb]
        have := hsorted a ha
        omega
      · rw [h5 a ha, hold b (inv.front b (hrestf b hb))]
        have := inv.spread cur hcurf b (hrestf b hb)
        omega
      · rw [h5 a ha, h5 b hb]
        omega
    · intro u hu huf v hE
      rw [h1] at huf
      have hur : u ∉ rest := fun hc => huf (List.mem_append_left _ hc)
      have hun : u ∉ new := fun hc => huf (List.mem_append_right _ hc)
      have hui : u ∈ st.interior := by
        rcases (h4 u).1 hu with h | h
        · exact h
        · exact absurd h hun
      rw [hold u hui]
      by_cases huc : u = cur
      · subst huc
        rcases h3 v ((hns v).2 hE) with hv | hv
        · refine ⟨(h4 v).2 (Or.inl hv), ?_⟩
          rw [hold v hv]
          by_cases hvr : v ∈ rest
          · exact inv.spread u hcurf v (hrestf v hvr)
          · have := hle_cur v hv hvr
            omega
        · exact ⟨(h4 v).2 (Or.inr hv), by rw [h5 v hv]⟩
      · have huf0 : u ∉ st.frontier := by
          rw [hf]
          intro hc
          rcases List.mem_cons.1 hc with hc | hc
          · exact huc hc
          · exact hur hc
        obtain ⟨h11, h12⟩ := inv.closed u hui huf0 v hE
        exact ⟨(h4 v).2 (Or.inl h11), by rw [hold v h11]; exact h12⟩
    · intro u hu huf q hq
      rw [h1] at huf hq
      have hur : u ∉ rest := fun hc => huf (List.mem_append_left _ hc)
      have hun : u ∉ new := fun hc => huf (List.mem_append_right _ hc)
      have hui : u ∈ st.interior := by
        rcases (h4 u).1 hu with h | h
        · exact h
        · exact absurd h hun
      rw [hold u hui]
      have h11 := hle_cur u hui hur
      rcases List.mem_append.1 hq with hq | hq
      · rw [hold q (inv.front q (hrestf q hq))]
        have := hsorted q hq
        omega
      · rw [h5 q hq]
        omega
    · intro p hp
      by_cases hn : p ∈ new
      · rw [h5 p hn]
        have := hnewpos p hn
        omega
      · have hpi : p ∈ st.interior := by
          rcases (h4 p).1 hp with h | h
          · exact h
          · exact absurd h hn
        rw [hold p hpi]
        have := inv.depth p hpi
        omega
  · rw [h1, hf]
    simp only [List.length_append, List.length_cons]
    omega

theorem pass_loop_spec {probe : Maze → position → Option (List position)}
    {setd : Nat → Tile → Tile} {getd : Tile → Nat} {m0 ms : Maze} {S : List position}
    {E : position → position → Prop} (ctx : PassCtx probe setd getd m0 S E) :
    ∀ (fuel : Nat) (st : Pass), PassInv getd m0 ms S E st →
      unseenIn (positions m0) st.interior + st.frontier.length < fuel →
      ∃ st1, pass_loop probe setd fuel st = Outcome.done st1.maze ∧
        PassInv getd m0 ms S E st1 ∧ st1.frontier = [] := by
  intro fuel
  induction fuel with
  | zero => intro st _ h; omega
  | succ fuel ih =>
    intro st inv hfuel
    unfold pass_loop
    cases hf : st.frontier with
    | nil => exact ⟨st, rfl, inv, hf⟩
    | cons cur rest =>
      have hcur : cur ∈ st.interior := inv.front cur (hf ▸ List.mem_cons_self _ _)
      obtain ⟨ns, hp, hns⟩ := ctx.hprobe st.maze inv.same cur (inv.inner cur hcur)
      simp only [hp]
      obtain ⟨st1, hr⟩ := relax_isSome setd cur ns ⟨st.maze, rest, st.interior, st.cost⟩
        (fun v hv => frame_type_call inv.same (ctx.hE cur v ((hns v).1 hv)))
      have hr1 : relax setd cur ns { st with frontier := rest } = some st1 := hr
      simp only [hr1]
      obtain ⟨inv1, hm⟩ := inv.step_pass ctx hf hns hr
      exact ih st1 inv1 (by omega)

theorem PassInv.final {getd : Tile → Nat} {m0 ms : Maze} {S : List position}
    {E : position → position → Prop} {st : Pass} (inv : PassInv getd m0 ms S E st)
    (hf : st.frontier = []) (p : position) (t : Tile) (ht : st.maze.call p = some t) :
    (SeedReaches E S p → IsSeedDistance E S p (getd t)) ∧
      (¬ SeedReaches E S p → (ms.call p).map getd = some (getd t)) := by
  constructor
  · rintro ⟨seed, hs, path, hpath⟩
    obtain ⟨h1, _⟩ := inv.covers_pass hf hs (walkN_of_chained hpath)
    have h3 := inv.field_in p h1
    rw [ht] at h3
    simp only [Option.map_some', Option.some.injEq] at h3
    rw [h3]
    constructor
    · obtain ⟨seed1, hs1, hw⟩ := inv.walk p h1
      obtain ⟨path1, h4, h5⟩ := chained_of_walkN hw
      exact ⟨seed1, hs1, path1, h4, h5⟩
    · intro seed2 hs2 path2 hpath2
      exact (inv.covers_pass hf hs2 (walkN_of_chained hpath2)).2
  · intro hno
    have hpi : p ∉ st.interior := by
      intro hc
      obtain ⟨seed1, hs1, hw⟩ := inv.walk p hc
      obtain ⟨path1, h4, _⟩ := chained_of_walkN hw
      exact hno ⟨seed1, hs1, path1, h4⟩
    have := inv.field_out p hpi
    rw [ht] at this
    exact this.symm

theorem seed_isSome (setd : Nat → Tile → Tile) :
    ∀ (S : List position) (st : Pass), (∀ v ∈ S, ∃ t, st.maze.call v = some t) →
      ∃ st1, seed setd S st = some st1 := by
  intro S
  induction S with
  | nil => intro st _; exact ⟨st, rfl⟩
  | cons a S ih =>
    intro st hv
    unfold seed
    obtain ⟨ta, hta⟩ := hv a (List.mem_cons_self _ _)
    obtain ⟨m1, hm1⟩ := assign_isSome (setd 0) hta
    simp only [hm1]
    apply ih
    intro v hv1
    obtain ⟨t, ht⟩ := hv v (List.mem_cons_of_mem _ hv1)
    by_cases hva : v = a
    · subst hva
      exact ⟨_, by show m1.call v = _; rw [call_assign_self hm1, hta]; rfl⟩
    · exact ⟨t, by show m1.call v = _; rw [call_assign_ne hm1 hva]; exact ht⟩

/-- A pass started on a board `ms` with the tile types of `m0` returns, given enough fuel,
and leaves on every tile reached from a seed the least chain length and on every other
tile what `ms` held. -/
theorem pass_spec {probe : Maze → position → Option (List position)}
    {setd : Nat → Tile → Tile} {getd : Tile → Nat} {m0 : Maze} {S : List position}
    {E : position → position → Prop} (ctx : PassCtx probe setd getd m0 S E) (ms : Maze)
    (hms : Frame Tile.type m0 ms) (fuel : Nat) (hfuel : area m0 + S.length + 1 ≤ fuel) :
    ∃ m1, pass probe setd S ms fuel = Outcome.done m1 ∧
      ∀ p t, m1.call p = some t →
        (SeedReaches E S p → IsSeedDistance E S p (getd t)) ∧
          (¬ SeedReaches E S p → (ms.call p).map getd = some (getd t)) := by
  obtain ⟨st, hs⟩ := seed_isSome setd S ⟨ms, [], [], fun _ => none⟩
    (fun v hv => frame_type_call hms (ctx.hS v hv))
  obtain ⟨h1, h2, h3, h4, h5, h6⟩ := seed_spec setd getd ctx.hget S _ st hs
  have h1 : st.frontier = S := by simpa using h1
  have h2 : ∀ v, v ∈ st.interior ↔ v ∈ S := by simpa using h2
  have h6 : ∀ v, v ∉ S → st.maze.call v = ms.call v := h6
  have hcost : ∀ v, costOf st v = 0 := by
    intro v
    by_cases hv : v ∈ S
    · exact h3 v hv
    · rw [h4 v hv]; rfl
  have inv : PassInv getd m0 ms S E st := by
    constructor
    · exact hms.trans (seed_frame Tile.type setd ctx.htype S _ st hs)
    · exact fun p hp => ctx.hS p ((h2 p).1 hp)
    · exact fun p hp => (h2 p).2 (h1 ▸ hp)
    · exact fun p hp => ⟨(h2 p).2 hp, hcost p⟩
    · intro p hp
      obtain ⟨t, ht, hg⟩ := h5 p ((h2 p).1 hp)
      rw [ht, hcost p, Option.map_some', hg]
    · intro p hp
      rw [h6 p (fun hc => hp ((h2 p).2 hc))]
    · intro p hp
      exact ⟨p, (h2 p).1 hp, by rw [hcost p]; exact WalkN.zero⟩
    · exact (List.pairwise_of_forall (l := st.frontier) (R := fun _ _ => True)
        (fun _ _ => trivial)).imp_of_mem (fun _ _ _ => by rw [hcost, hcost])
    · intro a _ b _
      rw [hcost, hcost]
      omega
    · intro u hu huf
      exact absurd (h1 ▸ (h2 u).1 hu) huf
    · intro u hu huf
      exact absurd (h1 ▸ (h2 u).1 hu) huf
    · intro p hp
      have := unseenIn_lt_of_mem (positions m0) st.interior p
        ((mem_positions m0 p).2 (nonObstacle_valid (ctx.hS p ((h2 p).1 hp)))) hp
      rw [length_positions] at this
      rw [hcost p]
      omega
  have hfuel1 : unseenIn (positions m0) st.interior + st.frontier.length < fuel := by
    have := unseenIn_le (positions m0) st.interior
    rw [length_positions] at this
    rw [h1]
    omega
  obtain ⟨st1, h7, inv1, h8⟩ := pass_loop_spec ctx fuel st inv hfuel1
  refine ⟨st1.maze, ?_, fun p t ht => inv1.final h8 p t ht⟩
  unfold pass
  have hs1 : seed setd S { maze := ms, frontier := [], interior := [], cost := fun _ => none } =
      some st := hs
  simp only [hs1]
  exact h7

theorem nonObstacle_iff (m : Maze) (p : position) :
    NonObstacle m p ↔ m.notObstacle p = some true := by
  unfold NonObstacle notObstacle
  cases m.call p with
  | none => simp
  | some t => simp

theorem notObstacle_frame {m0 m1 : Maze} (h : Frame Tile.type m0 m1) (p : position) :
    m1.notObstacle p = m0.notObstacle p := by
  have h1 := h.1 p
  unfold notObstacle
  cases h0 : m0.call p <;> cases h2 : m1.call p <;> simp_all

theorem Fresh.call {m : Maze} (h : Fresh m) {p : position} {t : Tile}
    (ht : m.call p = some t) :
    t.source_displacement = SIZE_MAX ∧ t.target_displacement = SIZE_MAX := by
  obtain ⟨row, h1, h2⟩ := (call_eq_some_iff m p t).1 ht
  exact h row (List.getElem?_mem h1) t (List.getElem?_mem h2)

theorem Enclosed.around {m : Maze} (h : Enclosed m) {p : position} (hp : NonObstacle m p) :
    (∃ t, m.call (up p) = some t) ∧ (∃ t, m.call (right p) = some t) ∧
      (∃ t, m.call (down p) = some t) ∧ (∃ t, m.call (left p) = some t) := by
  obtain ⟨h1, h2, h3, h4⟩ := h p ((mem_positions m p).2 (nonObstacle_valid hp)) hp
  exact ⟨(valid_iff_call m _).1 h1, (valid_iff_call m _).1 h2, (valid_iff_call m _).1 h3,
    (valid_iff_call m _).1 h4⟩

theorem notObstacle_of_call {m : Maze} {p : position} (h : ∃ t, m.call p = some t) :
    ∃ b, m.notObstacle p = some b := by
  obtain ⟨t, ht⟩ := h
  exact ⟨decide (t.type ≠ TileType.Obstacle), by simp [notObstacle, ht]⟩

theorem source_axis_spec (m : Maze) (a b : position) (ns : List position)
    (ha : ∃ t, m.call a = some t) (hb : ∃ t, m.call b = some t) :
    ∃ ns1, m.source_axis a b ns = some ns1 ∧
      ∀ v, v ∈ ns1 ↔ v ∈ ns ∨ (NonObstacle m a ∧ NonObstacle m b ∧ (v = a ∨ v = b)) := by
  obtain ⟨ba, hba⟩ := notObstacle_of_call ha
  obtain ⟨bb, hbb⟩ := notObstacle_of_call hb
  unfold source_axis
  simp only [nonObstacle_iff, hba, hbb]
  cases ba <;> cases bb <;> simp

theorem target_dir_spec (m : Maze) (a b : position) (ns : List position)
    (ha : ∃ t, m.call a = some t) (hb : NonObstacle m a → ∃ t, m.call b = some t) :
    ∃ ns1, m.target_dir a b ns = some ns1 ∧
      ∀ v, v ∈ ns1 ↔ v ∈ ns ∨ (v = a ∧ NonObstacle m a ∧ NonObstacle m b) := by
  obtain ⟨ba, hba⟩ := notObstacle_of_call ha
  unfold target_dir
  cases ba with
  | false => simp [nonObstacle_iff, hba]
  | true =>
    obtain ⟨bb, hbb⟩ := notObstacle_of_call (hb ((nonObstacle_iff m a).2 hba))
    simp only [nonObstacle_iff, hba, hbb]
    cases bb <;> simp

theorem source_neighbors_frame {m0 m1 : Maze} (h : Frame Tile.type m0 m1) (u : position) :
    m1.source_neighbors u = m0.source_neighbors u := by
  unfold source_neighbors source_axis
  simp only [notObstacle_frame h]

theorem target_neighbors_frame {m0 m1 : Maze} (h : Frame Tile.type m0 m1) (u : position) :
    m1.target_neighbors u = m0.target_neighbors u := by
  unfold target_neighbors target_dir
  simp only [notObstacle_frame h]

theorem source_neighbors_spec (m : Maze) (henc : Enclosed m) (u : position)
    (hu : NonObstacle m u) :
    ∃ ns, m.source_neighbors u = some ns ∧ ∀ v, v ∈ ns ↔ SourceEdge m u v := by
  obtain ⟨h1, h2, h3, h4⟩ := henc.around hu
  obtain ⟨n1, h5, h6⟩ := source_axis_spec m (up u) (down u) [] h1 h3
  obtain ⟨n2, h7, h8⟩ := source_axis_spec m (left u) (right u) n1 h4 h2
  refine ⟨n2, by simp [source_neighbors, h5, h7], ?_⟩
  intro v
  rw [h8 v, h6 v]
  unfold SourceEdge
  simp

theorem target_neighbors_spec (m : Maze) (henc : Enclosed m) (u : position)
    (hu : NonObstacle m u) :
    ∃ ns, m.target_neighbors u = some ns ∧ ∀ v, v ∈ ns ↔ TargetEdge m u v := by
  obtain ⟨h1, h2, h3, h4⟩ := henc.around hu
  obtain ⟨n1, h5, h6⟩ := target_dir_spec m (up u) (up (up u)) [] h1
    (fun h => (henc.around h).1)
  obtain ⟨n2, h7, h8⟩ := target_dir_spec m (right u) (right (right u)) n1 h2
    (fun h => (henc.around h).2.1)
  obtain ⟨n3, h9, h10⟩ := target_dir_spec m (down u) (down (down u)) n2 h3
    (fun h => (henc.around h).2.2.1)
  obtain ⟨n4, h11, h12⟩ := target_dir_spec m (left u) (left (left u)) n3 h4
    (fun h => (henc.around h).2.2.2)
  refine ⟨n4, by simp [target_neighbors, h5, h7, h9, h11], ?_⟩
  intro v
  rw [h12 v, h10 v, h8 v, h6 v]
  unfold TargetEdge
  simp only [List.not_mem_nil, false_or, or_assoc]

theorem source_ctx (m : Maze) (henc : Enclosed m)
    (hS : ∀ p ∈ m.crates_starting_pos, NonObstacle m p) (harea : area m ≤ SIZE_MAX) :
    PassCtx source_neighbors set_source Tile.source_displacement m m.crates_starting_pos
      (SourceEdge m) where
  hget := fun _ _ => rfl
  htype := fun _ _ => rfl
  hprobe := by
    intro m1 h1 u hu
    rw [source_neighbors_frame h1]
    exact source_neighbors_spec m henc u hu
  hE := by
    intro u v h
    rcases h with ⟨h1, h2, h3 | h3⟩ | ⟨h1, h2, h3 | h3⟩
    · exact h3 ▸ h1
    · exact h3 ▸ h2
    · exact h3 ▸ h1
    · exact h3 ▸ h2
  hS := hS
  harea := harea

theorem target_ctx (m : Maze) (henc : Enclosed m)
    (hT : ∀ p ∈ m.crates_ending_pos, NonObstacle m p) (harea : area m ≤ SIZE_MAX) :
    PassCtx target_neighbors set_target Tile.target_displacement m m.crates_ending_pos
      (TargetEdge m) where
  hget := fun _ _ => rfl
  htype := fun _ _ => rfl
  hprobe := by
    intro m1 h1 u hu
    rw [target_neighbors_frame h1]
    exact target_neighbors_spec m henc u hu
  hE := by
    intro u v h
    rcases h with ⟨h1, h2, _⟩ | ⟨h1, h2, _⟩ | ⟨h1, h2, _⟩ | ⟨h1, h2, _⟩
    · exact h1 ▸ h2
    · exact h1 ▸ h2
    · exact h1 ▸ h2
    · exact h1 ▸ h2
  hS := hT
  harea := harea

theorem calculate_displacement_mapping_returns (m : Maze) (fuel : Nat) (henc : Enclosed m)
    (hS : ∀ p ∈ m.crates_starting_pos, NonObstacle m p)
    (hT : ∀ p ∈ m.crates_ending_pos, NonObstacle m p) (harea : area m ≤ SIZE_MAX)
    (hfS : area m + m.crates_starting_pos.length + 1 ≤ fuel)
    (hfT : area m + m.crates_ending_pos.length + 1 ≤ fuel) :
    ∃ m2, m.calculate_displacement_mapping fuel = Outcome.done m2 := by
  obtain ⟨m1, h1, _⟩ := pass_spec (source_ctx m henc hS harea) m (Frame.refl _ _) fuel hfS
  have h1 : m.source_pass fuel = Outcome.done m1 := h1
  have hf1 : Frame Tile.type m m1 :=
    pass_frame Tile.type _ set_source (fun _ _ => rfl) _ m m1 fuel h1
  obtain ⟨m2, h2, _⟩ := pass_spec (target_ctx m henc hT harea) m1 hf1 fuel hfT
  refine ⟨m2, ?_⟩
  unfold calculate_displacement_mapping
  simp only [h1]
  unfold target_pass
  rw [hf1.2.2.1]
  exact h2

/-- C8: on a freshly built board whose non-Obstacle tiles have their four neighbours on
the grid, whose crate starts are non-Obstacle tiles and whose tile count is a `size_t`
value, the source pass returns (given enough fuel), the whole call returns when the
crate targets are non-Obstacle tiles too, and after
`calculate_displacement_mapping` every tile reached from a crate start by a chain of
axis-pair edges holds in `source_displacement` the length of a shortest such chain, while
every other tile still holds the unreached sentinel. -/
theorem source_displacement_shortest (m : Maze) (fuel : Nat) (hfresh : Fresh m)
    (henc : Enclosed m) (hS : ∀ p ∈ m.crates_starting_pos, NonObstacle m p)
    (harea : area m ≤ SIZE_MAX) (hfuel : area m + m.crates_starting_pos.length + 1 ≤ fuel) :
    (∃ m1, m.source_pass fuel = Outcome.done m1) ∧
      ((∀ p ∈ m.crates_ending_pos, NonObstacle m p) →
        area m + m.crates_ending_pos.length + 1 ≤ fuel →
        ∃ m2, m.calculate_displacement_mapping fuel = Outcome.done m2) ∧
      ∀ m2, m.calculate_displacement_mapping fuel = Outcome.done m2 →
        ∀ p t, m2.call p = some t →
          (SeedReaches (SourceEdge m) m.crates_starting_pos p →
            IsSeedDistance (SourceEdge m) m.crates_starting_pos p t.source_displacement) ∧
          (¬ SeedReaches (SourceEdge m) m.crates_starting_pos p →
            t.source_displacement = SIZE_MAX) := by
  obtain ⟨m1, h1, h2⟩ :=
    pass_spec (source_ctx m henc hS harea) m (Frame.refl _ _) fuel hfuel
  refine ⟨⟨m1, h1⟩, fun hT hfT =>
    calculate_displacement_mapping_returns m fuel henc hS hT harea hfuel hfT, ?_⟩
  intro m2 hm2 p t ht
  obtain ⟨m1b, h3, h4⟩ := calculate_displacement_mapping_done hm2
  have h5 : m1b = m1 := by
    have : Outcome.done m1b = Outcome.done m1 := h3.symm.trans h1
    exact Outcome.done.inj this
  subst h5
  have hf : Frame Tile.source_displacement m1b m2 :=
    pass_frame Tile.source_displacement _ set_target (fun _ _ => rfl) _ m1b m2 fuel h4
  have h6 := hf.1 p
  rw [ht] at h6
  cases hc : m1b.call p with
  | none => simp [hc] at h6
  | some t1 =>
    simp only [hc, Option.map_some', Option.some.injEq] at h6
    obtain ⟨h7, h8⟩ := h2 p t1 hc
    rw [h6]
    refine ⟨h7, fun hno => ?_⟩
    have h9 := h8 hno
    cases hc0 : m.call p with
    | none => simp [hc0] at h9
    | some t0 =>
      simp only [hc0, Option.map_some', Option.some.injEq] at h9
      rw [← h9]
      exact (hfresh.call hc0).1

theorem source_displacement_shortest_witness :
    (∃ m1, demo_room.source_pass 27 = Outcome.done m1) ∧
      ((∀ p ∈ demo_room.crates_ending_pos, NonObstacle demo_room p) →
        area demo_room + demo_room.crates_ending_pos.length + 1 ≤ 27 →
        ∃ m2, demo_room.calculate_displacement_mapping 27 = Outcome.done m2) ∧
      ∀ m2, demo_room.calculate_displacement_mapping 27 = Outcome.done m2 →
        ∀ p t, m2.call p = some t →
          (SeedReaches (SourceEdge demo_room) demo_room.crates_starting_pos p →
            IsSeedDistance (SourceEdge demo_room) demo_room.crates_starting_pos p
              t.source_displacement) ∧
          (¬ SeedReaches (SourceEdge demo_room) demo_room.crates_starting_pos p →
            t.source_displacement = SIZE_MAX) :=
  source_displacement_shortest demo_room 27 (by decide) (by decide) (by decide)
    (by decide) (by decide)

/-- C9: on a freshly built board whose non-Obstacle tiles have their four neighbours on
the grid, whose crate targets are non-Obstacle tiles and whose tile count is a `size_t`
value, the target pass returns (given enough fuel) whenever the source pass did, the
whole call returns when the crate starts are non-Obstacle tiles too, and after
`calculate_displacement_mapping` every tile reached from a crate target by a chain of
two-ahead edges holds in `target_displacement` the length of a shortest such chain, while
every other tile still holds the unreached sentinel. -/
theorem target_displacement_shortest (m : Maze) (fuel : Nat) (hfresh : Fresh m)
    (henc : Enclosed m) (hT : ∀ p ∈ m.crates_ending_pos, NonObstacle m p)
    (harea : area m ≤ SIZE_MAX) (hfuel : area m + m.crates_ending_pos.length + 1 ≤ fuel) :
    (∀ m1, m.source_pass fuel = Outcome.done m1 →
        ∃ m2, m1.target_pass fuel = Outcome.done m2) ∧
      ((∀ p ∈ m.crates_starting_pos, NonObstacle m p) →
        area m + m.crates_starting_pos.length + 1 ≤ fuel →
        ∃ m2, m.calculate_displacement_mapping fuel = Outcome.done m2) ∧
      ∀ m2, m.calculate_displacement_mapping fuel = Outcome.done m2 →
        ∀ p t, m2.call p = some t →
          (SeedReaches (TargetEdge m) m.crates_ending_pos p →
            IsSeedDistance (TargetEdge m) m.crates_ending_pos p t.target_displacement) ∧
          (¬ SeedReaches (TargetEdge m) m.crates_ending_pos p →
            t.target_displacement = SIZE_MAX) := by
  have key : ∀ m1, m.source_pass fuel = Outcome.done m1 →
      ∃ m2, m1.target_pass fuel = Outcome.done m2 ∧
        ∀ p t, m2.call p = some t →
          (SeedReaches (TargetEdge m) m.crates_ending_pos p →
            IsSeedDistance (TargetEdge m) m.crates_ending_pos p t.target_displacement) ∧
          (¬ SeedReaches (TargetEdge m) m.crates_ending_pos p →
            t.target_displacement = SIZE_MAX) := by
    intro m1 h1
    have hf1 : Frame Tile.type m m1 :=
      pass_frame Tile.type _ set_source (fun _ _ => rfl) _ m m1 fuel h1
    have hf2 : Frame Tile.target_displacement m m1 :=
      pass_frame Tile.target_displacement _ set_source (fun _ _ => rfl) _ m m1 fuel h1
    obtain ⟨m2, h2, h3⟩ := pass_spec (target_ctx m henc hT harea) m1 hf1 fuel hfuel
    refine ⟨m2, ?_, ?_⟩
    · unfold target_pass
      rw [hf1.2.2.1]
      exact h2
    · intro p t ht
      obtain ⟨h4, h5⟩ := h3 p t ht
      refine ⟨h4, fun hno => ?_⟩
      have h6 := h5 hno
      rw [hf2.1 p] at h6
      cases hc0 : m.call p with
      | none => simp [hc0] at h6
      | some t0 =>
        simp only [hc0, Option.map_some', Option.some.injEq] at h6
        rw [← h6]
        exact (hfresh.call hc0).2
  refine ⟨fun m1 h1 => (key m1 h1).imp fun _ h => h.1, fun hS hfS =>
    calculate_displacement_mapping_returns m fuel henc hS hT harea hfS hfuel, ?_⟩
  intro m2 hm2
  obtain ⟨m1, h3, h4⟩ := calculate_displacement_mapping_done hm2
  obtain ⟨m2b, h5, h6⟩ := key m1 h3
  have h7 : m2b = m2 := by
    have : Outcome.done m2b = Outcome.done m2 := h5.symm.trans h4
    exact Outcome.done.inj this
  subst h7
  exact h6

theorem target_displacement_shortest_witness :
    (∀ m1, demo_room.source_pass 27 = Outcome.done m1 →
        ∃ m2, m1.target_pass 27 = Outcome.done m2) ∧
      ((∀ p ∈ demo_room.crates_starting_pos, NonObstacle demo_room p) →
        area demo_room + demo_room.crates_starting_pos.length + 1 ≤ 27 →
        ∃ m2, demo_room.calculate_displacement_mapping 27 = Outcome.done m2) ∧
      ∀ m2, demo_room.calculate_displacement_mapping 27 = Outcome.done m2 →
        ∀ p t, m2.call p = some t →
          (SeedReaches (TargetEdge demo_room) demo_room.crates_ending_pos p →
            IsSeedDistance (TargetEdge demo_room) demo_room.crates_ending_pos p
              t.target_displacement) ∧
          (¬ SeedReaches (TargetEdge demo_room) demo_room.crates_ending_pos p →
            t.target_displacement = SIZE_MAX) :=
  target_displacement_shortest demo_room 27 (by decide) (by decide) (by decide)
    (by decide) (by decide)

theorem get_neighbors_append (m : Maze) (ns : List position) (u : position)
    (obs : List position) :
    m.get_neighbors ns u obs = some (ns ++ neighbors_of m obs u) := by
  unfold get_neighbors neighbors_of
  simp only [get_neighbors_probe_eq, Option.some_bind, List.filter_cons, List.filter_nil]
  by_cases h1 : Free m obs (up u) <;> by_cases h2 : Free m obs (right u) <;>
    by_cases h3 : Free m obs (down u) <;> by_cases h4 : Free m obs (left u) <;>
    simp [h1, h2, h3, h4]

theorem directions_nodup (u : position) : [up u, right u, down u, left u].Nodup := by
  obtain ⟨c, r⟩ := u
  unfold up right down left SIZE_MAX SIZE_MOD
  simp only [List.nodup_cons, List.mem_cons, List.mem_singleton, Prod.mk.injEq,
    List.not_mem_nil, not_false_eq_true, List.nodup_nil, and_true, not_or]
  omega

theorem up_invalid_of_top (m : Maze) (hm : representable m) (u : position) (h : u.2 = 0) :
    m.valid (up u) = false := by
  cases hv : m.valid (up u) with
  | false => rfl
  | true =>
    have h1 := (valid_lt m hm (up u) hv).2
    unfold up SIZE_MAX SIZE_MOD at h1
    simp only at h1
    omega

theorem left_invalid_of_edge (m : Maze) (hm : representable m) (u : position) (h : u.1 = 0) :
    m.valid (left u) = false := by
  cases hv : m.valid (left u) with
  | false => rfl
  | true =>
    have h1 := (valid_lt m hm (left u) hv).1
    unfold left SIZE_MAX SIZE_MOD at h1
    simp only at h1
    omega

/-- C11: `valid(p)` is true exactly when the row index is below `height()` and the column
index is below `width(row)`; when it is true the accessor's assertion holds and the
accessor returns the tile stored at that row and column; and the only row `valid` indexes
(through `width`, behind the row test) exists. -/
theorem valid_spec (m : Maze) (p : position) :
    (m.valid p = true ↔ p.2 < m.height ∧ ∃ w, m.width p.2 = some w ∧ p.1 < w) ∧
      (m.valid p = true →
        ∃ row t, m.tiles[p.2]? = some row ∧ row[p.1]? = some t ∧ m.call p = some t ∧
          m.call_xy p.1 p.2 = some t) ∧
      (p.2 < m.height → ∃ w, m.width p.2 = some w) := by
  refine ⟨?_, ?_, ?_⟩
  · rw [valid_iff]
    unfold width height
    constructor
    · rintro ⟨row, h1, h2⟩
      exact ⟨(List.getElem?_eq_some.mp h1).1, row.length, by simp [h1], h2⟩
    · rintro ⟨_, w, h1, h2⟩
      cases hr : m.tiles[p.2]? with
      | none => simp [hr] at h1
      | some row =>
        simp only [hr, Option.map_some', Option.some.injEq] at h1
        exact ⟨row, rfl, h1 ▸ h2⟩
  · intro hv
    obtain ⟨t, ht⟩ := (valid_iff_call m p).1 hv
    obtain ⟨row, h1, h2⟩ := (call_eq_some_iff m p t).1 ht
    exact ⟨row, t, h1, h2, ht, ht⟩
  · intro h
    unfold height at h
    unfold width
    exact ⟨_, by rw [List.getElem?_eq_getElem h]; rfl⟩

/-- C12: `get_neighbors` appends to the queue exactly those of up, right, down, left of
`current` that are grid-valid, statically walkable and absent from `obs`, in that order
and each at most once, and it never indexes a tile out of bounds (it returns); on a board
whose sizes are `size_t` values the up neighbour of a row-0 position and the left
neighbour of a column-0 position, whose coordinate has wrapped around, are not valid and
are never produced. -/
theorem get_neighbors_spec (m : Maze) (neighbors : List position) (current : position)
    (obs : List position) :
    m.get_neighbors neighbors current obs =
        some (neighbors ++
          [up current, right current, down current, left current].filter
            fun p => decide (Free m obs p)) ∧
      ([up current, right current, down current, left current].filter
          fun p => decide (Free m obs p)).Nodup ∧
      (representable m → current.2 = 0 →
        m.valid (up current) = false ∧ up current ∉ neighbors_of m obs current) ∧
      (representable m → current.1 = 0 →
        m.valid (left current) = false ∧ left current ∉ neighbors_of m obs current) := by
  refine ⟨get_neighbors_append m neighbors current obs,
    (directions_nodup current).filter _, ?_, ?_⟩
  · intro hm h
    have hv := up_invalid_of_top m hm current h
    refine ⟨hv, fun hc => ?_⟩
    have := ((mem_neighbors_of m obs current _).1 hc).2.1
    rw [hv] at this
    exact absurd this (by simp)
  · intro hm h
    have hv := left_invalid_of_edge m hm current h
    refine ⟨hv, fun hc => ?_⟩
    have := ((mem_neighbors_of m obs current _).1 hc).2.1
    rw [hv] at this
    exact absurd this (by simp)

theorem get_neighbors_spec_witness :
    demo_3x3.valid (up (0, 0)) = false ∧ up (0, 0) ∉ neighbors_of demo_3x3 [] (0, 0) :=
  (get_neighbors_spec demo_3x3 [] (0, 0) []).2.2.1 (by decide) rfl

/-- C16: after `setType(c)` the tile has type `c` and `isWalkable()` is true exactly when
`c` is not Obstacle, whatever the category; a default-constructed tile is Floor, walkable,
with both distances at the unreached sentinel, the largest `size_t` value `2^64 - 1`. -/
theorem setType_spec (t : Tile) (c : TileType) :
    (t.setType c).type = c ∧
      ((t.setType c).isWalkable = true ↔ c ≠ TileType.Obstacle) ∧
      (Tile.init.type = TileType.Floor ∧ Tile.init.isWalkable = true ∧
        Tile.init.source_displacement = SIZE_MAX ∧ Tile.init.target_displacement = SIZE_MAX ∧
        SIZE_MAX = 2 ^ 64 - 1) := by
  refine ⟨rfl, ?_, rfl, rfl, rfl, rfl, by decide⟩
  unfold Tile.setType Tile.isWalkable
  by_cases h : c = TileType.Obstacle <;> simp [h]

/-- C17: `add_row(n)` increases `height()` by one, makes the new last row consist of `n`
default-initialised tiles (so its width is `n`), and leaves every earlier row and all
registered positions unchanged. -/
theorem add_row_spec (m : Maze) (n : Nat) :
    (m.add_row n).height = m.height + 1 ∧
      (m.add_row n).tiles[m.height]? = some (List.replicate n Tile.init) ∧
      (m.add_row n).width m.height = some n ∧
      (∀ x, x < n → (m.add_row n).call (x, m.height) = some Tile.init) ∧
      (∀ row, row < m.height → (m.add_row n).tiles[row]? = m.tiles[row]?) ∧
      (m.add_row n).player_starting_pos = m.player_starting_pos ∧
      (m.add_row n).crates_starting_pos = m.crates_starting_pos ∧
      (m.add_row n).crates_ending_pos = m.crates_ending_pos := by
  have h1 : (m.add_row n).tiles[m.height]? = some (List.replicate n Tile.init) := by
    unfold add_row height
    simp
  refine ⟨by simp [add_row, height], h1, ?_, ?_, ?_, rfl, rfl, rfl⟩
  · unfold width
    rw [h1]
    simp
  · intro x hx
    rw [call_eq_some_iff]
    exact ⟨_, h1, by simp [List.getElem?_replicate, hx]⟩
  · intro row hrow
    unfold height at hrow
    unfold add_row
    simp [List.getElem?_append_left hrow]

theorem reachable_neighbors_pushes (m : Maze) (t : position) :
    ∀ (ns f i f1 i1 : List position), (∀ v ∈ ns, m.valid v = true) →
      reachable_neighbors t ns f i = some (f1, i1) →
      ∃ new, f1 = f ++ new ∧ new.Nodup ∧ (∀ v ∈ new, v ∈ ns ∧ v ∉ i ∧ v ∈ i1) ∧
        (∀ v ∈ i, v ∈ i1) ∧ unseen m i1 + f1.length ≤ unseen m i + f.length := by
  intro ns
  induction ns with
  | nil =>
    intro f i f1 i1 _ h
    simp only [reachable_neighbors, Option.some.injEq, Prod.mk.injEq] at h
    obtain ⟨rfl, rfl⟩ := h
    exact ⟨[], by simp, List.nodup_nil, by simp, fun _ h => h, le_refl _⟩
  | cons n ns ih =>
    intro f i f1 i1 hv h
    have hv1 : ∀ v ∈ ns, m.valid v = true := fun v hv1 => hv v (List.mem_cons_of_mem _ hv1)
    unfold reachable_neighbors at h
    split at h
    · obtain ⟨new, h1, h2, h3, h4, h5⟩ := ih f i f1 i1 hv1 h
      exact ⟨new, h1, h2, fun v hv2 => ⟨List.mem_cons_of_mem _ (h3 v hv2).1, (h3 v hv2).2⟩,
        h4, h5⟩
    · rename_i hn
      split at h
      · exact absurd h (by simp)
      · obtain ⟨new, h1, h2, h3, h4, h5⟩ := ih (f ++ [n]) (n :: i) f1 i1 hv1 h
        have hnn : n ∉ new := fun hc => (h3 n hc).2.1 (List.mem_cons_self _ _)
        refine ⟨n :: new, by simp [h1], List.nodup_cons.2 ⟨hnn, h2⟩, ?_, ?_, ?_⟩
        · intro v hv2
          rcases List.mem_cons.1 hv2 with hc | hc
          · subst hc
            exact ⟨List.mem_cons_self _ _, hn, h4 v (List.mem_cons_self _ _)⟩
          · exact ⟨List.mem_cons_of_mem _ (h3 v hc).1,
              fun hi => (h3 v hc).2.1 (List.mem_cons_of_mem _ hi), (h3 v hc).2.2⟩
        · exact fun v hv2 => h4 v (List.mem_cons_of_mem _ hv2)
        · have h7 := unseen_cons_lt m i n (hv n (List.mem_cons_self _ _)) hn
          simp only [List.length_append, List.length_singleton] at h5
          omega

theorem reachable_loop_terminates (m : Maze) (t : position) (obs : List position) :
    ∀ (n : Nat) (f i : List position), unseen m i + f.length < n →
      ∃ b, ∀ fuel, n ≤ fuel → reachable_loop m t obs fuel f i = Outcome.done b := by
  intro n
  induction n with
  | zero => intro f i h; omega
  | succ n ih =>
    intro f i hn
    cases f with
    | nil =>
      refine ⟨false, fun fuel hfuel => ?_⟩
      cases fuel with
      | zero => omega
      | succ fuel => simp [reachable_loop]
    | cons cur rest =>
      cases hr : reachable_neighbors t (neighbors_of m obs cur) rest (List.insert cur i) with
      | none =>
        refine ⟨true, fun fuel hfuel => ?_⟩
        cases fuel with
        | zero => omega
        | succ fuel => simp [reachable_loop, get_neighbors_eq, hr]
      | some res =>
        obtain ⟨f1, i1⟩ := res
        have hval : ∀ v ∈ neighbors_of m obs cur, m.valid v = true :=
          fun v hv => ((mem_neighbors_of m obs cur v).1 hv).2.1
        obtain ⟨new, _, _, _, _, h5⟩ := reachable_neighbors_pushes m t _ rest _ f1 i1 hval hr
        have hmono : unseen m (List.insert cur i) ≤ unseen m i :=
          unseen_mono m _ _ (fun p hp => List.mem_insert_iff.2 (Or.inr hp))
        simp only [List.length_cons] at hn
        obtain ⟨b, hb⟩ := ih f1 i1 (by omega)
        refine ⟨b, fun fuel hfuel => ?_⟩
        cases fuel with
        | zero => omega
        | succ fuel =>
          simp only [reachable_loop, get_neighbors_eq, hr]
          exact hb fuel (by omega)

theorem reachable_neighbors_keeps (t : position) :
    ∀ (ns f i : List position), t ∈ i →
      ∃ f1 i1, reachable_neighbors t ns f i = some (f1, i1) ∧ t ∈ i1 := by
  intro ns
  induction ns with
  | nil => intro f i h; exact ⟨f, i, rfl, h⟩
  | cons n ns ih =>
    intro f i h
    unfold reachable_neighbors
    by_cases hn : n ∈ i
    · simp only [hn, if_true]
      exact ih f i h
    · have hnt : n ≠ t := fun hc => hn (hc ▸ h)
      simp only [hn, hnt, if_false]
      exact ih _ _ (List.mem_cons_of_mem _ h)

theorem reachable_loop_never_true (m : Maze) (t : position) (obs : List position) :
    ∀ (fuel : Nat) (f i : List position), t ∈ i →
      reachable_loop m t obs fuel f i ≠ Outcome.done true := by
  intro fuel
  induction fuel with
  | zero => intro f i _; simp [reachable_loop]
  | succ fuel ih =>
    intro f i h
    cases f with
    | nil => simp [reachable_loop]
    | cons cur rest =>
      obtain ⟨f1, i1, h1, h2⟩ := reachable_neighbors_keeps t (neighbors_of m obs cur) rest
        (List.insert cur i) (List.mem_insert_iff.2 (Or.inr h))
      simp only [reachable_loop, get_neighbors_eq, h1]
      exact ih f1 i1 h2

theorem reachable_terminates_aux (m : Maze) (s t : position) (obs : List position) :
    ∃ b, ∀ fuel, area m + 2 ≤ fuel → m.reachable s t obs fuel = Outcome.done b := by
  have h := unseen_le_area m []
  exact reachable_loop_terminates m t obs (area m + 2) [s] []
    (by simp only [List.length_singleton]; omega)

/-- C13: `reachable` terminates for every board, source, target and obstacle list: with
fuel for `area + 1` iterations and the final test of the empty frontier it returns, and
more fuel does not change the answer.  The reason is the push discipline of its inner
loop: the positions it pushes are distinct, were not in the interior and are in the
interior afterwards, and the interior never shrinks. -/
theorem reachable_terminates (m : Maze) (source target : position) (obs : List position) :
    (∃ b, ∀ fuel, area m + 2 ≤ fuel → m.reachable source target obs fuel = Outcome.done b) ∧
      ∀ current frontier interior frontier1 interior1,
        reachable_neighbors target (neighbors_of m obs current) frontier interior =
            some (frontier1, interior1) →
          ∃ pushed, frontier1 = frontier ++ pushed ∧ pushed.Nodup ∧
            (∀ v ∈ pushed, v ∉ interior ∧ v ∈ interior1) ∧ ∀ v ∈ interior, v ∈ interior1 := by
  refine ⟨reachable_terminates_aux m source target obs, ?_⟩
  intro cur f i f1 i1 h
  have hval : ∀ v ∈ neighbors_of m obs cur, m.valid v = true :=
    fun v hv => ((mem_neighbors_of m obs cur v).1 hv).2.1
  obtain ⟨new, h1, h2, h3, h4, _⟩ := reachable_neighbors_pushes m target _ f i f1 i1 hval h
  exact ⟨new, h1, h2, fun v hv => (h3 v hv).2, h4⟩

/-- C19: `reachable(s, s, obs)` returns false on every board for every obstacle list: the
source enters the interior before any neighbour is examined and the target test is made
only on positions outside the interior. -/
theorem reachable_self_false (m : Maze) (s : position) (obs : List position) (fuel : Nat)
    (hfuel : area m + 2 ≤ fuel) : m.reachable s s obs fuel = Outcome.done false := by
  obtain ⟨b, hb⟩ := reachable_terminates_aux m s s obs
  have h1 := hb fuel hfuel
  cases b with
  | false => exact h1
  | true =>
    exfalso
    cases fuel with
    | zero => omega
    | succ fuel =>
      obtain ⟨f1, i1, h2, h3⟩ := reachable_neighbors_keeps s (neighbors_of m obs s) []
        (List.insert s []) (List.mem_insert_iff.2 (Or.inl rfl))
      unfold reachable at h1
      simp only [reachable_loop, get_neighbors_eq, h2] at h1
      exact reachable_loop_never_true m s obs fuel f1 i1 h3 h1

theorem reachable_self_false_witness :
    demo_3x3.reachable (1, 1) (1, 1) [] 11 = Outcome.done false :=
  reachable_self_false demo_3x3 (1, 1) [] 11 (by decide)

theorem find_path_search_total (m : Maze) (obs : List position) (s t : position)
    (U : List position) (hU : ∀ p, m.valid p = true → p ∈ U) (hsU : s ∈ U) (hst : t ≠ s) :
    ∀ (fuel : Nat) (Q I : List position) (P : position → Option position)
      (lev : position → Nat), PathInv m obs s t U Q I P lev →
      5 * unseenIn U I + Q.length < fuel →
      ∃ fd P1, find_path_search m t obs fuel Q I P = Outcome.done (fd, P1) ∧
        (fd = true ↔ ∃ k, WalkN (Step m obs) s t k) := by
  intro fuel
  induction fuel with
  | zero => intro Q I P lev _ h; omega
  | succ fuel ih =>
    intro Q I P lev inv hfuel
    cases Q with
    | nil =>
      refine ⟨false, P, by simp [find_path_search], ?_⟩
      simp only [Bool.false_eq_true, false_iff]
      rintro ⟨k, hk⟩
      rcases inv.walk_bound hk with ⟨h, _⟩ | ⟨q, hq, _⟩
      · exact inv.fresh.1 h
      · exact List.not_mem_nil _ hq
    | cons cur rest =>
      simp only [List.length_cons] at hfuel
      by_cases hcur : cur ∈ I
      · simp only [find_path_search, hcur, if_true]
        exact ih rest I P lev (inv.skip hcur) (by omega)
      · have hcU : cur ∈ U := inv.mem_U hU hsU cur (List.mem_cons_self _ _)
        simp only [find_path_search, hcur, if_false, get_neighbors_eq]
        obtain ⟨fd, Q1, P1, heq, _, _, _, h5⟩ :=
          find_path_neighbors_spec t cur (cur :: I) (neighbors_of m obs cur) rest P
        rw [heq]
        cases fd with
        | true =>
          obtain ⟨chain, hch⟩ := inv.found hcur hcU hst heq
          exact ⟨true, P1, rfl, by simp only [true_iff]; exact ⟨_, hch.walk⟩⟩
        | false =>
          obtain ⟨lev1, inv1⟩ := inv.step_path hcur hcU heq
          apply ih Q1 (cur :: I) P1 lev1 inv1
          have h6 := (h5 rfl).1
          have h7 := unseenIn_cons_lt U I cur hcur hcU
          have h8 : Q1.length ≤ rest.length + 4 := by
            rw [h6, List.length_append]
            have := (List.length_filter_le (fun p => decide (p ∉ cur :: I))
              (neighbors_of m obs cur)).trans (length_neighbors_of m obs cur)
            omega
          omega

/-- C18: for a target other than the source, `reachable` and the search loop of
`find_path` agree: given enough fuel both return, and `reachable` answers true exactly
when the search loop ends with `found` set. -/
theorem reachable_agrees_find_path (m : Maze) (source target : position)
    (obs : List position) (fuel : Nat) (hst : target ≠ source)
    (hfuel : 5 * area m + 7 ≤ fuel) :
    ∃ b previous, m.reachable source target obs fuel = Outcome.done b ∧
      find_path_search m target obs fuel [source] [] (fun _ => none) =
        Outcome.done (b, previous) := by
  obtain ⟨b, h1, h2⟩ := reachable_spec m source target obs fuel hst (by omega)
  have hlen : (source :: positions m).length = area m + 1 := by
    simp [length_positions]
  have h0 := unseenIn_le (source :: positions m) []
  obtain ⟨fd, P1, h3, h4⟩ :=
    find_path_search_total m obs source target (source :: positions m)
      (fun p hp => List.mem_cons_of_mem _ ((mem_positions m p).2 hp))
      (List.mem_cons_self _ _) hst fuel [source] [] (fun _ => none) (fun _ => 0)
      (PathInv.init_path m obs source target _ hst.symm)
      (by simp only [List.length_singleton]; omega)
  have h5 : (∃ k, WalkN (Step m obs) source target k) ↔
      ReflTransGen (Step m obs) source target := by
    rw [reflTransGen_iff_walk]
    constructor
    · rintro ⟨k, hk⟩
      obtain ⟨path, hp, _⟩ := chained_of_walkN hk
      exact ⟨path, hp⟩
    · rintro ⟨path, hp⟩
      exact ⟨path.length, walkN_of_chained hp⟩
  have h6 : fd = b := by
    cases fd <;> cases b <;> simp_all
  exact ⟨b, P1, h1, h6 ▸ h3⟩

theorem reachable_agrees_find_path_witness :
    ∃ b previous, demo_row2.reachable (0, 0) (1, 0) [] 17 = Outcome.done b ∧
      find_path_search demo_row2 (1, 0) [] 17 [(0, 0)] [] (fun _ => none) =
        Outcome.done (b, previous) :=
  reachable_agrees_find_path demo_row2 (0, 0) (1, 0) [] 17 (by decide) (by decide)

theorem list_set_same {α : Type} (l : List α) (i : Nat) (a : α) (h : l[i]? = some a) :
    l.set i a = l := by
  apply List.ext_getElem?
  intro j
  rw [List.getElem?_set]
  by_cases hij : i = j
  · subst hij
    have := (List.getElem?_eq_some.mp h).1
    simp [this, h]
  · simp [hij]

theorem assign_same {m : Maze} {p : position} {t : Tile} {f : Tile → Tile}
    (h : m.call p = some t) (hf : f t = t) : m.assign p f = some m := by
  obtain ⟨row, h1, h2⟩ := (call_eq_some_iff m p t).1 h
  unfold assign
  simp only [h, hf, List.getD_eq_getElem?_getD, h1, Option.getD_some]
  rw [list_set_same row p.1 t h2, list_set_same m.tiles p.2 row h1]

theorem assign_shape {m m1 : Maze} {p : position} {f : Tile → Tile}
    (h : m.assign p f = some m1) :
    m1.height = m.height ∧ ∀ r, m1.width r = m.width r := by
  obtain ⟨t, h1, rfl⟩ := assign_eq_some h
  obtain ⟨row, h2, h3⟩ := (call_eq_some_iff m p t).1 h1
  have h4 := (List.getElem?_eq_some.mp h2).1
  refine ⟨by simp [height], fun r => ?_⟩
  unfold width
  by_cases hr : p.2 = r
  · subst hr
    simp [h2, h4]
  · simp [List.getElem?_set_ne hr]

theorem sameShape_trans {m m1 m2 : Maze} (h1 : SameShape m m1) (h2 : SameShape m1 m2) :
    SameShape m m2 :=
  ⟨h2.1.trans h1.1, fun r => (h2.2 r).trans (h1.2 r)⟩

theorem seed_shape (setd : Nat → Tile → Tile) :
    ∀ (S : List position) (st st1 : Pass), seed setd S st = some st1 →
      SameShape st.maze st1.maze := by
  intro S
  induction S with
  | nil =>
    intro st st1 h
    simp only [seed, Option.some.injEq] at h
    subst h
    exact ⟨rfl, fun _ => rfl⟩
  | cons a S ih =>
    intro st st1 h
    unfold seed at h
    cases ha : st.maze.assign a (setd 0) with
    | none => simp [ha] at h
    | some m1 =>
      simp only [ha] at h
      exact sameShape_trans (assign_shape ha) (ih _ st1 h)

theorem relax_shape (setd : Nat → Tile → Tile) (cur : position) :
    ∀ (ns : List position) (st st1 : Pass), relax setd cur ns st = some st1 →
      SameShape st.maze st1.maze := by
  intro ns
  induction ns with
  | nil =>
    intro st st1 h
    simp only [relax, Option.some.injEq] at h
    subst h
    exact ⟨rfl, fun _ => rfl⟩
  | cons n ns ih =>
    intro st st1 h
    unfold relax at h
    by_cases hn : n ∈ st.interior
    · simp only [hn, if_true] at h
      exact ih st st1 h
    · simp only [hn, if_false] at h
      cases ha : st.maze.assign n (setd (((st.cost cur).getD 0 + 1) % SIZE_MOD)) with
      | none => simp [ha] at h
      | some m1 =>
        simp only [ha] at h
        exact sameShape_trans (assign_shape ha) (ih _ st1 h)

theorem pass_loop_shape (probe : Maze → position → Option (List position))
    (setd : Nat → Tile → Tile) :
    ∀ (fuel : Nat) (st : Pass) (m1 : Maze), pass_loop probe setd fuel st = Outcome.done m1 →
      SameShape st.maze m1 := by
  intro fuel
  induction fuel with
  | zero => intro st m1 h; simp [pass_loop] at h
  | succ fuel ih =>
    intro st m1 h
    unfold pass_loop at h
    cases hf : st.frontier with
    | nil =>
      simp only [hf, Outcome.done.injEq] at h
      subst h
      exact ⟨rfl, fun _ => rfl⟩
    | cons cur rest =>
      simp only [hf] at h
      cases hp : probe st.maze cur with
      | none => simp [hp] at h
      | some ns =>
        simp only [hp] at h
        cases hr : relax setd cur ns { st with frontier := rest } with
        | none => simp [hr] at h
        | some st1 =>
          simp only [hr] at h
          exact sameShape_trans
            (relax_shape setd cur ns ⟨st.maze, rest, st.interior, st.cost⟩ st1 hr)
            (ih st1 m1 h)

theorem pass_shape (probe : Maze → position → Option (List position))
    (setd : Nat → Tile → Tile) (S : List position) (m m1 : Maze) (fuel : Nat)
    (h : pass probe setd S m fuel = Outcome.done m1) : SameShape m m1 := by
  unfold pass at h
  cases hs : seed setd S { maze := m, frontier := [], interior := [], cost := fun _ => none } with
  | none => simp [hs] at h
  | some st =>
    simp only [hs] at h
    exact sameShape_trans (seed_shape setd S ⟨m, [], [], fun _ => none⟩ st hs)
      (pass_loop_shape probe setd fuel st m1 h)

/-- C14: when `calculate_displacement_mapping` completes, the row count, every row width,
every tile type and walkable flag, the player start and the lists of crate starts and
crate targets are what they were before the call. -/
theorem displacement_frame (m m2 : Maze) (fuel : Nat)
    (h : m.calculate_displacement_mapping fuel = Outcome.done m2) :
    m2.height = m.height ∧ (∀ row, m2.width row = m.width row) ∧
      (∀ p, (m2.call p).map Tile.type = (m.call p).map Tile.type) ∧
      (∀ p, (m2.call p).map Tile.walkable = (m.call p).map Tile.walkable) ∧
      m2.player_starting_pos = m.player_starting_pos ∧
      m2.crates_starting_pos = m.crates_starting_pos ∧
      m2.crates_ending_pos = m.crates_ending_pos := by
  obtain ⟨m1, h1, h2⟩ := calculate_displacement_mapping_done h
  have hs := sameShape_trans (pass_shape _ set_source _ m m1 fuel h1)
    (pass_shape _ set_target _ m1 m2 fuel h2)
  have ht : Frame Tile.type m m2 :=
    (pass_frame Tile.type _ set_source (fun _ _ => rfl) _ m m1 fuel h1).trans
      (pass_frame Tile.type _ set_target (fun _ _ => rfl) _ m1 m2 fuel h2)
  have hw : Frame Tile.walkable m m2 :=
    (pass_frame Tile.walkable _ set_source (fun _ _ => rfl) _ m m1 fuel h1).trans
      (pass_frame Tile.walkable _ set_target (fun _ _ => rfl) _ m1 m2 fuel h2)
  exact ⟨hs.1, hs.2, ht.1, hw.1, ht.2.2.2, ht.2.1, ht.2.2.1⟩

theorem displacement_frame_witness :
    demo_cell_done.height = demo_cell.height ∧
      (∀ row, demo_cell_done.width row = demo_cell.width row) ∧
      (∀ p, (demo_cell_done.call p).map Tile.type =
        (demo_cell.call p).map Tile.type) ∧
      (∀ p, (demo_cell_done.call p).map Tile.walkable =
        (demo_cell.call p).map Tile.walkable) ∧
      demo_cell_done.player_starting_pos = demo_cell.player_starting_pos ∧
      demo_cell_done.crates_starting_pos = demo_cell.crates_starting_pos ∧
      demo_cell_done.crates_ending_pos = demo_cell.crates_ending_pos :=
  displacement_frame demo_cell demo_cell_done 3 rfl

theorem pass_loop_settled (probe : Maze → position → Option (List position))
    (setd : Nat → Tile → Tile) :
    ∀ (fuel : Nat) (st : Pass) (M : Maze), (∀ q ∈ st.frontier, q ∈ st.interior) →
      pass_loop probe setd fuel st = Outcome.done M →
      ∀ p ∈ st.interior, M.call p = st.maze.call p := by
  intro fuel
  induction fuel with
  | zero => intro st M _ h; simp [pass_loop] at h
  | succ fuel ih =>
    intro st M hfront h
    unfold pass_loop at h
    cases hf : st.frontier with
    | nil =>
      simp only [hf, Outcome.done.injEq] at h
      subst h
      exact fun _ _ => rfl
    | cons cur rest =>
      simp only [hf] at h
      cases hp : probe st.maze cur with
      | none => simp [hp] at h
      | some ns =>
        simp only [hp] at h
        cases hr : relax setd cur ns { st with frontier := rest } with
        | none => simp [hr] at h
        | some st1 =>
          simp only [hr] at h
          have hcur : cur ∈ st.interior := hfront cur (hf ▸ List.mem_cons_self _ _)
          obtain ⟨new, h1, h2, _, h4, _, _, _, h8, _, _⟩ :=
            relax_spec setd cur ns ns ⟨st.maze, rest, st.interior, st.cost⟩ st1 hcur
              (fun v hv _ => hv) hr
          have hfront1 : ∀ q ∈ st1.frontier, q ∈ st1.interior := by
            intro q hq
            rw [h1] at hq
            rcases List.mem_append.1 hq with hq | hq
            · have hq1 : q ∈ rest := hq
              exact (h4 q).2 (Or.inl (hfront q (hf ▸ List.mem_cons_of_mem _ hq1)))
            · exact (h4 q).2 (Or.inr hq)
          intro p hp1
          rw [ih st1 M hfront1 h p ((h4 p).2 (Or.inl hp1))]
          exact h8 p (fun hc => (h2 p hc).2 hp1)

theorem relax_replay (setd : Nat → Tile → Tile) (getd : Tile → Nat)
    (hfix : ∀ v t, getd t = v → setd v t = t) (cur : position) (B : Maze) :
    ∀ (ns : List position) (st st1 : Pass), cur ∈ st.interior →
      relax setd cur ns st = some st1 →
      (∀ n ∈ ns, n ∉ st.interior →
        (B.call n).map getd = some ((costOf st cur + 1) % SIZE_MOD)) →
      relax setd cur ns ⟨B, st.frontier, st.interior, st.cost⟩ =
        some ⟨B, st1.frontier, st1.interior, st1.cost⟩ := by
  intro ns
  induction ns with
  | nil =>
    intro st st1 _ h _
    simp only [relax, Option.some.injEq] at h
    subst h
    rfl
  | cons n ns ih =>
    intro st st1 hcur h hB
    unfold relax at h ⊢
    by_cases hn : n ∈ st.interior
    · simp only [hn, if_true] at h ⊢
      exact ih st st1 hcur h (fun v hv => hB v (List.mem_cons_of_mem _ hv))
    · simp only [hn, if_false] at h ⊢
      cases ha : st.maze.assign n (setd (((st.cost cur).getD 0 + 1) % SIZE_MOD)) with
      | none => simp [ha] at h
      | some m1 =>
        simp only [ha] at h
        have hcn : cur ≠ n := fun hc => hn (hc ▸ hcur)
        have hBn := hB n (List.mem_cons_self _ _) hn
        cases hc : B.call n with
        | none => simp [hc] at hBn
        | some t =>
          simp only [hc, Option.map_some', Option.some.injEq] at hBn
          have hsame : B.assign n (setd (((st.cost cur).getD 0 + 1) % SIZE_MOD)) = some B :=
            assign_same hc (hfix _ t hBn)
          simp only [hsame]
          have hcost : costOf ⟨m1, st.frontier ++ [n], n :: st.interior,
              map_set st.cost n (((st.cost cur).getD 0 + 1) % SIZE_MOD)⟩ cur =
              costOf st cur := by
            simp [costOf, map_set, hcn]
          exact ih _ st1 (List.mem_cons_of_mem _ hcur) h (fun v hv hvi => by
            rw [hcost]
            exact hB v (List.mem_cons_of_mem _ hv)
              (fun hc1 => hvi (List.mem_cons_of_mem _ hc1)))

theorem seed_replay (setd : Nat → Tile → Tile) (getd : Tile → Nat)
    (hfix : ∀ v t, getd t = v → setd v t = t) (B : Maze) :
    ∀ (S : List position) (st st1 : Pass), seed setd S st = some st1 →
      (∀ s ∈ S, (B.call s).map getd = some 0) →
      seed setd S ⟨B, st.frontier, st.interior, st.cost⟩ =
        some ⟨B, st1.frontier, st1.interior, st1.cost⟩ := by
  intro S
  induction S with
  | nil =>
    intro st st1 h _
    simp only [seed, Option.some.injEq] at h
    subst h
    rfl
  | cons a S ih =>
    intro st st1 h hB
    unfold seed at h ⊢
    cases ha : st.maze.assign a (setd 0) with
    | none => simp [ha] at h
    | some m1 =>
      simp only [ha] at h
      have hBa := hB a (List.mem_cons_self _ _)
      cases hc : B.call a with
      | none => simp [hc] at hBa
      | some t =>
        simp only [hc, Option.map_some', Option.some.injEq] at hBa
        have hsame : B.assign a (setd 0) = some B := assign_same hc (hfix _ t hBa)
        simp only [hsame]
        exact ih _ st1 h (fun s hs => hB s (List.mem_cons_of_mem _ hs))

theorem pass_loop_replay (probe : Maze → position → Option (List position))
    (setd : Nat → Tile → Tile) (getd : Tile → Nat) (hget : ∀ v t, getd (setd v t) = v)
    (htype : ∀ v t, Tile.type (setd v t) = Tile.type t)
    (hfix : ∀ v t, getd t = v → setd v t = t)
    (hcongr : ∀ a b, Frame Tile.type a b → ∀ u, probe b u = probe a u) (M B : Maze)
    (hMB : Frame Tile.type M B) (hfield : ∀ q, (B.call q).map getd = (M.call q).map getd) :
    ∀ (fuel : Nat) (st : Pass), (∀ q ∈ st.frontier, q ∈ st.interior) →
      pass_loop probe setd fuel st = Outcome.done M →
      pass_loop probe setd fuel ⟨B, st.frontier, st.interior, st.cost⟩ = Outcome.done B := by
  intro fuel
  induction fuel with
  | zero => intro st _ h; simp [pass_loop] at h
  | succ fuel ih =>
    intro st hfront h
    have hst : Frame Tile.type st.maze M := pass_loop_frame Tile.type probe setd htype _ st M h
    unfold pass_loop at h ⊢
    cases hf : st.frontier with
    | nil => rfl
    | cons cur rest =>
      simp only [hf] at h
      cases hp : probe st.maze cur with
      | none => simp [hp] at h
      | some ns =>
        simp only [hp] at h
        cases hr : relax setd cur ns { st with frontier := rest } with
        | none => simp [hr] at h
        | some st1 =>
          simp only [hr] at h
          have hcur : cur ∈ st.interior := hfront cur (hf ▸ List.mem_cons_self _ _)
          obtain ⟨new, h1, h2, h3, h4, _, _, h7, _, h9, _⟩ :=
            relax_spec setd cur ns ns ⟨st.maze, rest, st.interior, st.cost⟩ st1 hcur
              (fun v hv _ => hv) hr
          have hfront1 : ∀ q ∈ st1.frontier, q ∈ st1.interior := by
            intro q hq
            rw [h1] at hq
            rcases List.mem_append.1 hq with hq | hq
            · have hq1 : q ∈ rest := hq
              exact (h4 q).2 (Or.inl (hfront q (hf ▸ List.mem_cons_of_mem _ hq1)))
            · exact (h4 q).2 (Or.inr hq)
          have hsettled := pass_loop_settled probe setd fuel st1 M hfront1 h
          have hB : ∀ n ∈ ns, n ∉ st.interior →
              (B.call n).map getd = some ((costOf st cur + 1) % SIZE_MOD) := by
            intro n hn hni
            have hnew : n ∈ new := by
              rcases h3 n hn with hc | hc
              · exact absurd hc hni
              · exact hc
            obtain ⟨t, ht⟩ := h9 n hnew
            have ht : st.maze.call n = some t := ht
            have h10 := h7 n hnew
            have h10 : st1.maze.call n =
                (st.maze.call n).map (setd ((costOf st cur + 1) % SIZE_MOD)) := h10
            rw [hfield n, hsettled n ((h4 n).2 (Or.inr hnew)), h10, ht]
            simp [hget]
          have hrep := relax_replay setd getd hfix cur B ns
            ⟨st.maze, rest, st.interior, st.cost⟩ st1 hcur hr hB
          have hprobe : probe B cur = some ns := by
            rw [hcongr st.maze B (hst.trans hMB) cur]
            exact hp
          simp only [hprobe]
          have hrep1 : relax setd cur ns ⟨B, rest, st.interior, st.cost⟩ =
              some ⟨B, st1.frontier, st1.interior, st1.cost⟩ := hrep
          simp only [hrep1]
          exact ih st1 hfront1 h

theorem pass_replay (probe : Maze → position → Option (List position))
    (setd : Nat → Tile → Tile) (getd : Tile → Nat) (hget : ∀ v t, getd (setd v t) = v)
    (htype : ∀ v t, Tile.type (setd v t) = Tile.type t)
    (hfix : ∀ v t, getd t = v → setd v t = t)
    (hcongr : ∀ a b, Frame Tile.type a b → ∀ u, probe b u = probe a u)
    (S : List position) (m M B : Maze) (fuel : Nat)
    (h : pass probe setd S m fuel = Outcome.done M) (hMB : Frame Tile.type M B)
    (hfield : ∀ q, (B.call q).map getd = (M.call q).map getd) :
    pass probe setd S B fuel = Outcome.done B := by
  have hzero := pass_seeds_zero probe setd getd hget S m M fuel h
  unfold pass at h ⊢
  cases hs : seed setd S { maze := m, frontier := [], interior := [], cost := fun _ => none } with
  | none => simp [hs] at h
  | some st =>
    simp only [hs] at h
    obtain ⟨h1, h2, _, _, _, _⟩ := seed_spec setd getd hget S _ st hs
    have hfront : ∀ q ∈ st.frontier, q ∈ st.interior := by
      intro q hq
      rw [h1] at hq
      exact (h2 q).2 (Or.inr (by simpa using hq))
    have hrep := seed_replay setd getd hfix B S ⟨m, [], [], fun _ => none⟩ st hs
      (fun s hs1 => by
        obtain ⟨t, ht, hg⟩ := hzero s hs1
        rw [hfield s, ht, Option.map_some', hg])
    have hrep1 : seed setd S ⟨B, [], [], fun _ => none⟩ =
        some ⟨B, st.frontier, st.interior, st.cost⟩ := hrep
    have hB0 : ({ maze := B, frontier := [], interior := [], cost := fun _ => none } : Pass) =
        ⟨B, [], [], fun _ => none⟩ := rfl
    rw [hB0]
    simp only [hrep1]
    exact pass_loop_replay probe setd getd hget htype hfix hcongr M B hMB hfield fuel st
      hfront h

/-- C15: the distance annotations are final once computed: when
`calculate_displacement_mapping` completes, a second call on the resulting board (same
grid, same crate starts and targets, same fuel) completes as well and returns that board
unchanged, so every `source_displacement` and `target_displacement` stays as the first
call left it. -/
theorem displacement_idempotent (m m2 : Maze) (fuel : Nat)
    (h : m.calculate_displacement_mapping fuel = Outcome.done m2) :
    m2.calculate_displacement_mapping fuel = Outcome.done m2 := by
  obtain ⟨m1, h1, h2⟩ := calculate_displacement_mapping_done h
  have hf12 : Frame Tile.type m1 m2 :=
    pass_frame Tile.type _ set_target (fun _ _ => rfl) _ m1 m2 fuel h2
  have hs12 : Frame Tile.source_displacement m1 m2 :=
    pass_frame Tile.source_displacement _ set_target (fun _ _ => rfl) _ m1 m2 fuel h2
  have hf01 : Frame Tile.type m m1 :=
    pass_frame Tile.type _ set_source (fun _ _ => rfl) _ m m1 fuel h1
  have hfixS : ∀ v t, Tile.source_displacement t = v → set_source v t = t := by
    intro v t hv
    subst hv
    rfl
  have hfixT : ∀ v t, Tile.target_displacement t = v → set_target v t = t := by
    intro v t hv
    subst hv
    rfl
  have hsrc : m2.source_pass fuel = Outcome.done m2 := by
    unfold source_pass
    rw [hf12.2.1, hf01.2.1]
    exact pass_replay source_neighbors set_source Tile.source_displacement (fun _ _ => rfl)
      (fun _ _ => rfl) hfixS (fun a b hab u => source_neighbors_frame hab u)
      m.crates_starting_pos m m1 m2 fuel h1 hf12 hs12.1
  have htgt : m2.target_pass fuel = Outcome.done m2 := by
    unfold target_pass
    rw [hf12.2.2.1]
    exact pass_replay target_neighbors set_target Tile.target_displacement (fun _ _ => rfl)
      (fun _ _ => rfl) hfixT (fun a b hab u => target_neighbors_frame hab u)
      m1.crates_ending_pos m1 m2 m2 fuel h2 (Frame.refl _ _) (fun _ => rfl)
  unfold calculate_displacement_mapping
  simp only [hsrc, htgt]

theorem displacement_idempotent_witness :
    demo_cell_done.calculate_displacement_mapping 3 = Outcome.done demo_cell_done :=
  displacement_idempotent demo_cell demo_cell_done 3 rfl

/-- C20: on a board whose tile count is a `size_t` value, whose non-Obstacle tiles have
their four cardinal neighbours on the grid and whose crate starts and targets are
non-Obstacle tiles, `calculate_displacement_mapping` returns given enough fuel: no
accessor assertion fails and both passes terminate.  At every non-Obstacle tile the
one-step probes of the source pass and the one- and two-step probes of the target pass
all pass the accessor's assertion. -/
theorem displacement_safe (m : Maze) (fuel : Nat) (henc : Enclosed m)
    (hS : ∀ p ∈ m.crates_starting_pos, NonObstacle m p)
    (hT : ∀ p ∈ m.crates_ending_pos, NonObstacle m p) (harea : area m ≤ SIZE_MAX)
    (hfS : area m + m.crates_starting_pos.length + 1 ≤ fuel)
    (hfT : area m + m.crates_ending_pos.length + 1 ≤ fuel) :
    (∃ m2, m.calculate_displacement_mapping fuel = Outcome.done m2) ∧
      ∀ u, NonObstacle m u →
        (∃ ns, m.source_neighbors u = some ns) ∧ (∃ ns, m.target_neighbors u = some ns) := by
  refine ⟨calculate_displacement_mapping_returns m fuel henc hS hT harea hfS hfT, ?_⟩
  intro u hu
  obtain ⟨n1, h1, _⟩ := source_neighbors_spec m henc u hu
  obtain ⟨n2, h2, _⟩ := target_neighbors_spec m henc u hu
  exact ⟨⟨n1, h1⟩, ⟨n2, h2⟩⟩

theorem displacement_safe_witness :
    (∃ m2, demo_room.calculate_displacement_mapping 27 = Outcome.done m2) ∧
      ∀ u, NonObstacle demo_room u →
        (∃ ns, demo_room.source_neighbors u = some ns) ∧
          (∃ ns, demo_room.target_neighbors u = some ns) :=
  displacement_safe demo_room 27 (by decide) (by decide) (by decide) (by decide)
    (by decide) (by decide)

theorem notObstacle_call {m : Maze} {p : position} {b : Bool} (h : m.notObstacle p = some b) :
    ∃ t, m.call p = some t := by
  unfold notObstacle at h
  cases hc : m.call p with
  | none => simp [hc] at h
  | some t => exact ⟨t, rfl⟩

theorem source_axis_on_grid (m : Maze) (a b : position) (ns ns1 : List position)
    (h : m.source_axis a b ns = some ns1) (hns : ∀ v ∈ ns, ∃ t, m.call v = some t) :
    ∀ v ∈ ns1, ∃ t, m.call v = some t := by
  unfold source_axis at h
  cases ha : m.notObstacle a with
  | none => simp [ha] at h
  | some ba =>
    cases ba with
    | false =>
      simp only [ha, Option.some.injEq] at h
      exact h ▸ hns
    | true =>
      cases hb : m.notObstacle b with
      | none => simp [ha, hb] at h
      | some bb =>
        cases bb with
        | false =>
          simp only [ha, hb, Option.some.injEq] at h
          exact h ▸ hns
        | true =>
          simp only [ha, hb, Option.some.injEq] at h
          subst h
          intro v hv
          rcases List.mem_append.1 hv with hv | hv
          · exact hns v hv
          · simp only [List.mem_cons, List.mem_singleton, List.not_mem_nil, or_false] at hv
            rcases hv with hv | hv
            · exact hv ▸ notObstacle_call ha
            · exact hv ▸ notObstacle_call hb

theorem target_dir_on_grid (m : Maze) (a b : position) (ns ns1 : List position)
    (h : m.target_dir a b ns = some ns1) (hns : ∀ v ∈ ns, ∃ t, m.call v = some t) :
    ∀ v ∈ ns1, ∃ t, m.call v = some t := by
  unfold target_dir at h
  cases ha : m.notObstacle a with
  | none => simp [ha] at h
  | some ba =>
    cases ba with
    | false =>
      simp only [ha, Option.some.injEq] at h
      exact h ▸ hns
    | true =>
      cases hb : m.notObstacle b with
      | none => simp [ha, hb] at h
      | some bb =>
        cases bb with
        | false =>
          simp only [ha, hb, Option.some.injEq] at h
          exact h ▸ hns
        | true =>
          simp only [ha, hb, Option.some.injEq] at h
          subst h
          intro v hv
          rcases List.mem_append.1 hv with hv | hv
          · exact hns v hv
          · simp only [List.mem_singleton] at hv
            exact hv ▸ notObstacle_call ha

theorem source_neighbors_on_grid (m : Maze) (u : position) (ns : List position)
    (h : m.source_neighbors u = some ns) : ∀ v ∈ ns, ∃ t, m.call v = some t := by
  unfold source_neighbors at h
  cases h1 : m.source_axis (up u) (down u) [] with
  | none => simp [h1] at h
  | some n1 =>
    simp only [h1, Option.some_bind] at h
    exact source_axis_on_grid m _ _ n1 ns h
      (source_axis_on_grid m _ _ [] n1 h1 (fun v hv => absurd hv (List.not_mem_nil _)))

theorem target_neighbors_on_grid (m : Maze) (u : position) (ns : List position)
    (h : m.target_neighbors u = some ns) : ∀ v ∈ ns, ∃ t, m.call v = some t := by
  unfold target_neighbors at h
  cases h1 : m.target_dir (up u) (up (up u)) [] with
  | none => simp [h1] at h
  | some n1 =>
    simp only [h1, Option.some_bind] at h
    cases h2 : m.target_dir (right u) (right (right u)) n1 with
    | none => simp [h2] at h
    | some n2 =>
      simp only [h2, Option.some_bind] at h
      cases h3 : m.target_dir (down u) (down (down u)) n2 with
      | none => simp [h3] at h
      | some n3 =>
        simp only [h3, Option.some_bind] at h
        exact target_dir_on_grid m _ _ n3 ns h
          (target_dir_on_grid m _ _ n2 n3 h3
            (target_dir_on_grid m _ _ n1 n2 h2
              (target_dir_on_grid m _ _ [] n1 h1
                (fun v hv => absurd hv (List.not_mem_nil _)))))

theorem pass_loop_no_timeout (probe : Maze → position → Option (List position))
    (setd : Nat → Tile → Tile) (htype : ∀ v t, Tile.type (setd v t) = Tile.type t)
    (hgrid : ∀ m u ns, probe m u = some ns → ∀ v ∈ ns, ∃ t, m.call v = some t)
    (m0 : Maze) :
    ∀ (fuel : Nat) (st : Pass), Frame Tile.type m0 st.maze →
      (∀ q ∈ st.frontier, q ∈ st.interior) →
      unseenIn (positions m0) st.interior + st.frontier.length < fuel →
      pass_loop probe setd fuel st ≠ Outcome.timeout := by
  intro fuel
  induction fuel with
  | zero => intro st _ _ h; omega
  | succ fuel ih =>
    intro st hframe hfront hfuel
    unfold pass_loop
    cases hf : st.frontier with
    | nil => simp
    | cons cur rest =>
      simp only
      cases hp : probe st.maze cur with
      | none => simp
      | some ns =>
        simp only
        cases hr : relax setd cur ns { st with frontier := rest } with
        | none => simp
        | some st1 =>
          simp only
          have hcur : cur ∈ st.interior := hfront cur (hf ▸ List.mem_cons_self _ _)
          have hU : ∀ v ∈ ns, v ∉ st.interior → v ∈ positions m0 := by
            intro v hv _
            have h1 := (valid_iff_call st.maze v).2 (hgrid st.maze cur ns hp v hv)
            rw [hframe.valid v] at h1
            exact (mem_positions m0 v).2 h1
          obtain ⟨new, h1, _, _, h4, _, _, _, _, _, h10⟩ :=
            relax_spec setd cur (positions m0) ns ⟨st.maze, rest, st.interior, st.cost⟩ st1
              hcur hU hr
          have h1 : st1.frontier = rest ++ new := h1
          have h10 : unseenIn (positions m0) st1.interior + new.length ≤
              unseenIn (positions m0) st.interior := h10
          apply ih st1
          · exact hframe.trans (relax_frame Tile.type setd htype cur ns
              ⟨st.maze, rest, st.interior, st.cost⟩ st1 hr)
          · intro q hq
            rw [h1] at hq
            rcases List.mem_append.1 hq with hq | hq
            · exact (h4 q).2 (Or.inl (hfront q (hf ▸ List.mem_cons_of_mem _ hq)))
            · exact (h4 q).2 (Or.inr hq)
          · rw [hf] at hfuel
            rw [h1]
            simp only [List.length_append, List.length_cons] at hfuel ⊢
            omega

theorem pass_no_timeout (probe : Maze → position → Option (List position))
    (setd : Nat → Tile → Tile) (getd : Tile → Nat) (hget : ∀ v t, getd (setd v t) = v)
    (htype : ∀ v t, Tile.type (setd v t) = Tile.type t)
    (hgrid : ∀ m u ns, probe m u = some ns → ∀ v ∈ ns, ∃ t, m.call v = some t)
    (S : List position) (m0 ms : Maze) (hms : Frame Tile.type m0 ms) (fuel : Nat)
    (hfuel : area m0 + S.length + 1 ≤ fuel) :
    pass probe setd S ms fuel ≠ Outcome.timeout := by
  unfold pass
  cases hs : seed setd S { maze := ms, frontier := [], interior := [], cost := fun _ => none } with
  | none => simp
  | some st =>
    simp only
    obtain ⟨h1, h2, _, _, _, _⟩ := seed_spec setd getd hget S _ st hs
    have h1 : st.frontier = S := by simpa using h1
    apply pass_loop_no_timeout probe setd htype hgrid m0 fuel st
    · exact hms.trans (seed_frame Tile.type setd htype S _ st hs)
    · intro q hq
      rw [h1] at hq
      exact (h2 q).2 (Or.inr hq)
    · have := unseenIn_le (positions m0) st.interior
      rw [length_positions] at this
      rw [h1]
      omega

theorem calculate_displacement_mapping_no_timeout (m : Maze) (fuel : Nat)
    (hfS : area m + m.crates_starting_pos.length + 1 ≤ fuel)
    (hfT : area m + m.crates_ending_pos.length + 1 ≤ fuel) :
    m.calculate_displacement_mapping fuel ≠ Outcome.timeout := by
  have h1 : m.source_pass fuel ≠ Outcome.timeout :=
    pass_no_timeout source_neighbors set_source Tile.source_displacement (fun _ _ => rfl)
      (fun _ _ => rfl) source_neighbors_on_grid m.crates_starting_pos m m (Frame.refl _ _)
      fuel hfS
  unfold calculate_displacement_mapping
  cases hs : m.source_pass fuel with
  | timeout => exact absurd hs h1
  | abort => simp
  | done m1 =>
    simp only
    have hf : Frame Tile.type m m1 :=
      pass_frame Tile.type _ set_source (fun _ _ => rfl) _ m m1 fuel hs
    unfold target_pass
    rw [hf.2.2.1]
    exact pass_no_timeout target_neighbors set_target Tile.target_displacement
      (fun _ _ => rfl) (fun _ _ => rfl) target_neighbors_on_grid m.crates_ending_pos m m1 hf
      fuel hfT

/-- C7: with fuel for every tile and every seed, `calculate_displacement_mapping` never
runs on for ever: on every board it either stops on a failed accessor assertion or
returns, and when it returns every crate-start tile has `source_displacement` 0 and every
crate-target tile has `target_displacement` 0.  It does return on every board whose tile
count is a `size_t` value, whose non-Obstacle tiles have their four neighbours on the grid
and whose crate starts and targets are non-Obstacle tiles. -/
theorem displacement_seeds_zero (m : Maze) (fuel : Nat)
    (hfS : area m + m.crates_starting_pos.length + 1 ≤ fuel)
    (hfT : area m + m.crates_ending_pos.length + 1 ≤ fuel) :
    (m.calculate_displacement_mapping fuel = Outcome.abort ∨
        ∃ m2, m.calculate_displacement_mapping fuel = Outcome.done m2 ∧
          (∀ p ∈ m.crates_starting_pos,
            (m2.call p).map Tile.source_displacement = some 0) ∧
          (∀ p ∈ m.crates_ending_pos,
            (m2.call p).map Tile.target_displacement = some 0)) ∧
      (Enclosed m → (∀ p ∈ m.crates_starting_pos, NonObstacle m p) →
        (∀ p ∈ m.crates_ending_pos, NonObstacle m p) → area m ≤ SIZE_MAX →
        ∃ m2, m.calculate_displacement_mapping fuel = Outcome.done m2 ∧
          (∀ p ∈ m.crates_starting_pos,
            (m2.call p).map Tile.source_displacement = some 0) ∧
          (∀ p ∈ m.crates_ending_pos,
            (m2.call p).map Tile.target_displacement = some 0)) := by
  constructor
  · cases h : m.calculate_displacement_mapping fuel with
    | timeout => exact absurd h (calculate_displacement_mapping_no_timeout m fuel hfS hfT)
    | abort => exact Or.inl rfl
    | done m2 => exact Or.inr ⟨m2, rfl, seeds_zero_of_done m m2 fuel h⟩
  · intro henc hS hT harea
    obtain ⟨m2, h⟩ := calculate_displacement_mapping_returns m fuel henc hS hT harea hfS hfT
    exact ⟨m2, h, seeds_zero_of_done m m2 fuel h⟩

theorem displacement_seeds_zero_witness :
    ∃ m2, demo_room.calculate_displacement_mapping 27 = Outcome.done m2 ∧
      (∀ p ∈ demo_room.crates_starting_pos,
        (m2.call p).map Tile.source_displacement = some 0) ∧
      (∀ p ∈ demo_room.crates_ending_pos,
        (m2.call p).map Tile.target_displacement = some 0) :=
  (displacement_seeds_zero demo_room 27 (by decide) (by decide)).2 (by decide)
    (by decide) (by decide) (by decide)

end Maze
